import Mathlib

/-! Embedding and verified properties of gospodapi-server.

The definitions below embed `src/mod_journal.go`, the handlers of `src/mod_registry.go`,
the restore procedure of `src/mod_backup.go` and the response helpers of `src/main.go`.
Conventions:

* Go `int` / `int64` values are `Int`s; every arithmetic operation that can leave the
  64-bit range is wrapped with `wrap64` (two's complement wrap-around).
* A Go run-time panic (nil dereference, index out of range) is the result `none`.
* Go maps are association lists with unique keys (`gmGet`, `gmSet`).
* `time.Time` is represented by the observations the program makes of it.
* `float64` values are the softfloat `F64`, rounded to nearest, ties to even.
* Calls into the store, the JSON codec, `sort.Slice` and the file system are parameters of
  the definitions that make them.
-/

namespace Gospodapi

/-! ## Machine integers -/

/-- Two's complement wrap-around of a mathematical integer into the `int64` range. -/
def wrap64 (x : Int) : Int :=
  (x + 9223372036854775808) % 18446744073709551616 - 9223372036854775808

/-- The value fits the Go type `int64`. -/
def isInt64 (x : Int) : Prop :=
  -9223372036854775808 ≤ x ∧ x < 9223372036854775808

instance (x : Int) : Decidable (isInt64 x) := by
  unfold isInt64
  exact inferInstance

/-! ## Go maps as association lists -/

/-- Map lookup `m[k]` with the comma-ok result as an `Option`. -/
def gmGet {β : Type} : List (String × β) → String → Option β
  | [], _ => none
  | (k, v) :: rest, key => if k = key then some v else gmGet rest key

/-- Map assignment `m[k] = v`: an existing binding is replaced, a new one is added. -/
def gmSet {β : Type} : List (String × β) → String → β → List (String × β)
  | [], key, val => [(key, val)]
  | (k, v) :: rest, key, val =>
    if k = key then (k, val) :: rest else (k, v) :: gmSet rest key val

/-- The keys of a map. -/
def gmKeys {β : Type} (m : List (String × β)) : List String :=
  m.map Prod.fst

/-! ## Time values -/

/-- A `time.Time` value, represented by what the program observes of it: the instant
(seconds and nanoseconds since the Unix epoch) and the calendar month, weekday and day of
the month in the value's own location. -/
structure Time where
  sec : Int
  nsec : Nat
  month : Nat
  weekday : Nat
  day : Nat
deriving DecidableEq

/-- The method `Time.Equal`: both values denote the same instant. -/
def Time.Equal (t u : Time) : Bool :=
  decide (t.sec = u.sec) && decide (t.nsec = u.nsec)

/-- The method `Time.After`: `t` is a later instant than `u`. -/
def Time.After (t u : Time) : Bool :=
  decide (t.sec > u.sec) || (decide (t.sec = u.sec) && decide (t.nsec > u.nsec))

/-- The method `Time.Month` (January = 1). -/
def Time.Month (t : Time) : Nat := t.month

/-- The method `Time.Weekday` (Sunday = 0). -/
def Time.Weekday (t : Time) : Nat := t.weekday

/-- The method `Time.Day`. -/
def Time.Day (t : Time) : Nat := t.day

/-- The method `Time.Unix`. -/
def Time.Unix (t : Time) : Int := t.sec

/-! ## Transactions of the `expenses` library -/

/-- Modelled from the spec: the `Detail` type of the external `expenses` library, with the
two fields the journal reads.  The amount is an `int64` in the code (it is assigned to
`record.Amount` without conversion). -/
structure Detail where
  Amount : Int
  LabelName : String
deriving DecidableEq

/-- Modelled from the spec: the `Transaction` type of the external `expenses` library, with
the fields the journal reads.  `UUID` is a pointer in the code, `none` is the nil pointer. -/
structure Transaction where
  UUID : Option String
  Signature : String
  Date : Time
  Amount : Int
  SenderName : String
  ReceiverName : String
  LabelName : String
  Headers : String
  Details : List Detail
deriving DecidableEq

/-! ## Records -/

/-- The journal value object `record`. -/
structure record where
  Sender : String
  Receiver : String
  Label : String
  Date : Time
  Amount : Int
  Parent : String
deriving DecidableEq

/-- The method `record.Party`. -/
def record.Party (r : record) : String :=
  "sender=" ++ r.Sender ++ " receiver=" ++ r.Receiver

/-! ## Headers -/

/-- The predicate `unicode.IsSpace`. -/
def isSpace (c : Char) : Bool :=
  let n := c.toNat
  n = 9 || n = 10 || n = 11 || n = 12 || n = 13 || n = 32 || n = 133 || n = 160 ||
  n = 5760 || (8192 ≤ n && n ≤ 8202) || n = 8232 || n = 8233 || n = 8239 || n = 8287 ||
  n = 12288

/-- Scan of `strings.Fields`: `cur` is the field being read. -/
def fieldsAux : List Char → List Char → List (List Char)
  | [], cur => if cur.isEmpty then [] else [cur]
  | c :: cs, cur =>
    if isSpace c then
      if cur.isEmpty then fieldsAux cs [] else cur :: fieldsAux cs []
    else fieldsAux cs (cur ++ [c])

/-- The function `strings.Fields`: the maximal runs of non-space characters. -/
def Fields (s : String) : List String :=
  (fieldsAux s.data []).map String.mk

/-- The token loop of `_fromHeaders`; `strings.Index(token, keyword) == 0` holds exactly
when `keyword` is a prefix of `token`. -/
def fromHeadersLoop (keyword : String) : List String → String × Bool
  | [] => ("", false)
  | token :: rest =>
    if keyword.data.isPrefixOf token.data then
      (String.mk (token.data.drop keyword.data.length), true)
    else fromHeadersLoop keyword rest

/-- The function `_fromHeaders`. -/
def _fromHeaders (headers : String) (keyword : String) : String × Bool :=
  fromHeadersLoop keyword (Fields headers)

/-- The function `_fromTransaction`; dereferencing a nil `UUID` panics. -/
def _fromTransaction (t : Transaction) : Option record :=
  let senderName :=
    match _fromHeaders t.Headers "sender=" with
    | (name, true) => name
    | (_, false) => t.SenderName
  let receiverName :=
    match _fromHeaders t.Headers "receiver=" with
    | (name, true) => name
    | (_, false) => t.ReceiverName
  match t.UUID with
  | none => none
  | some uuid =>
    some { Sender := senderName, Receiver := receiverName, Label := t.LabelName,
           Date := t.Date, Amount := t.Amount, Parent := uuid }

/-! ## Similarity grades -/

/-- The method `record.CompareWith`. -/
def record.CompareWith (r : record) (r2 : record) : Int :=
  if r2.Amount = r.Amount ∧ r2.Date.Equal r.Date = true then
    (if r2.Sender = r.Sender then 1 else 0) + (if r2.Receiver = r.Receiver then 2 else 0)
      + (if r2.Label = r.Label then 4 else 0)
  else 0

/-- The method `record.CompareWithTransaction`. -/
def record.CompareWithTransaction (r : record) (t : Transaction) : Int :=
  if t.Amount = r.Amount ∧ t.Date.Equal r.Date = true then
    let senderName :=
      match _fromHeaders t.Headers "sender=" with
      | (name, true) => name
      | (_, false) => t.SenderName
    let receiverName :=
      match _fromHeaders t.Headers "receiver=" with
      | (name, true) => name
      | (_, false) => t.ReceiverName
    (if senderName = r.Sender then 1 else 0) + (if receiverName = r.Receiver then 2 else 0)
      + (if t.LabelName = r.Label then 4 else 0)
  else 0

/-! ## Record explosion in `_evaluate` -/

/-- The inner loop of `_evaluate` over `trx.Details`: `details` is the slice filled so far
and `total` the running `int64` sum of the shadow amounts. -/
def explodeDetails (trx : Transaction) :
    List Detail → List record → Int → Option (List record × Int)
  | [], details, total => some (details, total)
  | dls :: rest, details, total =>
    match _fromTransaction trx with
    | none => none
    | some shadow =>
      let amount := if trx.Amount < 0 then wrap64 (dls.Amount * -1) else dls.Amount
      let shadowRecord : record := { shadow with Label := dls.LabelName, Amount := amount }
      explodeDetails trx rest (details ++ [shadowRecord]) (wrap64 (total + shadowRecord.Amount))

/-- The body of the loop `for _, trx := range reg` of `_evaluate`: the records appended for
one transaction. -/
def evaluateStep (trx : Transaction) : Option (List record) :=
  if trx.Details.length > 0 then
    match explodeDetails trx trx.Details [] 0 with
    | none => none
    | some (details, total) => if trx.Amount = total then some details else some []
  else
    match _fromTransaction trx with
    | none => none
    | some r => some [r]

/-- The loop `for _, trx := range reg` of `_evaluate`, started with the records so far. -/
def evaluateRecords : List Transaction → List record → Option (List record)
  | [], records => some records
  | trx :: rest, records =>
    match evaluateStep trx with
    | none => none
    | some rs => evaluateRecords rest (records ++ rs)

/-! ## Fixtures for record explosion and similarity -/

/-- A valid detail-bearing transaction one of whose details has amount zero. -/
def zeroDetailTransaction : Transaction :=
  { UUID := some "5fc3b398-5b17-4ee3-a464-82af2c1b2ef9", Signature := "xxx",
    Date := { sec := 1607212800, nsec := 0, month := 12, weekday := 0, day := 6 },
    Amount := -3000, SenderName := "Actor #1", ReceiverName := "Actor #5", LabelName := "?",
    Headers := "",
    Details := [{ Amount := 3000, LabelName := "A" }, { Amount := 0, LabelName := "B" }] }

/-- A transaction of amount zero whose three detail amounts add up to `2^64`. -/
def wrappingTransaction : Transaction :=
  { UUID := some "5fc3b398-5b17-4ee3-a464-82af2c1b2ef9", Signature := "xxx",
    Date := { sec := 1607212800, nsec := 0, month := 12, weekday := 0, day := 6 },
    Amount := 0, SenderName := "Actor #1", ReceiverName := "Actor #5", LabelName := "?",
    Headers := "",
    Details := [{ Amount := 9223372036854775807, LabelName := "A" },
                { Amount := 9223372036854775807, LabelName := "B" },
                { Amount := 2, LabelName := "C" }] }

/-- The candidate of `TestSimilarTransactionsWithPayload`. -/
def similarCandidate : record :=
  { Sender := "Actor #1", Receiver := "Actor #5", Label := "",
    Date := { sec := 1580947200, nsec := 0, month := 2, weekday := 4, day := 6 },
    Amount := -1500, Parent := "xxx" }

/-- A stored transaction of the same day and amount between the same actors, under another
label. -/
def similarTransaction : Transaction :=
  { UUID := some "00000000-0000-0000-0000-000000000003", Signature := "test-signature",
    Date := { sec := 1580947200, nsec := 0, month := 2, weekday := 4, day := 6 },
    Amount := -1500, SenderName := "Actor #1", ReceiverName := "Actor #5",
    LabelName := "Label #1.1", Headers := "", Details := [] }

/-! ## The headers override in the words of the specification -/

/-- Spec wording of the headers override: the text after `key` in the first
whitespace-separated token of `headers` that starts with `key` when there is such a token,
and the structured name `fallback` otherwise. -/
def resolvedName (headers key fallback : String) : String :=
  match (Fields headers).find? (fun token => key.data.isPrefixOf token.data) with
  | some token => String.mk (token.data.drop key.data.length)
  | none => fallback

/-! ## Features -/

/-- The type `feature`.  The two polarity counters are bounded by the number of records
folded into the feature (a slice length), so their increments cannot overflow. -/
structure feature where
  Category : String
  Polarity : Int × Int
  Amounts : List Int
  Weekdays : List Nat
  Months : List Nat
  Days : List Nat
deriving DecidableEq

/-- The method `feature.HasMonth`. -/
def feature.HasMonth (f : feature) (month : Nat) : Bool :=
  f.Months.contains month

/-- The method `feature.HasWeekday`. -/
def feature.HasWeekday (f : feature) (weekday : Nat) : Bool :=
  f.Weekdays.contains weekday

/-- The method `feature.HasDay`. -/
def feature.HasDay (f : feature) (day : Nat) : Bool :=
  f.Days.contains day

/-- The absolute value computed by `absValue := int(r.Amount); if absValue < 0 { absValue *= -1 }`
on a 64-bit platform. -/
def absValue (amount : Int) : Int :=
  if amount < 0 then wrap64 (amount * -1) else amount

/-- The method `record.ToFeature`. -/
def record.ToFeature (r : record) : feature :=
  { Category := r.Label,
    Polarity := if r.Amount < 0 then (0, 1) else (1, 0),
    Amounts := [absValue r.Amount],
    Weekdays := [r.Date.Weekday],
    Months := [r.Date.Month],
    Days := [r.Date.Day] }

/-- The method `feature.Update` on a pointer receiver: the result is the feature after the
call together with the returned error (`none` is the nil error).  `sort.Ints` and
`sort.SliceStable` produce the ascending arrangement of the slice. -/
def feature.Update (f : feature) (r : record) : feature × Option String :=
  if r.Label ≠ f.Category then
    (f, some ("cannot update feature `" ++ f.Category ++
      "` with record from another category `" ++ r.Label ++ "`"))
  else
    let polarity : Int × Int :=
      if r.Amount < 0 then (f.Polarity.1, f.Polarity.2 + 1) else (f.Polarity.1 + 1, f.Polarity.2)
    let amounts := (f.Amounts ++ [absValue r.Amount]).insertionSort (· ≤ ·)
    let weekdays :=
      if !f.HasWeekday r.Date.Weekday then
        (f.Weekdays ++ [r.Date.Weekday]).insertionSort (· ≤ ·)
      else f.Weekdays
    let days :=
      if !f.HasDay r.Date.Day then (f.Days ++ [r.Date.Day]).insertionSort (· ≤ ·)
      else f.Days
    ({ f with Polarity := polarity, Amounts := amounts, Weekdays := weekdays, Days := days },
      none)

/-! ## Tendency -/

/-- The type `routines`: party, then category, then the features of the category. -/
abbrev routines := List (String × List (String × List feature))

/-- The type `tendency`. -/
abbrev tendency := List (String × List feature)

/-- The constant `UNNAMED_ENTRY`. -/
def UNNAMED_ENTRY : String := "?"

/-- The function `_calculate`; the map `model` is passed in and the updated map is returned.
Indexing an empty slice (`features[0]`, `Months[0]`) panics. -/
def _calculate (model : routines) (party : String) (nextMonth : Nat) (record : record) :
    Option routines :=
  match gmGet model party with
  | some categories =>
    match gmGet categories record.Label with
    | some features =>
      match features with
      | [] => none
      | lastFeature :: tail =>
        match lastFeature.Months with
        | [] => none
        | lastMonth :: _ =>
          if lastMonth + 1 = nextMonth ∨ (lastMonth = 12 ∧ nextMonth = 1) then
            match ({ lastFeature with Months := nextMonth :: lastFeature.Months }).Update record with
            | (_, some _) => some model
            | (updated, none) =>
              some (gmSet model party (gmSet categories record.Label (updated :: tail)))
          else if record.Date.Month = lastMonth then
            match lastFeature.Update record with
            | (_, some _) => some model
            | (updated, none) =>
              some (gmSet model party (gmSet categories record.Label (updated :: tail)))
          else
            some (gmSet model party
              (gmSet categories record.Label (record.ToFeature :: features)))
    | none => some (gmSet model party (gmSet categories record.Label [record.ToFeature]))
  | none => some (gmSet model party (gmSet [] record.Label [record.ToFeature]))

/-- The loop `for i := len(records) - 1; i > 0; i--` of `_compute`; the second argument is
the value of `i` before the test. -/
def computeLoop (records : List record) : Nat → routines → Option routines
  | 0, model => some model
  | i + 1, model =>
    match records[i + 1]?, records[i]? with
    | some record, some newer =>
      if record.Label ≠ UNNAMED_ENTRY then
        match _calculate model record.Party newer.Date.Month record with
        | none => none
        | some model' => computeLoop records i model'
      else computeLoop records i model
    | _, _ => none

/-- The flattening loop of `_compute`.  Go leaves the iteration order of a map unspecified;
the order of the association list is taken here. -/
def flatten (model : routines) : tendency :=
  model.map (fun entry =>
    (entry.1, entry.2.foldl (fun conclusion category => conclusion ++ category.2) []))

/-- The function `_compute`. -/
def _compute (records : List record) : Option tendency :=
  match computeLoop records (records.length - 1) [] with
  | none => none
  | some model => some (flatten model)

/-! ## Fixtures for the tendency -/

/-- A record of the fixture of `TestPredictiveModel` (sender `Alexandru`). -/
def cateringRecord (receiver label : String) (sec : Int) (month weekday day : Nat)
    (amount : Int) (parent : String) : record :=
  { Sender := "Alexandru", Receiver := receiver, Label := label,
    Date := { sec := sec, nsec := 0, month := month, weekday := weekday, day := day },
    Amount := amount, Parent := parent }

/-- The record list `mockupJournalRecords` of `TestPredictiveModel`. -/
def cateringFixture : List record :=
  [ cateringRecord "(livrator)" "Catering" 1581811200 2 0 16 (-5000) "e1bd9319-e4f2-47cc-98b4-764d83d755dc",
    cateringRecord "(livrator)" "Catering" 1582243200 2 5 21 (-4000) "538aefe5-b568-44f8-849b-5c1e09a1955f",
    cateringRecord "(livrator)" "Catering" 1582588800 2 2 25 (-3000) "996971f1-4fb7-4617-8d00-a3a0cf88de7f",
    cateringRecord "(livrator)" "Catering" 1593043200 6 4 25 (-5899) "7e33e52d-50f7-475b-8e24-94456a0c48b0",
    cateringRecord "(livrator)" "Catering" 1599091200 9 4 3 (-5149) "04a887e9-c71d-43b4-88ff-1e5304a86a31",
    cateringRecord "(livrator)" "Catering" 1607990400 12 2 15 (-4899) "79455d48-657b-45a1-91e2-93980b164667",
    cateringRecord "(livrator)" "Catering" 1612483200 2 5 5 (-10299) "2a1019cb-b80a-4110-ba52-68c7f261751f",
    cateringRecord "(livrator)" "Alimente" 1575590400 12 5 6 (-5688) "f12742c0-1139-42c4-aa0c-2a3fed09cce7",
    cateringRecord "(livrator)" "Alimente" 1576886400 12 6 21 (-3017) "3560655a-421a-4b6d-b1a2-61637393d3ca",
    cateringRecord "(livrator)" "Alimente" 1580428800 1 5 31 (-6541) "19637fe1-8cf1-47c0-a05b-7e96c77f72f8",
    cateringRecord "(livrator)" "Alimente" 1581724800 2 6 15 (-1197) "a2a6018f-58e4-47fe-a6b9-019b354357c5",
    cateringRecord "(livrator)" "Alimente" 1581984000 2 2 18 (-9563) "2d947c20-f8ec-49c5-9d38-a068beaa3131",
    cateringRecord "(livrator)" "Alimente" 1583539200 3 6 7 (-4645) "b838f807-7fb9-4974-82b3-bc051379e973",
    cateringRecord "(livrator)" "Articole sănătate și fitness" 1595894400 7 2 28 (-29400) "30a78d1e-35e6-4131-91be-6f060583796d",
    cateringRecord "(supermarket)" "Alimente" 1583712000 3 1 9 (-16197) "a2a6018f-58e4-47fe-a6b9-019b354357c5",
    cateringRecord "(supermarket)" "Alimente" 1581984000 2 2 18 (-19563) "2d947c20-f8ec-49c5-9d38-a068beaa3131",
    cateringRecord "(supermarket)" "Alimente" 1583539200 3 6 7 (-14645) "b838f807-7fb9-4974-82b3-bc051379e973" ]

/-- The fixture of `TestPredictiveModel` with another record of the same month (February)
at index 0. -/
def cateringFixtureSwapped : List record :=
  { Sender := "Maria", Receiver := "(magazin)", Label := "Chirie",
    Date := { sec := 1612137600, nsec := 0, month := 2, weekday := 1, day := 1 },
    Amount := 250000, Parent := "00000000-0000-0000-0000-000000000000" } ::
    cateringFixture.tail

/-- A record of the `test-signature` fixture, as listed by the expected download rows of
`TestStreamSignedTransactionRecords` (the parent UUIDs are not part of the rows). -/
def signatureRecord (sender receiver label : String) (sec : Int) (month weekday day : Nat)
    (amount : Int) : record :=
  { Sender := sender, Receiver := receiver, Label := label,
    Date := { sec := sec, nsec := 0, month := month, weekday := weekday, day := day },
    Amount := amount, Parent := "" }

/-- The records of the `test-signature` fixture in download order. -/
def signatureFixture : List record :=
  [ signatureRecord "actor.#6-xxxx-xxxx-xxxx-xxxxxxxxxxxx" "actor.#1-xxxx-xxxx-xxxx-xxxxxxxxxxxx"
      "Label #3" 1581724800 2 6 15 1240000,
    signatureRecord "Actor #1" "Actor #2" "Label #1.2" 1580947200 2 4 6 (-930),
    signatureRecord "Actor #1" "Actor #5" "Label #1.1" 1580947200 2 4 6 (-1500),
    signatureRecord "Actor #1" "Actor #2" "Label #1.1" 1580860800 2 3 5 (-3822),
    signatureRecord "Actor #1" "Actor #2" "Label #1.2" 1580860800 2 3 5 (-2410) ]

/-! ## Invariants of the tendency model -/

/-- Every feature list of a category map is non-empty and all its features satisfy `P`. -/
def catsAll (P : feature → Prop) (categories : List (String × List feature)) : Prop :=
  ∀ category ∈ categories, category.2 ≠ [] ∧ ∀ f ∈ category.2, P f

/-- Every party of the model has a category, every category a feature, and every stored
feature satisfies `P`. -/
def modelAll (P : feature → Prop) (model : routines) : Prop :=
  ∀ entry ∈ model, entry.2 ≠ [] ∧ catsAll P entry.2

/-- The closure properties of a feature: non-empty month list, ascending amounts, ascending
duplicate-free weekdays and days, and polarity counters that add up to the number of
amounts. -/
def featureClosed (f : feature) : Prop :=
  f.Months ≠ [] ∧ f.Amounts ≠ [] ∧ f.Weekdays ≠ [] ∧ f.Days ≠ [] ∧
  f.Amounts.Sorted (· ≤ ·) ∧
  (f.Weekdays.Sorted (· ≤ ·) ∧ f.Weekdays.Nodup) ∧
  (f.Days.Sorted (· ≤ ·) ∧ f.Days.Nodup) ∧
  f.Polarity.1 + f.Polarity.2 = f.Amounts.length

/-- A feature that has only counted outgoing records. -/
def featureOutgoing (f : feature) : Prop :=
  featureClosed f ∧ f.Polarity.1 = 0

/-! ## Floating point -/

/-- An IEEE-754 binary64 value (`float64`).  A finite value is the dyadic rational
`m * 2^e`; the representation of a finite value is not unique.  The sign of a zero is not
recorded: the program converts floats to integers and divides only by converted integers,
so a negative zero is never observed. -/
inductive F64 where
  | nan : F64
  | inf (neg : Bool) : F64
  | fin (m : Int) (e : Int) : F64
deriving DecidableEq

/-- Binary logarithm by repeated halving, `fuel` bounding the number of steps. -/
def log2Fuel : Nat → Nat → Nat
  | 0, _ => 0
  | fuel + 1, n => if n < 2 then 0 else log2Fuel fuel (n / 2) + 1

/-- The floor of the binary logarithm of a positive natural number. -/
def ilog2 (n : Nat) : Nat := log2Fuel n n

/-- The floor of the binary logarithm of the positive rational `n / d`. -/
def ratLog2 (n d : Nat) : Int :=
  let l : Int := (ilog2 n : Int) - (ilog2 d : Int)
  if 0 ≤ l then
    if d * 2 ^ l.toNat ≤ n then l else l - 1
  else
    if d ≤ n * 2 ^ (-l).toNat then l else l - 1

/-- Rounding to the nearest integer, ties to even, of the non-negative rational `n / d`. -/
def roundHalfEven (n d : Nat) : Nat :=
  let k := n / d
  let r := n % d
  if 2 * r < d then k
  else if d < 2 * r then k + 1
  else if k % 2 = 0 then k else k + 1

/-- Rounding of the real number `± (n / d) * 2^e` (`d` positive) to the nearest binary64
value, ties to even, with gradual underflow and overflow to infinity. -/
def F64.round (neg : Bool) (n d : Nat) (e : Int) : F64 :=
  if n = 0 then F64.fin 0 0
  else
    let q : Int := max (e + ratLog2 n d - 52) (-1074)
    let k : Nat :=
      if q ≤ e then roundHalfEven (n * 2 ^ (e - q).toNat) d
      else roundHalfEven n (d * 2 ^ (q - e).toNat)
    if 972 ≤ q ∨ (q = 971 ∧ 9007199254740992 ≤ k) then F64.inf neg
    else F64.fin (if neg then -(k : Int) else (k : Int)) q

/-- The conversion `float64(n)` of an integer. -/
def F64.ofInt (n : Int) : F64 :=
  F64.round (decide (n < 0)) n.natAbs 1 0

/-- Negation. -/
def F64.neg : F64 → F64
  | F64.nan => F64.nan
  | F64.inf s => F64.inf (!s)
  | F64.fin m e => F64.fin (-m) e

/-- The sum `a + b`. -/
def F64.add : F64 → F64 → F64
  | F64.nan, _ => F64.nan
  | _, F64.nan => F64.nan
  | F64.inf s, F64.inf t => if s = t then F64.inf s else F64.nan
  | F64.inf s, F64.fin _ _ => F64.inf s
  | F64.fin _ _, F64.inf t => F64.inf t
  | F64.fin m1 e1, F64.fin m2 e2 =>
    let e := min e1 e2
    let m := m1 * 2 ^ (e1 - e).toNat + m2 * 2 ^ (e2 - e).toNat
    F64.round (decide (m < 0)) m.natAbs 1 e

/-- The difference `a - b`. -/
def F64.sub (a b : F64) : F64 := F64.add a (F64.neg b)

/-- The product `a * b`. -/
def F64.mul : F64 → F64 → F64
  | F64.nan, _ => F64.nan
  | _, F64.nan => F64.nan
  | F64.inf s, F64.inf t => F64.inf (s != t)
  | F64.inf s, F64.fin m _ => if m = 0 then F64.nan else F64.inf (s != decide (m < 0))
  | F64.fin m _, F64.inf t => if m = 0 then F64.nan else F64.inf (t != decide (m < 0))
  | F64.fin m1 e1, F64.fin m2 e2 =>
    let m := m1 * m2
    F64.round (decide (m < 0)) m.natAbs 1 (e1 + e2)

/-- The quotient `a / b`; a zero divisor is the positive zero. -/
def F64.div : F64 → F64 → F64
  | F64.nan, _ => F64.nan
  | _, F64.nan => F64.nan
  | F64.inf _, F64.inf _ => F64.nan
  | F64.inf s, F64.fin m _ => F64.inf (s != decide (m < 0))
  | F64.fin _ _, F64.inf _ => F64.fin 0 0
  | F64.fin m1 e1, F64.fin m2 e2 =>
    if m2 = 0 then
      if m1 = 0 then F64.nan else F64.inf (decide (m1 < 0))
    else
      F64.round (decide (m1 < 0) != decide (m2 < 0)) m1.natAbs m2.natAbs (e1 - e2)

/-- The function `math.Floor`. -/
def F64.floor : F64 → F64
  | F64.fin m e => if 0 ≤ e then F64.fin m e else F64.fin (m / 2 ^ (-e).toNat) 0
  | x => x

/-- The function `math.Ceil`. -/
def F64.ceil : F64 → F64
  | F64.fin m e => if 0 ≤ e then F64.fin m e else F64.fin (-((-m) / 2 ^ (-e).toNat)) 0
  | x => x

/-- The conversion `int(x)`: truncation toward zero.  For a NaN, an infinity or a value
outside the `int64` range Go leaves the result to the implementation; the result of the
amd64 conversion instruction, `-2^63`, is taken. -/
def F64.toInt : F64 → Int
  | F64.fin m e =>
    let t : Int := if 0 ≤ e then m * 2 ^ e.toNat else Int.tdiv m (2 ^ (-e).toNat)
    if -9223372036854775808 ≤ t ∧ t < 9223372036854775808 then t else -9223372036854775808
  | _ => -9223372036854775808

/-- The comparison `a <= b` of two floats (false when either is a NaN). -/
def F64.le : F64 → F64 → Bool
  | F64.nan, _ => false
  | _, F64.nan => false
  | F64.inf s, F64.inf t => s || !t
  | F64.inf s, F64.fin _ _ => s
  | F64.fin _ _, F64.inf t => !t
  | F64.fin m1 e1, F64.fin m2 e2 =>
    let e := min e1 e2
    decide (m1 * 2 ^ (e1 - e).toNat ≤ m2 * 2 ^ (e2 - e).toNat)

/-! ## Amount bands -/

/-- The function `_power`; the loop `for i := 2; i <= exp; i++` runs `exp - 1` times when
`exp` is at least 2 and not at all otherwise. -/
def powerLoop (num : Int) : Nat → Int → Int
  | 0, result => result
  | n + 1, result => powerLoop num n (wrap64 (result * num))

/-- The function `_power`. -/
def _power (num exp : Int) : Int :=
  if exp = 0 then 1 else powerLoop num (exp - 1).toNat num

/-- The function `_total`. -/
def _total (ns : List Int) : Int :=
  ns.foldl (fun total n => wrap64 (total + n)) 0

/-- Number of decimal digits of a natural number, `fuel` bounding the number of steps. -/
def decimalDigits : Nat → Nat → Nat
  | 0, _ => 1
  | fuel + 1, n => if n < 10 then 1 else decimalDigits fuel (n / 10) + 1

/-- The length of `fmt.Sprintf("%d", amount)`: the decimal digits and the minus sign. -/
def decimalLength (amount : Int) : Nat :=
  (if amount < 0 then 1 else 0) + decimalDigits amount.natAbs amount.natAbs

/-- The function `_isBetweenAmountAprox`. -/
def _isBetweenAmountAprox (amount : Int) (value : Int) : Bool :=
  let digits : Int := (decimalLength amount : Int) - 2
  let pow10 := F64.ofInt (_power 10 digits)
  let ratio := F64.div (F64.ofInt amount) pow10
  let min := F64.mul (F64.floor ratio) pow10
  let max := F64.mul (F64.ceil ratio) pow10
  decide (F64.toInt min ≤ value) && decide (value ≤ F64.toInt max)

/-- The closure `calcAmountsMedian` of `_isBetweenAmountDeviation`; an index outside the
slice panics. -/
def calcAmountsMedian (ns : List Int) : Option Int :=
  if ns.length % 2 = 1 then ns[ns.length / 2]?
  else
    let nextIndex := ns.length / 2
    if nextIndex = 0 then none
    else
      match ns[nextIndex - 1]?, ns[nextIndex]? with
      | some p, some n => some (Int.tdiv (wrap64 (p + n)) 2)
      | _, _ => none

/-- The closure `calcDeviationMedian` of `_isBetweenAmountDeviation`; an index outside the
slice panics. -/
def calcDeviationMedian (ns : List F64) : Option F64 :=
  if ns.length % 2 = 1 then ns[ns.length / 2]?
  else
    let nextIndex := ns.length / 2
    if nextIndex = 0 then none
    else
      match ns[nextIndex - 1]?, ns[nextIndex]? with
      | some p, some n => some (F64.div (F64.add p n) (F64.ofInt 2))
      | _, _ => none

/-- The body of the deviation loop of `_isBetweenAmountDeviation` at index `i`. -/
def deviationAt (allAmounts : List Int) (i : Nat) : Option F64 :=
  match allAmounts[i]?, allAmounts[i + 1]? with
  | some a, some b => some (F64.div (F64.ofInt (wrap64 (b - a))) (F64.ofInt b))
  | _, _ => none

/-- All results of a list of fallible steps, or `none` when one of them panics. -/
def collect {α : Type} : List (Option α) → Option (List α)
  | [] => some []
  | none :: _ => none
  | some x :: rest =>
    match collect rest with
    | none => none
    | some xs => some (x :: xs)

/-- The function `_isBetweenAmountDeviation`; `none` is a panic. -/
def _isBetweenAmountDeviation (amounts : List Int) (value : Int) : Option Bool :=
  let allAmounts := (amounts ++ [value]).insertionSort (· ≤ ·)
  match collect ((List.range (allAmounts.length - 1)).map (deviationAt allAmounts)) with
  | none => none
  | some deviation =>
    match calcAmountsMedian allAmounts, calcDeviationMedian deviation with
    | some m, some deviationMedian =>
      let amountMedian := F64.ofInt m
      let dif := F64.mul amountMedian deviationMedian
      let min := F64.sub amountMedian dif
      let max := F64.add amountMedian dif
      some (decide (F64.toInt min ≤ value) && decide (value ≤ F64.toInt max))
    | _, _ => none

/-! ## Scoring of candidates in `_research` -/

/-- The type `pointbus`, an array of six integers: deviation hit, approximate hit, month
hit, weekday hit, day hit, popularity. -/
structure pointbus where
  s0 : Int
  s1 : Int
  s2 : Int
  s3 : Int
  s4 : Int
  s5 : Int
deriving DecidableEq

/-- The slots of a point bus in index order. -/
def pointbus.toList (p : pointbus) : List Int :=
  [p.s0, p.s1, p.s2, p.s3, p.s4, p.s5]

/-- The loop `totalPoints[i] = points[i] + accPoints[i]` of `_research`. -/
def pointbus.add (points accPoints : pointbus) : pointbus :=
  { s0 := wrap64 (points.s0 + accPoints.s0), s1 := wrap64 (points.s1 + accPoints.s1),
    s2 := wrap64 (points.s2 + accPoints.s2), s3 := wrap64 (points.s3 + accPoints.s3),
    s4 := wrap64 (points.s4 + accPoints.s4), s5 := wrap64 (points.s5 + accPoints.s5) }

/-- The body of the loop `for _, feature := range features` of `_research` up to the
update of `score`: `some none` is a `continue`, `some (some points)` the point bus that the
feature adds to `score[feature.Category]`, and `none` a panic. -/
def featurePoints (feature : feature) (record : record) : Option (Option pointbus) :=
  if feature.Amounts.length = 0 then some none
  else if (feature.Polarity.1 = 0 ∧ record.Amount > 0) ∨
      (feature.Polarity.2 = 0 ∧ record.Amount < 0) then some none
  else
    let absValue := absValue record.Amount
    let amountHit : Option (Int × Int) :=
      if feature.Amounts.length > 1 then
        match _isBetweenAmountDeviation feature.Amounts absValue with
        | none => none
        | some hit => some (if hit then 1 else 0, 0)
      else
        match feature.Amounts[0]? with
        | none => none
        | some amount => some (0, if _isBetweenAmountAprox amount absValue then 1 else 0)
    match amountHit with
    | none => none
    | some (p0, p1) =>
      let points : pointbus :=
        { s0 := p0, s1 := p1,
          s2 := if feature.HasMonth record.Date.Month then 1 else 0,
          s3 := if feature.HasWeekday record.Date.Weekday then 1 else 0,
          s4 := if feature.HasDay record.Date.Day then 1 else 0,
          s5 := 0 }
      if _total points.toList = 0 then some none
      else
        some (some { points with
          s5 := wrap64 (points.s5 +
            Int.tdiv (wrap64 (feature.Polarity.1 + feature.Polarity.2)) 2) })

/-- The update of `score[feature.Category]` at the end of the loop body. -/
def scoreStep (score : List (String × pointbus)) (category : String) (points : pointbus) :
    List (String × pointbus) :=
  match gmGet score category with
  | some accPoints => gmSet score category (pointbus.add points accPoints)
  | none => gmSet score category points

/-- The loop `for _, feature := range features` of `_research`. -/
def scoreLoop (record : record) :
    List feature → List (String × pointbus) → Option (List (String × pointbus))
  | [], score => some score
  | feature :: rest, score =>
    match featurePoints feature record with
    | none => none
    | some none => scoreLoop record rest score
    | some (some points) => scoreLoop record rest (scoreStep score feature.Category points)

/-- The type `similarity`. -/
structure similarity where
  Grade : Int
  Mirror : record
  Parent : Transaction
deriving DecidableEq

/-- The type `statement`, which embeds `record`. -/
structure statement extends record where
  Calculated : List (String × pointbus)
  Similarity : List similarity
deriving DecidableEq

/-- The type `results` of the entries of the cache `memory`. -/
structure results where
  records : List record
  patterns : tendency
deriving DecidableEq

/-- The loop `for _, transaction := range reg` of `_research`. -/
def similarityLoop (record : record) :
    List Transaction → List similarity → Option (List similarity)
  | [], sims => some sims
  | transaction :: rest, sims =>
    let g := record.CompareWithTransaction transaction
    if g > 0 then
      match _fromTransaction transaction with
      | none => none
      | some mirror =>
        similarityLoop record rest
          (sims ++ [{ Grade := g, Mirror := mirror, Parent := transaction }])
    else similarityLoop record rest sims

/-- The body of the loop `for index, record := range records` of `_research`: the statement
built for one candidate.  The cache `memory` is passed in. -/
def researchStep (memory : List (String × results)) (reg : List Transaction)
    (signature : String) (record : record) : Option statement :=
  match similarityLoop record reg [] with
  | none => none
  | some sims =>
    match gmGet memory signature with
    | none => some { record with Calculated := [], Similarity := sims }
    | some rs =>
      match gmGet rs.patterns record.Party with
      | some features =>
        match scoreLoop record features [] with
        | none => none
        | some score => some { record with Calculated := score, Similarity := sims }
      | none => some { record with Calculated := [], Similarity := sims }

/-- The loop `for index, record := range records` of `_research`. -/
def researchLoop (memory : List (String × results)) (reg : List Transaction)
    (signature : String) : List record → List statement → Option (List statement)
  | [], statements => some statements
  | record :: rest, statements =>
    match researchStep memory reg signature record with
    | none => none
    | some st => researchLoop memory reg signature rest (statements ++ [st])

/-- The function `_research`, with the cache `memory` as a parameter. -/
def _research (memory : List (String × results)) (reg : List Transaction)
    (records : List record) (signature : String) : Option (List statement) :=
  researchLoop memory reg signature records []

/-! ## The deviation band in the words of the specification -/

/-- Spec wording: `A := sort(amounts plus absV)`. -/
def bandAmounts (amounts : List Int) (absV : Int) : List Int :=
  (amounts ++ [absV]).insertionSort (· ≤ ·)

/-- Spec wording: `D[i] := (A[i+1] - A[i]) / A[i+1]`, a float. -/
def bandDeviations (A : List Int) : List F64 :=
  List.zipWith (fun a b => F64.div (F64.ofInt (b - a)) (F64.ofInt b)) A A.tail

/-- Spec wording: the integer median of an ascending list, the mean of the two centers for
an even size. -/
def medianInt (A : List Int) : Int :=
  if A.length % 2 = 1 then A.getD (A.length / 2) 0
  else (A.getD (A.length / 2 - 1) 0 + A.getD (A.length / 2) 0) / 2

/-- Spec wording: the median of a list of floats, the middle of the list in ascending
order, the mean of the two centers for an even size. -/
def medianF64 (D : List F64) : F64 :=
  let S := D.insertionSort (fun x y => F64.le x y = true)
  if S.length % 2 = 1 then S.getD (S.length / 2) F64.nan
  else F64.div (F64.add (S.getD (S.length / 2 - 1) F64.nan) (S.getD (S.length / 2) F64.nan))
    (F64.ofInt 2)

/-- The middle of a list of floats in index order, the mean of the two centers for an even
size; it is the median of the list when the list is in ascending order. -/
def middleF64 (D : List F64) : F64 :=
  if D.length % 2 = 1 then D.getD (D.length / 2) F64.nan
  else F64.div (F64.add (D.getD (D.length / 2 - 1) F64.nan) (D.getD (D.length / 2) F64.nan))
    (F64.ofInt 2)

/-- Spec wording: the lower bound `m_a - band` with `band := m_a * m_d`. -/
def bandLow (amounts : List Int) (absV : Int) : F64 :=
  let m_a := F64.ofInt (medianInt (bandAmounts amounts absV))
  let m_d := medianF64 (bandDeviations (bandAmounts amounts absV))
  F64.sub m_a (F64.mul m_a m_d)

/-- Spec wording: the upper bound `m_a + band` with `band := m_a * m_d`. -/
def bandHigh (amounts : List Int) (absV : Int) : F64 :=
  let m_a := F64.ofInt (medianInt (bandAmounts amounts absV))
  let m_d := medianF64 (bandDeviations (bandAmounts amounts absV))
  F64.add m_a (F64.mul m_a m_d)

/-- The acceptance test as the specification states it: `m_a - band ≤ absV ≤ m_a + band`. -/
def deviationBandStated (amounts : List Int) (absV : Int) : Bool :=
  F64.le (bandLow amounts absV) (F64.ofInt absV) &&
    F64.le (F64.ofInt absV) (bandHigh amounts absV)

/-- The acceptance test with both bounds converted to integers by truncation toward zero:
`int(m_a - band) ≤ absV ≤ int(m_a + band)`. -/
def deviationBandTruncated (amounts : List Int) (absV : Int) : Bool :=
  decide (F64.toInt (bandLow amounts absV) ≤ absV) &&
    decide (absV ≤ F64.toInt (bandHigh amounts absV))

/-! ## Fixtures for scoring -/

/-- The candidate of `TestModelTendency`. -/
def predictionCandidate : record :=
  { Sender := "Actor #1", Receiver := "Actor #2", Label := "",
    Date := { sec := 1617321600, nsec := 0, month := 4, weekday := 5, day := 2 },
    Amount := -1200, Parent := "xxx" }

/-- The feature of category `Label #1.2` in the tendency of the `test-signature` fixture. -/
def predictionFeature : feature :=
  { Category := "Label #1.2", Polarity := (0, 2), Amounts := [930, 2410],
    Weekdays := [3, 4], Months := [2], Days := [5, 6] }

/-! ## HTTP responses -/

/-- The build variables `VERSION`, `BUILD`, `OSARCH` and `LICENSE` of `main.go`. -/
structure Build where
  VERSION : String
  BUILD : String
  OSARCH : String
  LICENSE : String
deriving DecidableEq

/-- The state of an `http.ResponseWriter`: the header map, the status code once it is
written, and the body written so far. -/
structure ResponseWriter where
  Header : List (String × String)
  Status : Option Nat
  Body : String
deriving DecidableEq

/-- A response writer before the handler runs. -/
def ResponseWriter.fresh : ResponseWriter :=
  { Header := [], Status := none, Body := "" }

/-- The call `w.Header().Set(key, value)` for a key in canonical form; the headers of the
response are fixed once the status is written. -/
def ResponseWriter.Set (w : ResponseWriter) (key value : String) : ResponseWriter :=
  match w.Status with
  | none => { w with Header := gmSet w.Header key value }
  | some _ => w

/-- The method `WriteHeader`; a second call has no effect. -/
def ResponseWriter.WriteHeader (w : ResponseWriter) (code : Nat) : ResponseWriter :=
  match w.Status with
  | none => { w with Status := some code }
  | some _ => w

/-- The call `fmt.Fprint(w, text)`; a write before `WriteHeader` sends the status 200. -/
def ResponseWriter.Write (w : ResponseWriter) (text : String) : ResponseWriter :=
  { w with Status := some (w.Status.getD 200), Body := w.Body ++ text }

/-- The value of the header `X-Server`. -/
def serverHeader (build : Build) : String :=
  "gospodapi v" ++ build.VERSION ++ "_" ++ build.LICENSE ++ "; " ++ build.OSARCH ++ "; " ++
    build.BUILD

/-- The method `Response.Wrong`; `err` is the text of `err.Error()`.  The log line is not
part of the model. -/
def Response.Wrong (build : Build) (w : ResponseWriter) (err : String) : ResponseWriter :=
  (((w.Set "Content-Type" "text/plain; charset=utf-8").Set "X-Server"
    (serverHeader build)).WriteHeader 400).Write err

/-- The method `Response.Fault`; `err` is the text of `err.Error()`. -/
def Response.Fault (build : Build) (w : ResponseWriter) (err : String) : ResponseWriter :=
  (((w.Set "Content-Type" "text/plain; charset=utf-8").Set "X-Server"
    (serverHeader build)).WriteHeader 500).Write err

/-- The method `Response.Okay`; `lap` is the text of `fmt.Sprintf("%v", lap)`. -/
def Response.Okay (build : Build) (w : ResponseWriter) (output : String) (isCached : Bool)
    (lap : String) : ResponseWriter :=
  (((((w.Set "Content-Type" "application/json; charset=utf-8").Set "X-Cache"
    (if isCached then "true" else "false")).Set "X-Benchmark" lap).Set "X-Server"
    (serverHeader build)).WriteHeader 200).Write output

/-- The method `Response.OkayStream`; `isCached` only reaches the log line. -/
def Response.OkayStream (build : Build) (w : ResponseWriter) (output : String)
    (_isCached : Bool) (lap : String) : ResponseWriter :=
  ((((w.Set "Content-Type" "text/csv; charset=utf-8").Set "X-Benchmark" lap).Set "X-Server"
    (serverHeader build)).WriteHeader 200).Write output

/-! ## The registry and its route cache -/

/-- Map deletion `delete(m, key)`. -/
def gmDelete {β : Type} : List (String × β) → String → List (String × β)
  | [], _ => []
  | (k, v) :: rest, key => if k = key then gmDelete rest key else (k, v) :: gmDelete rest key

/-- What a call of `_resolvePullRequest` leaves behind: the response, the route cache, and
whether `expenses.NewPullRequest` was called. -/
structure PullOutcome where
  response : ResponseWriter
  cache : List (String × String)
  queried : Bool
deriving DecidableEq

/-- The function `_resolvePullRequest`.  `registryRoutesCache` is the global route cache,
`path` is `rq.URL.Path`, and `pullRequest` is what `expenses.NewPullRequest(reg, ctx)`
returns when it is called (the JSON of the pulled entities or the error text). -/
def _resolvePullRequest (build : Build) (registryRoutesCache : List (String × String))
    (path : String) (pullRequest : Except String String) (lap : String)
    (w : ResponseWriter) : PullOutcome :=
  match gmGet registryRoutesCache path with
  | some cached =>
    { response := Response.Okay build w cached true lap, cache := registryRoutesCache,
      queried := false }
  | none =>
    match pullRequest with
    | Except.error err =>
      { response := Response.Fault build w err, cache := registryRoutesCache,
        queried := true }
    | Except.ok out =>
      { response := Response.Okay build w out false lap,
        cache := gmSet registryRoutesCache path out, queried := true }

/-- What a call of `_resolvePushRequest` leaves behind: the response, the route cache, and
the registry handed to `expenses.NewPushRequest` when it was called. -/
structure PushOutcome (α : Type) where
  response : ResponseWriter
  cache : List (String × String)
  pushed : Option α

/-- The function `_resolvePushRequest`.  `body` is the result of `ioutil.ReadAll(rq.Body)`,
`fromJson` is `expenses.FromJson` into the registry of the route, and `pushRequest` is
`expenses.NewPushRequest` on the decoded registry. -/
def _resolvePushRequest {α : Type} (build : Build)
    (registryRoutesCache : List (String × String)) (path : String)
    (body : Except String String) (fromJson : String → Except String α)
    (pushRequest : α → Except String String) (lap : String) (w : ResponseWriter) :
    PushOutcome α :=
  match body with
  | Except.error err =>
    { response := Response.Wrong build w err, cache := registryRoutesCache, pushed := none }
  | Except.ok payload =>
    match fromJson payload with
    | Except.error err =>
      { response := Response.Wrong build w err, cache := registryRoutesCache,
        pushed := none }
    | Except.ok reg =>
      match pushRequest reg with
      | Except.error err =>
        { response := Response.Fault build w err, cache := registryRoutesCache,
          pushed := some reg }
      | Except.ok out =>
        { response := Response.Okay build w out false lap,
          cache := gmDelete registryRoutesCache path, pushed := some reg }

/-- The handlers `registry.readJsonActors`, `registry.readJsonLabels`,
`registry.readJsonTransactions` and `registry.readJsonMonthlyTransactions`: each one calls
`_resolvePullRequest` with the pull of its own entities. -/
def registry.readJson (build : Build) (registryRoutesCache : List (String × String))
    (path : String) (pullRequest : Except String String) (lap : String)
    (w : ResponseWriter) : PullOutcome :=
  _resolvePullRequest build registryRoutesCache path pullRequest lap w

/-- The handler `registry.writeJsonActors`. -/
def registry.writeJsonActors {α : Type} (build : Build)
    (registryRoutesCache : List (String × String)) (path : String)
    (body : Except String String) (fromJson : String → Except String α)
    (pushRequest : α → Except String String) (lap : String) (w : ResponseWriter) :
    PushOutcome α :=
  _resolvePushRequest build registryRoutesCache path body fromJson pushRequest lap w

/-- The handler `registry.writeJsonLabels`. -/
def registry.writeJsonLabels {α : Type} (build : Build)
    (registryRoutesCache : List (String × String)) (path : String)
    (body : Except String String) (fromJson : String → Except String α)
    (pushRequest : α → Except String String) (lap : String) (w : ResponseWriter) :
    PushOutcome α :=
  _resolvePushRequest build registryRoutesCache path body fromJson pushRequest lap w

/-- The handler `registry.writeJsonTransactions`: the route cache is recreated after the
push request, whatever its outcome. -/
def registry.writeJsonTransactions {α : Type} (build : Build)
    (registryRoutesCache : List (String × String)) (path : String)
    (body : Except String String) (fromJson : String → Except String α)
    (pushRequest : α → Except String String) (lap : String) (w : ResponseWriter) :
    PushOutcome α :=
  { _resolvePushRequest build registryRoutesCache path body fromJson pushRequest lap w with
    cache := [] }

/-- A GET request on a read route of the registry: the path, what the store would answer,
and the measured duration. -/
structure GetRequest where
  path : String
  pullRequest : Except String String
  lap : String

/-- The route cache after a sequence of GET requests on read routes of the registry. -/
def serveGets (build : Build) :
    List (String × String) → List GetRequest → List (String × String)
  | cache, [] => cache
  | cache, rq :: rest =>
    serveGets build
      (registry.readJson build cache rq.path rq.pullRequest rq.lap ResponseWriter.fresh).cache
      rest

/-! ## Download -/

/-- The text of `fmt.Sprintf("%d", n)`. -/
def formatInt (n : Int) : String := toString n

/-- The method `record.ToSlice`. -/
def record.ToSlice (r : record) : List String :=
  [r.Sender, r.Receiver, r.Label, formatInt r.Date.Unix, formatInt r.Amount, r.Parent]

/-- The method `fieldNeedsQuotes` of `csv.Writer` with the comma as delimiter. -/
def fieldNeedsQuotes (field : String) : Bool :=
  match field.data with
  | [] => false
  | first :: rest =>
    field = "\\." || (first :: rest).any (fun c => c = ',' || c = '"' || c = '\r' || c = '\n')
      || isSpace first

/-- The quoted form of the characters of a field: every quote is doubled (`UseCRLF` is
off, so line breaks are written as they are). -/
def csvEscape : List Char → List Char
  | [] => []
  | c :: rest => if c = '"' then '"' :: '"' :: csvEscape rest else c :: csvEscape rest

/-- What `csv.Writer.Write` writes for one field. -/
def csvField (field : String) : String :=
  if fieldNeedsQuotes field then String.mk ('"' :: csvEscape field.data ++ ['"']) else field

/-- The field loop of `csv.Writer.Write`; `n` is the index of the first field of the
list. -/
def csvFields : Nat → List String → String
  | _, [] => ""
  | n, field :: rest => (if n > 0 then "," else "") ++ csvField field ++ csvFields (n + 1) rest

/-- The method `csv.Writer.Write`: the fields and the line break. -/
def csvWrite (record : List String) : String :=
  csvFields 0 record ++ "\n"

/-- The handler `journal.download`.  The cache `memory` is passed in. -/
def journal.download (build : Build) (memory : List (String × results))
    (signature : String) (lap : String) (w : ResponseWriter) : ResponseWriter :=
  let buf :=
    match gmGet memory signature with
    | some rs => rs.records.foldl (fun buf record => buf ++ csvWrite record.ToSlice) ""
    | none => ""
  Response.OkayStream build w buf true lap

/-! ## Restore -/

/-- Modelled from the spec: an actor of the external `expenses` library, identified by its
name. -/
structure Actor where
  Name : String
deriving DecidableEq

/-- Modelled from the spec: a label of the external `expenses` library, identified by its
name, with an optional parent. -/
structure Label where
  Name : String
  ParentName : Option String
deriving DecidableEq

/-- The type `uploader`. -/
structure uploader where
  Transactions : List Transaction
  Actors : List Actor
  Labels : List Label
deriving DecidableEq

/-- An entry of a ZIP archive: its name and the result of the closure `unpack` on it (an
error of `f.Open` or `ioutil.ReadAll` makes `unpack` panic). -/
structure ZipFile where
  Name : String
  Content : Except String String

/-- The file system as the restore procedure observes it: every existing path with the
result of `zip.OpenReader` on it (the entries of the archive, or the error text for a file
that is not a ZIP archive).  A path without binding does not exist. -/
abbrev FileSystem := List (String × Except String (List ZipFile))

/-- The functions of the standard library and of the `expenses` library that the restore
procedure calls: `filepath.Separator`, `filepath.Dir`, `filepath.Base`, and
`expenses.FromJson` into each registry (the registry after the call and the error). -/
structure RestoreEnv where
  Separator : String
  Dir : String → String
  Base : String → String
  transactionsFromJson : String → List Transaction → List Transaction × Option String
  actorsFromJson : String → List Actor → List Actor × Option String
  labelsFromJson : String → List Label → List Label × Option String

/-- The file written by `ioutil.WriteFile(lock, nil, 0644)`: an empty file, which is not a
ZIP archive. -/
def emptyFile : Except String (List ZipFile) :=
  Except.error "zip: not a valid zip file"

/-- The body of the loop `for _, file := range zf.File` of `FromZip` for one entry: the
uploader and `err` after the assignment, or the value of the panic of `unpack`. -/
def fromZipEntry (env : RestoreEnv) (file : ZipFile) (u : uploader) (err : Option String) :
    Except String (uploader × Option String) :=
  if file.Name = "reg_transactions.json" then
    match file.Content with
    | Except.error e => Except.error e
    | Except.ok bytez =>
      let decoded := env.transactionsFromJson bytez u.Transactions
      Except.ok ({ u with Transactions := decoded.1 }, decoded.2)
  else if file.Name = "reg_actors.json" then
    match file.Content with
    | Except.error e => Except.error e
    | Except.ok bytez =>
      let decoded := env.actorsFromJson bytez u.Actors
      Except.ok ({ u with Actors := decoded.1 }, decoded.2)
  else if file.Name = "reg_labels.json" then
    match file.Content with
    | Except.error e => Except.error e
    | Except.ok bytez =>
      let decoded := env.labelsFromJson bytez u.Labels
      Except.ok ({ u with Labels := decoded.1 }, decoded.2)
  else Except.ok (u, err)

/-- The loop `for _, file := range zf.File` of `FromZip`. -/
def fromZipLoop (env : RestoreEnv) :
    List ZipFile → uploader → Option String → Except String (uploader × Option String)
  | [], u, err => Except.ok (u, err)
  | file :: rest, u, err =>
    match fromZipEntry env file u err with
    | Except.error e => Except.error e
    | Except.ok (u', err') =>
      match err' with
      | some e => Except.ok (u', some e)
      | none => fromZipLoop env rest u' none

/-- The path of the lock of an archive: `filepath.Dir(zfp) + fsep + "." + filepath.Base(zfp)`. -/
def lockPath (env : RestoreEnv) (zfp : String) : String :=
  env.Dir zfp ++ env.Separator ++ "." ++ env.Base zfp

/-- The method `uploader.LockZip`: the file system after the call, `exists` and `err`.
`os.Stat` finds the lock or reports that it does not exist, and writing the lock succeeds;
other failures of the file system are not part of the model. -/
def uploader.LockZip (env : RestoreEnv) (fs : FileSystem) (zfp : String) :
    FileSystem × Bool × Option String :=
  let lock := lockPath env zfp
  match gmGet fs lock with
  | none => (gmSet fs lock emptyFile, false, none)
  | some _ => (fs, true, none)

/-- The method `uploader.FromZip`: the file system after the call and either the uploader
with the returned error or the value of the panic of `unpack`. -/
def uploader.FromZip (env : RestoreEnv) (fs : FileSystem) (u : uploader) (zfp : String) :
    FileSystem × Except String (uploader × Option String) :=
  match gmGet fs zfp with
  | none => (fs, Except.ok (u, some ("open " ++ zfp ++ ": no such file or directory")))
  | some (Except.error err) => (fs, Except.ok (u, some err))
  | some (Except.ok files) =>
    match uploader.LockZip env fs zfp with
    | (fs', true, err) => (fs', Except.ok (u, err))
    | (fs', false, err) => (fs', fromZipLoop env files u err)

/-- A call of `Push` on one of the three registries, with the entities pushed. -/
inductive PushCall where
  | actors (entities : List Actor) : PushCall
  | labels (entities : List Label) : PushCall
  | transactions (entities : List Transaction) : PushCall
deriving DecidableEq

/-- The run of a procedure against the store: the store at the end, the calls of `Push`
that were made, and the panic that ended the run, if any. -/
structure StoreRun (σ : Type) where
  store : σ
  pushes : List PushCall
  panic : Option String

/-- The closure `mustPush` of `Commit` after a run: nothing happens after a panic, and a
failed push panics. -/
def mustPush {σ : Type} (push : σ → PushCall → Except String σ) (run : StoreRun σ)
    (call : PushCall) : StoreRun σ :=
  match run.panic with
  | some _ => run
  | none =>
    match push run.store call with
    | Except.ok store => { store := store, pushes := run.pushes ++ [call], panic := none }
    | Except.error err =>
      { store := run.store, pushes := run.pushes ++ [call], panic := some err }

/-- The method `uploader.Commit`; `push` is the method `Push` of the registries on the
store `db`. -/
def uploader.Commit {σ : Type} (push : σ → PushCall → Except String σ) (db : σ)
    (u : uploader) : StoreRun σ :=
  mustPush push
    (mustPush push
      (mustPush push { store := db, pushes := [], panic := none } (PushCall.actors u.Actors))
      (PushCall.labels u.Labels))
    (PushCall.transactions u.Transactions)

/-- The function `restore`: the error returned by `FromZip` is not looked at. -/
def restore {σ : Type} (env : RestoreEnv) (push : σ → PushCall → Except String σ) (db : σ)
    (fs : FileSystem) (zipfile : String) : FileSystem × StoreRun σ :=
  match uploader.FromZip env fs { Transactions := [], Actors := [], Labels := [] } zipfile with
  | (fs', Except.error e) => (fs', { store := db, pushes := [], panic := some e })
  | (fs', Except.ok (u, _)) => (fs', uploader.Commit push db u)

/-! ## Analyze -/

/-- The query of the pull of `journal.analyze`: `signature = ? and date between ? and ?`
with the signature, the oldest and the newest date. -/
structure PullQuery where
  signature : String
  oldest : Time
  newest : Time
deriving DecidableEq

/-- The closure that `journal.analyze` passes to `sort.Slice`, on the records at the two
indices: `records[i].Date.After(records[j].Date)`. -/
def analyzeLess (a b : record) : Bool :=
  a.Date.After b.Date

/-- A comparison as `sort.Slice` requires it: nothing is less than itself, and both `less`
and its negation are transitive. -/
def strictWeak (less : record → record → Bool) : Prop :=
  (∀ a, less a a = false) ∧
  (∀ a b c, less a b = true → less b c = true → less a c = true) ∧
  (∀ a b c, less a b = false → less b c = false → less a c = false)

/-- The contract of `sort.Slice` of the Go standard library: for such a comparison the
slice after the call is a permutation of the slice before it in which no element is less
than an element before it.  The order of elements neither of which is less than the other
is not specified. -/
def sortSliceContract (sortSlice : (record → record → Bool) → List record → List record) :
    Prop :=
  ∀ less, strictWeak less → ∀ l,
    (sortSlice less l).Perm l ∧ (sortSlice less l).Pairwise (fun a b => less b a = false)

/-- A sort by insertion, one function that meets the contract of `sort.Slice`. -/
def insertionSlice (less : record → record → Bool) (l : List record) : List record :=
  l.insertionSort (fun a b => less b a = false)

/-- The handler `journal.analyze`: the response and the pulls made, or `none` when the
handler panics.  `body` is the result of `ioutil.ReadAll(rq.Body)`, `unmarshal` is
`json.Unmarshal` into a `collection`, `sortSlice` is `sort.Slice`, which the handler calls
with the comparison `analyzeLess`, `pull` is `reg.Pull` on the store, and `marshal` is
`json.Marshal` of the statements. -/
def journal.analyze (build : Build) (memory : List (String × results))
    (unmarshal : String → Except String (List record))
    (sortSlice : (record → record → Bool) → List record → List record)
    (pull : PullQuery → Except String (List Transaction))
    (marshal : List statement → Except String String)
    (signature : String) (body : Except String String) (lap : String) (w : ResponseWriter) :
    Option (ResponseWriter × List PullQuery) :=
  match body with
  | Except.error err => some (Response.Fault build w err, [])
  | Except.ok payload =>
    match unmarshal payload with
    | Except.error err => some (Response.Fault build w err, [])
    | Except.ok records =>
      if records.length > 0 then
        let records := sortSlice analyzeLess records
        match records[0]?, records[records.length - 1]? with
        | some newest, some oldest =>
          let query : PullQuery :=
            { signature := signature, oldest := oldest.Date, newest := newest.Date }
          match pull query with
          | Except.error err => some (Response.Fault build w err, [query])
          | Except.ok reg =>
            match _research memory reg records signature with
            | none => none
            | some research =>
              match marshal research with
              | Except.error err => some (Response.Fault build w err, [query])
              | Except.ok out => some (Response.Okay build w out false lap, [query])
        | _, _ => none
      else some (Response.Okay build w "[]" false lap, [])

/-! ## Fixtures for the handlers -/

/-- A build of the service. -/
def testBuild : Build :=
  { VERSION := "0.1", BUILD := "1", OSARCH := "linux/amd64", LICENSE := "void?" }

/-- A path split at its last separator: the part before it, when there is a separator,
and the part after it. -/
def splitLast : List Char → Option (List Char) × List Char
  | [] => (none, [])
  | c :: rest =>
    match splitLast rest with
    | (some dir, base) => (some (c :: dir), base)
    | (none, base) => if c = '/' then (some [], base) else (none, c :: base)

/-- The part of a path before its last separator (`.` when there is none), for paths in
clean form. -/
def dirOf (path : String) : String :=
  match (splitLast path.data).1 with
  | none => "."
  | some [] => "/"
  | some dir => String.mk dir

/-- The part of a path after its last separator, for paths in clean form. -/
def baseOf (path : String) : String :=
  String.mk (splitLast path.data).2

/-- An environment of the restore procedure whose decoders accept the empty JSON list and
one list of one entity each, and reject everything else. -/
def testRestoreEnv : RestoreEnv :=
  { Separator := "/", Dir := dirOf, Base := baseOf,
    transactionsFromJson := fun bytez current =>
      if bytez = "[]" then ([], none)
      else if bytez = "[similar]" then ([similarTransaction], none)
      else (current, some "json: cannot unmarshal object into Go value"),
    actorsFromJson := fun bytez current =>
      if bytez = "[]" then ([], none)
      else if bytez = "[Actor #1]" then ([{ Name := "Actor #1" }], none)
      else (current, some "json: cannot unmarshal object into Go value"),
    labelsFromJson := fun bytez current =>
      if bytez = "[]" then ([], none)
      else if bytez = "[Label #1.1]" then ([{ Name := "Label #1.1", ParentName := none }], none)
      else (current, some "json: cannot unmarshal object into Go value") }

/-- A store that keeps the list of the calls of `Push` it has received. -/
def logPush (store : List PushCall) (call : PushCall) : Except String (List PushCall) :=
  Except.ok (store ++ [call])

/-- A file system with one archive `examples/reg.zip` of three recognised entries. -/
def testFileSystem : FileSystem :=
  [("examples/reg.zip", Except.ok
    [{ Name := "reg_transactions.json", Content := Except.ok "[similar]" },
     { Name := "reg_actors.json", Content := Except.ok "[Actor #1]" },
     { Name := "reg_labels.json", Content := Except.ok "[Label #1.1]" }])]

/-- A file system with an archive whose actors decode and whose labels do not. -/
def brokenFileSystem : FileSystem :=
  [("examples/reg.zip", Except.ok
    [{ Name := "reg_actors.json", Content := Except.ok "[Actor #1]" },
     { Name := "reg_labels.json", Content := Except.ok "{}" }])]

/-! ## The approximate band in the words of the specification -/

/-- Spec wording: `digits := len(decimal-string(amount)) - 2`, `p := 10^digits` (`p := 1`
when `digits == 0`), `r := amount / p`, and `absV` is accepted iff
`floor(r)*p ≤ absV ≤ ceil(r)*p`. -/
def aproxBandStated (amount absV : Int) : Prop :=
  let digits : Int := (decimalLength amount : Int) - 2
  let p : ℚ := if digits = 0 then 1 else (10 : ℚ) ^ digits
  let r : ℚ := (amount : ℚ) / p
  (⌊r⌋ : ℚ) * p ≤ (absV : ℚ) ∧ (absV : ℚ) ≤ (⌈r⌉ : ℚ) * p

instance (amount absV : Int) : Decidable (aproxBandStated amount absV) := by
  unfold aproxBandStated
  infer_instance

/-- The band of `aproxBandStated` with the power that `_power` returns for a negative
exponent: `p := 10` when `digits == -1`, that is for an amount of one digit. -/
def aproxBandAmended (amount absV : Int) : Prop :=
  let digits : Int := (decimalLength amount : Int) - 2
  let p : ℚ := if digits = 0 then 1 else if digits = -1 then 10 else (10 : ℚ) ^ digits
  let r : ℚ := (amount : ℚ) / p
  (⌊r⌋ : ℚ) * p ≤ (absV : ℚ) ∧ (absV : ℚ) ≤ (⌈r⌉ : ℚ) * p

instance (amount absV : Int) : Decidable (aproxBandAmended amount absV) := by
  unfold aproxBandAmended
  infer_instance

/-! ## Fixtures for the polarity convention -/

/-- A record of amount zero. -/
def zeroAmountRecord : record :=
  { Sender := "Actor #1", Receiver := "Actor #2", Label := "Label #1.2",
    Date := { sec := 1580947200, nsec := 0, month := 2, weekday := 4, day := 6 },
    Amount := 0, Parent := "" }

/-- A record of the least `int64` amount. -/
def leastAmountRecord : record :=
  { Sender := "Actor #1", Receiver := "Actor #2", Label := "Label #1.2",
    Date := { sec := 1580947200, nsec := 0, month := 2, weekday := 4, day := 6 },
    Amount := -9223372036854775808, Parent := "" }

/-! ## The model of `_compute` and its invariant -/

/-- The list stored under `model[party][category]`, when there is one. -/
def modelLookup (model : routines) (party category : String) : Option (List feature) :=
  match gmGet model party with
  | some categories => gmGet categories category
  | none => none

/-- Every list of a category map is non-empty, and every feature of it has a month and
carries the category under which the list is stored. -/
def catsKeyed (categories : List (String × List feature)) : Prop :=
  ∀ category ∈ categories,
    category.2 ≠ [] ∧ ∀ f ∈ category.2, f.Months ≠ [] ∧ f.Category = category.1

/-- The invariant of the model of `_compute`: every list stored in `model[party][category]`
is non-empty, every stored feature has non-empty `Months`, and every feature stored under
`model[party][category]` has `Category == category`. -/
def modelKeyed (model : routines) : Prop :=
  ∀ entry ∈ model, catsKeyed entry.2

/-- A model that breaks the invariant: the feature stored under `Label #1.1` carries the
category `Label #1.2`. -/
def mismatchedModel : routines :=
  [("sender=Actor #1 receiver=Actor #2", [("Label #1.1", [predictionFeature])])]

/-- A model that satisfies the invariant: the feature of category `Label #1.2` of the
`test-signature` fixture under its party and category. -/
def keyedModel : routines :=
  [("sender=Actor #1 receiver=Actor #2", [("Label #1.2", [predictionFeature])])]

/-! ## The amounts of a model and of a tendency -/

/-- The amounts of the features of a list, in order. -/
def featureAmounts (fs : List feature) : List Int :=
  fs.flatMap (fun F => F.Amounts)

/-- The amounts of the lists of a category map whose category is selected by `sel`. -/
def catsAmounts (sel : String → Bool) (categories : List (String × List feature)) :
    List Int :=
  categories.flatMap (fun category => if sel category.1 then featureAmounts category.2 else [])

/-- The amounts stored in a model under the parties and categories selected by `sel`. -/
def modelAmounts (sel : String → String → Bool) (model : routines) : List Int :=
  model.flatMap (fun entry => catsAmounts (sel entry.1) entry.2)

/-- The amounts of the features of a tendency whose party and category are selected by
`sel`. -/
def tendencyAmounts (sel : String → String → Bool) (T : tendency) : List Int :=
  T.flatMap (fun entry => featureAmounts (entry.2.filter (fun F => sel entry.1 F.Category)))

/-- The records that `_compute` visits: those at the indices from 1 on whose label is not
`?`. -/
def namedRecords (R : List record) : List record :=
  (R.drop 1).filter (fun r => decide (r.Label ≠ UNNAMED_ENTRY))

/-! ## The accumulated point bus in the words of the specification -/

/-- Spec wording: the point buses of the features of category `cat` that are not skipped
for the candidate `c`, in the order of the features. -/
def contributions (features : List feature) (c : record) (cat : String) : List pointbus :=
  features.filterMap
    (fun F => if F.Category = cat then (featurePoints F c).getD none else none)

/-- Spec wording: the componentwise sum of a list of point buses. -/
def busSum (ps : List pointbus) : pointbus :=
  { s0 := (ps.map (fun p => p.s0)).sum, s1 := (ps.map (fun p => p.s1)).sum,
    s2 := (ps.map (fun p => p.s2)).sum, s3 := (ps.map (fun p => p.s3)).sum,
    s4 := (ps.map (fun p => p.s4)).sum, s5 := (ps.map (fun p => p.s5)).sum }

/-- The slots of a point bus reduced to `int64` values. -/
def wrapBus (p : pointbus) : pointbus :=
  { s0 := wrap64 p.s0, s1 := wrap64 p.s1, s2 := wrap64 p.s2, s3 := wrap64 p.s3,
    s4 := wrap64 p.s4, s5 := wrap64 p.s5 }

/-- Spec wording: the entry of `calculated` for a category is the componentwise sum of the
point buses contributed for it, and there is no entry when nothing is contributed. -/
def calculatedStated (features : List feature) (c : record) (cat : String) :
    Option pointbus :=
  if contributions features c cat = [] then none
  else some (busSum (contributions features c cat))

/-! ## Evaluate -/

/-- The function `_evaluate`: the cache `memory` after the call and the returned error, or
`none` when the call panics.  The cache is passed in, and `pull` is the result of `reg.Pull`
on the store for the transactions of a signature. -/
def _evaluate (memory : List (String × results))
    (pull : String → Except String (List Transaction)) (signature : String) :
    Option (List (String × results) × Option String) :=
  match pull signature with
  | Except.error err => some (memory, some err)
  | Except.ok reg =>
    match evaluateRecords reg [] with
    | none => none
    | some records =>
      match _compute records with
      | none => none
      | some patterns =>
        some (gmSet memory signature { records := records, patterns := patterns }, none)

/-- The branch of `journal.evaluate` that writes the response. -/
inductive EvaluateBranch where
  | fault
  | marshalFault
  | patterns
  | fallback
deriving DecidableEq

/-- The handler `journal.evaluate`: the response, the cache after the call and the branch
that wrote the response, or `none` when the handler panics.  `marshal` is `json.Marshal` of
the tendency; the lap `-1` of the last branch is printed as `-1ns`. -/
def journal.evaluate (build : Build) (memory : List (String × results))
    (pull : String → Except String (List Transaction))
    (marshal : tendency → Except String String)
    (signature : String) (lap : String) (w : ResponseWriter) :
    Option (ResponseWriter × List (String × results) × EvaluateBranch) :=
  match _evaluate memory pull signature with
  | none => none
  | some (memory, some err) => some (Response.Fault build w err, memory, EvaluateBranch.fault)
  | some (memory, none) =>
    match gmGet memory signature with
    | some cache =>
      match marshal cache.patterns with
      | Except.error err =>
        some (Response.Fault build w err, memory, EvaluateBranch.marshalFault)
      | Except.ok out =>
        some (Response.Okay build w out false lap, memory, EvaluateBranch.patterns)
    | none => some (Response.Okay build w "\x7b\x7d" false "-1ns", memory, EvaluateBranch.fallback)

/-- A pull that answers the transaction of the similarity fixture for every signature. -/
def testPull (_signature : String) : Except String (List Transaction) :=
  Except.ok [similarTransaction]

/-- A pull that fails. -/
def brokenPull (_signature : String) : Except String (List Transaction) :=
  Except.error "database is locked"

/-- A cache with entries for two signatures. -/
def testMemory : List (String × results) :=
  [("test-signature", { records := signatureFixture, patterns := [] }),
   ("other-signature", { records := cateringFixture, patterns := [] })]

/-! # Verified properties -/

set_option maxRecDepth 100000

/-! ## Machine integers -/

theorem wrap64_isInt64 (x : Int) : isInt64 (wrap64 x) := by
  unfold isInt64 wrap64
  omega

theorem wrap64_of_isInt64 {x : Int} (h : isInt64 x) : wrap64 x = x := by
  unfold isInt64 at h
  unfold wrap64
  omega

theorem wrap64_congr (x : Int) : (wrap64 x - x) % 18446744073709551616 = 0 := by
  unfold wrap64
  omega

/-! ## Record explosion -/

/-- The amount of the shadow record built for a detail. -/
theorem explodeDetails_eq (trx : Transaction) (shadow : record)
    (h : _fromTransaction trx = some shadow) (ds : List Detail) :
    ∀ (details : List record) (total : Int),
      explodeDetails trx ds details total =
        some (details ++ ds.map (fun dls =>
                { shadow with
                  Label := dls.LabelName,
                  Amount := if trx.Amount < 0 then wrap64 (dls.Amount * -1) else dls.Amount }),
              (ds.map (fun dls =>
                if trx.Amount < 0 then wrap64 (dls.Amount * -1) else dls.Amount)).foldl
                (fun t a => wrap64 (t + a)) total) := by
  induction ds with
  | nil => intro details total; simp [explodeDetails]
  | cons d rest ih =>
    intro details total
    simp only [explodeDetails, h, List.map_cons, List.foldl_cons]
    rw [ih]
    simp

theorem foldl_wrap64_congr (l : List Int) :
    ∀ total : Int,
      (l.foldl (fun t a => wrap64 (t + a)) total - (total + l.sum)) % 18446744073709551616 = 0 := by
  induction l with
  | nil => intro total; simp
  | cons a rest ih =>
    intro total
    simp only [List.foldl_cons, List.sum_cons]
    have h1 := ih (wrap64 (total + a))
    have h2 := wrap64_congr (total + a)
    omega

theorem foldl_wrap64_isInt64 (l : List Int) :
    ∀ total : Int, isInt64 total → isInt64 (l.foldl (fun t a => wrap64 (t + a)) total) := by
  induction l with
  | nil => intro total h; simpa using h
  | cons a rest ih =>
    intro total _
    simp only [List.foldl_cons]
    exact ih _ (wrap64_isInt64 _)

theorem shadow_sum_congr (p : Prop) [Decidable p] (ds : List Detail) :
    ((ds.map (fun dls => if p then wrap64 (dls.Amount * -1) else dls.Amount)).sum
      - (if p then -1 else 1) * (ds.map Detail.Amount).sum) % 18446744073709551616 = 0 := by
  induction ds with
  | nil => simp
  | cons d rest ih =>
    simp only [List.map_cons, List.sum_cons]
    by_cases hp : p
    · simp only [hp, if_true] at ih ⊢
      have h2 := wrap64_congr (d.Amount * -1)
      omega
    · simp only [hp, if_false] at ih ⊢
      omega

theorem fromTransaction_of_uuid (trx : Transaction) (uuid : String) (h : trx.UUID = some uuid) :
    ∃ shadow, _fromTransaction trx = some shadow := by
  simp [_fromTransaction, h]

theorem evaluateStep_details (trx : Transaction) (shadow : record)
    (h : _fromTransaction trx = some shadow) (hne : trx.Details ≠ []) :
    evaluateStep trx =
      if trx.Amount = (trx.Details.map (fun dls =>
            if trx.Amount < 0 then wrap64 (dls.Amount * -1) else dls.Amount)).foldl
            (fun t a => wrap64 (t + a)) 0
      then some (trx.Details.map (fun dls =>
            { shadow with
              Label := dls.LabelName,
              Amount := if trx.Amount < 0 then wrap64 (dls.Amount * -1) else dls.Amount }))
      else some [] := by
  have hlen : trx.Details.length > 0 := List.length_pos.mpr hne
  unfold evaluateStep
  rw [if_pos hlen, explodeDetails_eq trx shadow h]
  simp

/-- The running total of `evaluateStep` is the signed detail sum modulo `2^64`. -/
theorem evaluateStep_total_congr (trx : Transaction) :
    ((trx.Details.map (fun dls =>
          if trx.Amount < 0 then wrap64 (dls.Amount * -1) else dls.Amount)).foldl
          (fun t a => wrap64 (t + a)) 0
      - (if trx.Amount < 0 then -1 else 1) * (trx.Details.map Detail.Amount).sum)
        % 18446744073709551616 = 0 := by
  have h1 := foldl_wrap64_congr (trx.Details.map (fun dls =>
          if trx.Amount < 0 then wrap64 (dls.Amount * -1) else dls.Amount)) 0
  have h2 := shadow_sum_congr (trx.Amount < 0) trx.Details
  omega

theorem evaluateStep_total_isInt64 (trx : Transaction) :
    isInt64 ((trx.Details.map (fun dls =>
          if trx.Amount < 0 then wrap64 (dls.Amount * -1) else dls.Amount)).foldl
          (fun t a => wrap64 (t + a)) 0) :=
  foldl_wrap64_isInt64 _ 0 (by unfold isInt64; omega)

/-- C1 (amended): for a transaction with a UUID, a non-empty list of non-negative `int64`
detail amounts and detail sum `abs(t.amount)`, `_evaluate` emits exactly one record per
detail, the record of a detail carries the detail amount negated when `t.amount < 0` and
unchanged otherwise, and every emitted record with a non-zero amount has the sign of
`t.amount`. -/
theorem evaluateStep_conservation (trx : Transaction) (uuid : String)
    (huuid : trx.UUID = some uuid) (hne : trx.Details ≠ []) (hamt : isInt64 trx.Amount)
    (hdet : ∀ d ∈ trx.Details, 0 ≤ d.Amount ∧ isInt64 d.Amount)
    (hsum : (trx.Details.map Detail.Amount).sum = |trx.Amount|) :
    ∃ rs, evaluateStep trx = some rs ∧ rs.length = trx.Details.length ∧
      rs.map record.Amount =
        trx.Details.map (fun d => if trx.Amount < 0 then - d.Amount else d.Amount) ∧
      ∀ r ∈ rs, r.Amount ≠ 0 → Int.sign r.Amount = Int.sign trx.Amount := by
  obtain ⟨shadow, hsh⟩ := fromTransaction_of_uuid trx uuid huuid
  have hc := evaluateStep_total_congr trx
  have hr := evaluateStep_total_isInt64 trx
  have hwrap : ∀ d ∈ trx.Details,
      (if trx.Amount < 0 then wrap64 (d.Amount * -1) else d.Amount)
        = (if trx.Amount < 0 then - d.Amount else d.Amount) := by
    intro d hd
    obtain ⟨h0, h64⟩ := hdet d hd
    by_cases hneg : trx.Amount < 0
    · simp only [hneg, if_true]
      unfold isInt64 at h64
      unfold wrap64
      omega
    · simp only [hneg, if_false]
  have htot : trx.Amount = (trx.Details.map (fun dls =>
          if trx.Amount < 0 then wrap64 (dls.Amount * -1) else dls.Amount)).foldl
          (fun t a => wrap64 (t + a)) 0 := by
    unfold isInt64 at hr hamt
    by_cases hneg : trx.Amount < 0
    · rw [abs_of_neg hneg] at hsum
      simp only [hneg, if_true] at hc hr ⊢
      omega
    · rw [abs_of_nonneg (not_lt.mp hneg)] at hsum
      simp only [hneg, if_false] at hc hr ⊢
      omega
  rw [evaluateStep_details trx shadow hsh hne, if_pos htot]
  refine ⟨_, rfl, by simp, ?_, ?_⟩
  · rw [List.map_map]
    apply List.map_congr_left
    intro d hd
    simpa using hwrap d hd
  · intro r hr' hnz
    obtain ⟨d, hd, rfl⟩ := List.mem_map.mp hr'
    obtain ⟨h0, _⟩ := hdet d hd
    have hw := hwrap d hd
    simp only at hnz ⊢
    rw [hw] at hnz ⊢
    by_cases hneg : trx.Amount < 0
    · simp only [hneg, if_true] at hnz ⊢
      have : -d.Amount < 0 := by omega
      rw [Int.sign_eq_neg_one_of_neg this, Int.sign_eq_neg_one_of_neg hneg]
    · simp only [hneg, if_false] at hnz ⊢
      have hpos : 0 < d.Amount := by omega
      have hsumpos : 0 < (trx.Details.map Detail.Amount).sum := by
        have hall : ∀ x ∈ trx.Details.map Detail.Amount, 0 ≤ x := by
          intro x hx
          obtain ⟨d', hd', rfl⟩ := List.mem_map.mp hx
          exact (hdet d' hd').1
        have hmem : d.Amount ∈ trx.Details.map Detail.Amount := List.mem_map_of_mem _ hd
        have := List.single_le_sum hall _ hmem
        omega
      rw [abs_of_nonneg (not_lt.mp hneg)] at hsum
      rw [Int.sign_eq_one_of_pos hpos, Int.sign_eq_one_of_pos (by omega)]

/-- C1 (witness): the conservation theorem at a transaction of amount -3000 with the two
details 3000 and 0. -/
theorem evaluateStep_conservation_witness :
    ∃ rs, evaluateStep zeroDetailTransaction = some rs ∧
      rs.length = zeroDetailTransaction.Details.length ∧
      rs.map record.Amount =
        zeroDetailTransaction.Details.map
          (fun d => if zeroDetailTransaction.Amount < 0 then - d.Amount else d.Amount) ∧
      ∀ r ∈ rs, r.Amount ≠ 0 → Int.sign r.Amount = Int.sign zeroDetailTransaction.Amount :=
  evaluateStep_conservation zeroDetailTransaction "5fc3b398-5b17-4ee3-a464-82af2c1b2ef9" rfl
    (by decide) (by decide) (by decide) (by decide)

/-- C1 (counterexample): a transaction whose detail amounts 3000 and 0 sum to
`abs(-3000)` yields a record of amount 0, whose sign differs from the sign of the
transaction amount. -/
theorem evaluateStep_sign_counterexample :
    zeroDetailTransaction.UUID.isSome = true ∧ zeroDetailTransaction.Details ≠ [] ∧
    (zeroDetailTransaction.Details.map Detail.Amount).sum = |zeroDetailTransaction.Amount| ∧
    ∃ rs r, evaluateStep zeroDetailTransaction = some rs ∧ r ∈ rs ∧
      Int.sign r.Amount ≠ Int.sign zeroDetailTransaction.Amount := by
  refine ⟨by decide, by decide, by decide, ?_⟩
  refine ⟨[{ Sender := "Actor #1", Receiver := "Actor #5", Label := "A",
             Date := zeroDetailTransaction.Date, Amount := -3000,
             Parent := "5fc3b398-5b17-4ee3-a464-82af2c1b2ef9" },
           { Sender := "Actor #1", Receiver := "Actor #5", Label := "B",
             Date := zeroDetailTransaction.Date, Amount := 0,
             Parent := "5fc3b398-5b17-4ee3-a464-82af2c1b2ef9" }],
          { Sender := "Actor #1", Receiver := "Actor #5", Label := "B",
             Date := zeroDetailTransaction.Date, Amount := 0,
             Parent := "5fc3b398-5b17-4ee3-a464-82af2c1b2ef9" }, by decide, by decide, by decide⟩

theorem evaluateRecords_append (pre post : List Transaction) :
    ∀ records : List record,
      evaluateRecords (pre ++ post) records =
        (evaluateRecords pre records).bind (evaluateRecords post) := by
  induction pre with
  | nil => intro records; simp [evaluateRecords]
  | cons trx rest ih =>
    intro records
    simp only [List.cons_append, evaluateRecords]
    cases evaluateStep trx with
    | none => simp
    | some rs => simpa using ih (records ++ rs)

/-- C2 (amended): for a transaction with a UUID and a non-empty list of non-negative `int64`
detail amounts whose sum is below `2^64` and differs from `abs(t.amount)`, `_evaluate` emits
no record, and the records emitted for a transaction list are those emitted for the list
without that transaction. -/
theorem evaluateStep_corrupt_drop (trx : Transaction) (uuid : String)
    (huuid : trx.UUID = some uuid) (hne : trx.Details ≠ []) (hamt : isInt64 trx.Amount)
    (hdet : ∀ d ∈ trx.Details, 0 ≤ d.Amount ∧ isInt64 d.Amount)
    (hsum : (trx.Details.map Detail.Amount).sum ≠ |trx.Amount|)
    (hbound : (trx.Details.map Detail.Amount).sum < 18446744073709551616) :
    evaluateStep trx = some [] ∧
      ∀ (pre post : List Transaction) (records : List record),
        evaluateRecords (pre ++ trx :: post) records = evaluateRecords (pre ++ post) records := by
  obtain ⟨shadow, hsh⟩ := fromTransaction_of_uuid trx uuid huuid
  have hc := evaluateStep_total_congr trx
  have hnonneg : 0 ≤ (trx.Details.map Detail.Amount).sum := by
    apply List.sum_nonneg
    intro x hx
    obtain ⟨d, hd, rfl⟩ := List.mem_map.mp hx
    exact (hdet d hd).1
  have htot : ¬ trx.Amount = (trx.Details.map (fun dls =>
          if trx.Amount < 0 then wrap64 (dls.Amount * -1) else dls.Amount)).foldl
          (fun t a => wrap64 (t + a)) 0 := by
    intro heq
    rw [← heq] at hc
    unfold isInt64 at hamt
    by_cases hneg : trx.Amount < 0
    · rw [abs_of_neg hneg] at hsum
      simp only [hneg, if_true] at hc
      omega
    · rw [abs_of_nonneg (not_lt.mp hneg)] at hsum
      simp only [hneg, if_false] at hc
      omega
  have hstep : evaluateStep trx = some [] := by
    rw [evaluateStep_details trx shadow hsh hne, if_neg htot]
  refine ⟨hstep, ?_⟩
  intro pre post records
  rw [evaluateRecords_append, evaluateRecords_append]
  cases evaluateRecords pre records with
  | none => rfl
  | some acc => simp [evaluateRecords, hstep]

/-- C2 (witness): the drop theorem applied to a transaction of amount -3000 whose details
sum to 2000, alone and between two valid transactions. -/
theorem evaluateStep_corrupt_drop_witness :
    evaluateStep { zeroDetailTransaction with
        Details := [{ Amount := 1000, LabelName := "A" }, { Amount := 1000, LabelName := "B" }] }
      = some [] ∧
      evaluateRecords ([zeroDetailTransaction] ++ { zeroDetailTransaction with
          Details := [{ Amount := 1000, LabelName := "A" },
                      { Amount := 1000, LabelName := "B" }] } :: [similarTransaction]) []
        = evaluateRecords ([zeroDetailTransaction] ++ [similarTransaction]) [] :=
  ⟨(evaluateStep_corrupt_drop _ "5fc3b398-5b17-4ee3-a464-82af2c1b2ef9" rfl
      (by decide) (by decide) (by decide) (by decide) (by decide)).1,
    (evaluateStep_corrupt_drop _ "5fc3b398-5b17-4ee3-a464-82af2c1b2ef9" rfl
      (by decide) (by decide) (by decide) (by decide) (by decide)).2
      [zeroDetailTransaction] [similarTransaction] []⟩

/-- C2 (counterexample): the details 2^63-1, 2^63-1 and 2 are non-negative and sum to
`2^64`, which differs from `abs(0)`, yet the `int64` running total wraps around to 0 and
all three detail records are emitted. -/
theorem evaluateStep_drop_counterexample :
    wrappingTransaction.UUID.isSome = true ∧ wrappingTransaction.Details ≠ [] ∧
    (∀ d ∈ wrappingTransaction.Details, 0 ≤ d.Amount ∧ isInt64 d.Amount) ∧
    (wrappingTransaction.Details.map Detail.Amount).sum ≠ |wrappingTransaction.Amount| ∧
    (evaluateStep wrappingTransaction).map List.length = some 3 := by
  refine ⟨by decide, by decide, by decide, by decide, by decide⟩

/-! ## Similarity grades -/

theorem fromHeadersLoop_resolved (keyword fallback : String) (tokens : List String) :
    (match fromHeadersLoop keyword tokens with
      | (name, true) => name
      | (_, false) => fallback) =
    (match tokens.find? (fun token => keyword.data.isPrefixOf token.data) with
      | some token => String.mk (token.data.drop keyword.data.length)
      | none => fallback) := by
  induction tokens with
  | nil => simp [fromHeadersLoop]
  | cons token rest ih =>
    by_cases hp : keyword.data.isPrefixOf token.data = true
    · simp [fromHeadersLoop, hp]
    · simp only [fromHeadersLoop, hp, List.find?_cons]
      simpa using ih

theorem fromHeaders_resolved (headers keyword fallback : String) :
    (match _fromHeaders headers keyword with
      | (name, true) => name
      | (_, false) => fallback) = resolvedName headers keyword fallback := by
  unfold _fromHeaders resolvedName
  exact fromHeadersLoop_resolved keyword fallback (Fields headers)

/-- C3: a positive grade of `CompareWithTransaction` implies equal amounts and equal dates,
and the grade is always one of 0, 1, 2, 3, 4, 5, 6, 7. -/
theorem compareWithTransaction_grade (c : record) (t : Transaction) :
    (0 < c.CompareWithTransaction t → c.Amount = t.Amount ∧ c.Date.Equal t.Date = true) ∧
      c.CompareWithTransaction t ∈ [0, 1, 2, 3, 4, 5, 6, 7] := by
  unfold record.CompareWithTransaction
  by_cases h : t.Amount = c.Amount ∧ t.Date.Equal c.Date = true
  · rw [if_pos h]
    refine ⟨fun _ => ⟨h.1.symm, ?_⟩, ?_⟩
    · have h2 := h.2
      simp only [Time.Equal, Bool.and_eq_true, decide_eq_true_eq] at h2 ⊢
      exact ⟨h2.1.symm, h2.2.symm⟩
    · simp only
      split_ifs <;> simp
  · rw [if_neg h]
    simp

/-- C3 (witness): the grade theorem at the candidate and stored transaction of the
grade-3 scenario. -/
theorem compareWithTransaction_grade_witness :
    0 < similarCandidate.CompareWithTransaction similarTransaction ∧
      similarCandidate.Amount = similarTransaction.Amount ∧
      similarCandidate.Date.Equal similarTransaction.Date = true :=
  ⟨by decide, (compareWithTransaction_grade similarCandidate similarTransaction).1 (by decide)⟩

/-- C4: for a candidate and a transaction with equal amount and equal date the grade is
1 for a matching sender plus 2 for a matching receiver plus 4 for a matching label, the
names of the transaction being resolved through its headers; matching sender and receiver
with a different label give grade 3. -/
theorem compareWithTransaction_composition (c : record) (t : Transaction)
    (hamt : c.Amount = t.Amount) (hdate : c.Date.Equal t.Date = true) :
    c.CompareWithTransaction t =
        1 * (if resolvedName t.Headers "sender=" t.SenderName = c.Sender then 1 else 0)
        + 2 * (if resolvedName t.Headers "receiver=" t.ReceiverName = c.Receiver then 1 else 0)
        + 4 * (if t.LabelName = c.Label then 1 else 0) ∧
      (resolvedName t.Headers "sender=" t.SenderName = c.Sender →
        resolvedName t.Headers "receiver=" t.ReceiverName = c.Receiver →
        t.LabelName ≠ c.Label → c.CompareWithTransaction t = 3) := by
  have h : t.Amount = c.Amount ∧ t.Date.Equal c.Date = true := by
    refine ⟨hamt.symm, ?_⟩
    simp only [Time.Equal, Bool.and_eq_true, decide_eq_true_eq] at hdate ⊢
    exact ⟨hdate.1.symm, hdate.2.symm⟩
  have hform : c.CompareWithTransaction t =
        1 * (if resolvedName t.Headers "sender=" t.SenderName = c.Sender then 1 else 0)
        + 2 * (if resolvedName t.Headers "receiver=" t.ReceiverName = c.Receiver then 1 else 0)
        + 4 * (if t.LabelName = c.Label then 1 else 0) := by
    unfold record.CompareWithTransaction
    rw [if_pos h]
    simp only [fromHeaders_resolved]
    split_ifs <;> simp
  refine ⟨hform, ?_⟩
  intro hs hr hl
  rw [hform, if_pos hs, if_pos hr, if_neg hl]
  rfl

/-- C4 (witness): the composition theorem at the candidate of
`TestSimilarTransactionsWithPayload`, which has grade 3. -/
theorem compareWithTransaction_composition_witness :
    similarCandidate.CompareWithTransaction similarTransaction = 3 :=
  (compareWithTransaction_composition similarCandidate similarTransaction
    (by decide) (by decide)).2 (by decide) (by decide) (by decide)

/-! ## Go maps -/

theorem gmSet_ne_nil {β : Type} (m : List (String × β)) (k : String) (v : β) :
    gmSet m k v ≠ [] := by
  cases m with
  | nil => simp [gmSet]
  | cons e rest =>
    obtain ⟨k', v'⟩ := e
    simp only [gmSet]
    split_ifs <;> simp

theorem mem_gmSet {β : Type} (m : List (String × β)) (k : String) (v : β) (x : String × β)
    (h : x ∈ gmSet m k v) : x = (k, v) ∨ x ∈ m := by
  induction m with
  | nil => simpa [gmSet] using h
  | cons e rest ih =>
    obtain ⟨k', v'⟩ := e
    simp only [gmSet] at h
    split_ifs at h with hk
    · rcases List.mem_cons.mp h with h1 | h1
      · left; rw [h1, hk]
      · right; exact List.mem_cons_of_mem _ h1
    · rcases List.mem_cons.mp h with h1 | h1
      · right; rw [h1]; exact List.mem_cons_self _ _
      · rcases ih h1 with h2 | h2
        · left; exact h2
        · right; exact List.mem_cons_of_mem _ h2

theorem gmGet_mem {β : Type} (m : List (String × β)) (k : String) (v : β)
    (h : gmGet m k = some v) : (k, v) ∈ m := by
  induction m with
  | nil => simp [gmGet] at h
  | cons e rest ih =>
    obtain ⟨k', v'⟩ := e
    simp only [gmGet] at h
    split_ifs at h with hk
    · simp only [Option.some.injEq] at h
      rw [hk, h]
      exact List.mem_cons_self _ _
    · exact List.mem_cons_of_mem _ (ih h)

theorem gmKeys_gmSet {β : Type} (m : List (String × β)) (k : String) (v : β) (x : String) :
    x ∈ gmKeys (gmSet m k v) ↔ x = k ∨ x ∈ gmKeys m := by
  induction m with
  | nil => simp [gmSet, gmKeys]
  | cons e rest ih =>
    obtain ⟨k', v'⟩ := e
    simp only [gmSet]
    split_ifs with hk
    · simp only [gmKeys, List.map_cons, List.mem_cons]
      constructor
      · intro h; right; exact h
      · rintro (h | h)
        · left; rw [h, hk]
        · exact h
    · simp only [gmKeys, List.map_cons, List.mem_cons] at ih ⊢
      rw [ih]
      tauto

theorem gmKeys_of_gmGet {β : Type} (m : List (String × β)) (k : String) (v : β)
    (h : gmGet m k = some v) : k ∈ gmKeys m := by
  have := gmGet_mem m k v h
  exact List.mem_map.mpr ⟨(k, v), this, rfl⟩

theorem gmKeys_nodup_gmSet {β : Type} (m : List (String × β)) (k : String) (v : β)
    (h : (gmKeys m).Nodup) : (gmKeys (gmSet m k v)).Nodup := by
  induction m with
  | nil => simp [gmSet, gmKeys]
  | cons e rest ih =>
    obtain ⟨k', v'⟩ := e
    simp only [gmSet]
    split_ifs with hk
    · simpa [gmKeys] using h
    · have h' : k' ∉ gmKeys rest ∧ (gmKeys rest).Nodup := by simpa [gmKeys] using h
      have hrest := ih h'.2
      have hnot : k' ∉ gmKeys (gmSet rest k v) := by
        rw [gmKeys_gmSet]
        rintro (h1 | h1)
        · exact hk h1
        · exact h'.1 h1
      show (k' :: gmKeys (gmSet rest k v)).Nodup
      exact List.nodup_cons.mpr ⟨hnot, hrest⟩

/-! ## Invariants of the tendency model -/

theorem catsAll_gmSet (P : feature → Prop) (categories : List (String × List feature))
    (label : String) (fs : List feature) (h : catsAll P categories) (hne : fs ≠ [])
    (hfs : ∀ f ∈ fs, P f) : catsAll P (gmSet categories label fs) := by
  intro category hc
  rcases mem_gmSet _ _ _ _ hc with h1 | h1
  · rw [h1]; exact ⟨hne, hfs⟩
  · exact h category h1

theorem modelAll_gmSet (P : feature → Prop) (model : routines) (party : String)
    (categories : List (String × List feature)) (h : modelAll P model)
    (hne : categories ≠ []) (hc : catsAll P categories) :
    modelAll P (gmSet model party categories) := by
  intro entry he
  rcases mem_gmSet _ _ _ _ he with h1 | h1
  · rw [h1]; exact ⟨hne, hc⟩
  · exact h entry h1

theorem modelAll_nil (P : feature → Prop) : modelAll P [] := by
  intro entry he
  simp at he

theorem catsAll_nil (P : feature → Prop) : catsAll P [] := by
  intro category hc
  simp at hc

theorem calculate_set_ok (P : feature → Prop) (model : routines) (party label : String)
    (categories : List (String × List feature)) (fs : List feature)
    (hm : modelAll P model) (hcats : catsAll P categories) (hne : fs ≠ [])
    (hfs : ∀ f ∈ fs, P f) :
    modelAll P (gmSet model party (gmSet categories label fs)) ∧
      (∀ k, k ∈ gmKeys (gmSet model party (gmSet categories label fs)) ↔
        k = party ∨ k ∈ gmKeys model) ∧
      ((gmKeys model).Nodup →
        (gmKeys (gmSet model party (gmSet categories label fs))).Nodup) :=
  ⟨modelAll_gmSet P model party _ hm (gmSet_ne_nil _ _ _)
      (catsAll_gmSet P categories label fs hcats hne hfs),
    fun k => gmKeys_gmSet model party _ k,
    fun h => gmKeys_nodup_gmSet model party _ h⟩

/-- One call of `_calculate` returns, keeps the model invariant and adds the party to the
keys of the model. -/
theorem calculate_inv (P : feature → Prop) (Q : record → Prop)
    (hP : ∀ f, P f → f.Months ≠ [])
    (hT : ∀ r, Q r → P r.ToFeature)
    (hM : ∀ f m, P f → P { f with Months := m :: f.Months })
    (hU : ∀ f r, P f → Q r → P (f.Update r).1)
    (model : routines) (party : String) (nextMonth : Nat) (r : record)
    (hm : modelAll P model) (hr : Q r) :
    ∃ model', _calculate model party nextMonth r = some model' ∧ modelAll P model' ∧
      (∀ k, k ∈ gmKeys model' ↔ k = party ∨ k ∈ gmKeys model) ∧
      ((gmKeys model).Nodup → (gmKeys model').Nodup) := by
  have hnew : ∀ f ∈ [r.ToFeature], P f := by
    intro f hf
    rw [List.mem_singleton.mp hf]
    exact hT r hr
  unfold _calculate
  cases hg : gmGet model party with
  | none =>
    dsimp only
    exact ⟨_, rfl, calculate_set_ok P model party r.Label [] _ hm (catsAll_nil P)
      (by simp) hnew⟩
  | some categories =>
    dsimp only
    have hkey : party ∈ gmKeys model := gmKeys_of_gmGet model party categories hg
    obtain ⟨_, hcats⟩ := hm _ (gmGet_mem model party categories hg)
    have hsame : modelAll P model ∧ (∀ k, k ∈ gmKeys model ↔ k = party ∨ k ∈ gmKeys model) ∧
        ((gmKeys model).Nodup → (gmKeys model).Nodup) := by
      refine ⟨hm, ?_, fun h => h⟩
      intro k
      constructor
      · intro h; exact Or.inr h
      · rintro (h | h)
        · rw [h]; exact hkey
        · exact h
    cases hg2 : gmGet categories r.Label with
    | none =>
      dsimp only
      exact ⟨_, rfl, calculate_set_ok P model party r.Label categories _ hm hcats
        (by simp) hnew⟩
    | some features =>
      dsimp only
      obtain ⟨hfne, hfs⟩ := hcats _ (gmGet_mem categories r.Label features hg2)
      cases features with
      | nil => exact absurd rfl hfne
      | cons lastFeature tail =>
        dsimp only
        have hPl : P lastFeature := hfs lastFeature (List.mem_cons_self _ _)
        have htail : ∀ f ∈ tail, P f := fun f hf => hfs f (List.mem_cons_of_mem _ hf)
        cases hmo : lastFeature.Months with
        | nil => exact absurd hmo (hP _ hPl)
        | cons lastMonth ms =>
          dsimp only
          have hupd : ∀ g : feature, P g → ∀ f ∈ (g.Update r).1 :: tail, P f := by
            intro g hg' f hf
            rcases List.mem_cons.mp hf with h1 | h1
            · rw [h1]; exact hU g r hg' hr
            · exact htail f h1
          split_ifs with hadj hsamemonth
          · have hPm := hM lastFeature nextMonth hPl
            rw [hmo] at hPm
            have hu := hupd _ hPm
            generalize ({ lastFeature with Months := nextMonth :: lastMonth :: ms } : feature).Update r
              = res at hu
            obtain ⟨updated, err⟩ := res
            cases err with
            | some e => exact ⟨_, rfl, hsame⟩
            | none =>
              exact ⟨_, rfl, calculate_set_ok P model party r.Label categories _ hm hcats
                (by simp) hu⟩
          · have hu := hupd _ hPl
            generalize lastFeature.Update r = res at hu
            obtain ⟨updated, err⟩ := res
            cases err with
            | some e => exact ⟨_, rfl, hsame⟩
            | none =>
              exact ⟨_, rfl, calculate_set_ok P model party r.Label categories _ hm hcats
                (by simp) hu⟩
          · refine ⟨_, rfl, calculate_set_ok P model party r.Label categories _ hm hcats
              (by simp) ?_⟩
            intro f hf
            rcases List.mem_cons.mp hf with h1 | h1
            · rw [h1]; exact hT r hr
            · exact hfs f h1

/-- The loop of `_compute` returns, keeps the model invariant, and adds exactly the parties
of the visited named records to the keys of the model. -/
theorem computeLoop_inv (P : feature → Prop) (Q : record → Prop)
    (hP : ∀ f, P f → f.Months ≠ [])
    (hT : ∀ r, Q r → P r.ToFeature)
    (hM : ∀ f m, P f → P { f with Months := m :: f.Months })
    (hU : ∀ f r, P f → Q r → P (f.Update r).1)
    (records : List record)
    (hQ : ∀ i r, 1 ≤ i → records[i]? = some r → r.Label ≠ UNNAMED_ENTRY → Q r) :
    ∀ (i : Nat) (model : routines), i + 1 ≤ records.length ∨ i = 0 → modelAll P model →
      ∃ model', computeLoop records i model = some model' ∧ modelAll P model' ∧
        (∀ k, k ∈ gmKeys model' ↔ k ∈ gmKeys model ∨
          ∃ j r, 1 ≤ j ∧ j ≤ i ∧ records[j]? = some r ∧ r.Label ≠ UNNAMED_ENTRY ∧
            r.Party = k) ∧
        ((gmKeys model).Nodup → (gmKeys model').Nodup) := by
  intro i
  induction i with
  | zero =>
    intro model _ hm
    refine ⟨model, rfl, hm, ?_, fun h => h⟩
    intro k
    constructor
    · intro h; exact Or.inl h
    · rintro (h | ⟨j, r, h1, h2, _⟩)
      · exact h
      · omega
  | succ i ih =>
    intro model hi hm
    have hlt : i + 1 < records.length := by omega
    have hlt' : i < records.length := by omega
    have h1 : records[i + 1]? = some records[i + 1] := List.getElem?_eq_getElem hlt
    have h0 : records[i]? = some records[i] := List.getElem?_eq_getElem hlt'
    simp only [computeLoop, h1, h0]
    by_cases hlab : records[i + 1].Label ≠ UNNAMED_ENTRY
    · rw [if_pos hlab]
      obtain ⟨m1, hc, hm1, hk1, hn1⟩ :=
        calculate_inv P Q hP hT hM hU model records[i + 1].Party records[i].Date.Month
          records[i + 1] hm (hQ (i + 1) _ (by omega) h1 hlab)
      rw [hc]
      obtain ⟨m2, hc2, hm2, hk2, hn2⟩ := ih m1 (Or.inl (by omega)) hm1
      refine ⟨m2, hc2, hm2, ?_, fun h => hn2 (hn1 h)⟩
      intro k
      rw [hk2, hk1]
      constructor
      · rintro ((h | h) | ⟨j, r, hj1, hj2, hj3⟩)
        · exact Or.inr ⟨i + 1, records[i + 1], by omega, le_refl _, h1, hlab, h.symm⟩
        · exact Or.inl h
        · exact Or.inr ⟨j, r, hj1, by omega, hj3⟩
      · rintro (h | ⟨j, r, hj1, hj2, hj3, hj4, hj5⟩)
        · exact Or.inl (Or.inr h)
        · by_cases hji : j = i + 1
          · subst hji
            rw [h1] at hj3
            simp only [Option.some.injEq] at hj3
            subst hj3
            exact Or.inl (Or.inl hj5.symm)
          · exact Or.inr ⟨j, r, hj1, by omega, hj3, hj4, hj5⟩
    · rw [if_neg hlab]
      obtain ⟨m2, hc2, hm2, hk2, hn2⟩ := ih model (Or.inl (by omega)) hm
      refine ⟨m2, hc2, hm2, ?_, hn2⟩
      intro k
      rw [hk2]
      constructor
      · rintro (h | ⟨j, r, hj1, hj2, hj3⟩)
        · exact Or.inl h
        · exact Or.inr ⟨j, r, hj1, by omega, hj3⟩
      · rintro (h | ⟨j, r, hj1, hj2, hj3, hj4, hj5⟩)
        · exact Or.inl h
        · by_cases hji : j = i + 1
          · subst hji
            rw [h1] at hj3
            simp only [Option.some.injEq] at hj3
            subst hj3
            exact absurd hj4 hlab
          · exact Or.inr ⟨j, r, hj1, by omega, hj3, hj4, hj5⟩

/-! ## Flattening -/

theorem mem_foldl_append (categories : List (String × List feature)) :
    ∀ (init : List feature) (f : feature),
      f ∈ categories.foldl (fun conclusion category => conclusion ++ category.2) init ↔
        f ∈ init ∨ ∃ category ∈ categories, f ∈ category.2 := by
  induction categories with
  | nil => intro init f; simp
  | cons c rest ih =>
    intro init f
    simp only [List.foldl_cons]
    rw [ih]
    simp only [List.mem_append, List.mem_cons, exists_eq_or_imp]
    tauto

theorem gmKeys_flatten (model : routines) : gmKeys (flatten model) = gmKeys model := by
  simp [gmKeys, flatten, List.map_map, Function.comp_def]

theorem flatten_features (P : feature → Prop) (model : routines) (hm : modelAll P model) :
    ∀ entry ∈ flatten model, entry.2 ≠ [] ∧ ∀ f ∈ entry.2, P f := by
  intro entry he
  obtain ⟨e, hemem, rfl⟩ := List.mem_map.mp he
  obtain ⟨hne, hcats⟩ := hm e hemem
  constructor
  · obtain ⟨c, hc⟩ := List.exists_mem_of_ne_nil _ hne
    obtain ⟨hcne, _⟩ := hcats c hc
    obtain ⟨f, hf⟩ := List.exists_mem_of_ne_nil _ hcne
    have : f ∈ e.2.foldl (fun conclusion category => conclusion ++ category.2) [] :=
      (mem_foldl_append e.2 [] f).mpr (Or.inr ⟨c, hc, hf⟩)
    exact List.ne_nil_of_mem this
  · intro f hf
    rcases (mem_foldl_append e.2 [] f).mp hf with h | ⟨c, hc, hfc⟩
    · simp at h
    · exact (hcats c hc).2 f hfc

/-- The function `_compute` returns for every record list; every feature of the result
satisfies an invariant `P` of the update steps, every key has a non-empty feature list, and
the keys are the parties of the named records at the indices from 1 on. -/
theorem compute_inv (P : feature → Prop) (Q : record → Prop)
    (hP : ∀ f, P f → f.Months ≠ [])
    (hT : ∀ r, Q r → P r.ToFeature)
    (hM : ∀ f m, P f → P { f with Months := m :: f.Months })
    (hU : ∀ f r, P f → Q r → P (f.Update r).1)
    (records : List record)
    (hQ : ∀ i r, 1 ≤ i → records[i]? = some r → r.Label ≠ UNNAMED_ENTRY → Q r) :
    ∃ T, _compute records = some T ∧
      (∀ entry ∈ T, entry.2 ≠ [] ∧ ∀ f ∈ entry.2, P f) ∧
      (∀ k, k ∈ gmKeys T ↔
        ∃ i r, 1 ≤ i ∧ records[i]? = some r ∧ r.Label ≠ UNNAMED_ENTRY ∧ r.Party = k) ∧
      (gmKeys T).Nodup := by
  have hi : records.length - 1 + 1 ≤ records.length ∨ records.length - 1 = 0 := by omega
  obtain ⟨model, hc, hm, hk, hn⟩ :=
    computeLoop_inv P Q hP hT hM hU records hQ (records.length - 1) [] hi (modelAll_nil P)
  refine ⟨flatten model, by simp [_compute, hc], flatten_features P model hm, ?_, ?_⟩
  · intro k
    rw [gmKeys_flatten, hk]
    constructor
    · rintro (h | ⟨j, r, hj1, _, hj3⟩)
      · simp [gmKeys] at h
      · exact ⟨j, r, hj1, hj3⟩
    · rintro ⟨j, r, hj1, hj3, hj4⟩
      have hlt : j < records.length := by
        by_contra hcon
        rw [List.getElem?_eq_none (not_lt.mp hcon)] at hj3
        simp at hj3
      exact Or.inr ⟨j, r, hj1, by omega, hj3, hj4⟩
  · rw [gmKeys_flatten]
    exact hn (by simp [gmKeys])

/-! ## Closure properties of features -/

theorem sorted_nodup_append_sort (l : List Nat) (x : Nat) (hn : l.Nodup)
    (hx : l.contains x = false) :
    ((l ++ [x]).insertionSort (· ≤ ·)).Sorted (· ≤ ·) ∧
      ((l ++ [x]).insertionSort (· ≤ ·)).Nodup := by
  refine ⟨List.sorted_insertionSort _ _, ?_⟩
  rw [(List.perm_insertionSort _ _).nodup_iff]
  have hx' : x ∉ l := by
    intro hmem
    have : l.contains x = true := by simpa using hmem
    rw [hx] at this
    exact Bool.false_ne_true this
  rw [List.nodup_append]
  refine ⟨hn, List.nodup_singleton x, ?_⟩
  intro a ha hb
  rw [List.mem_singleton.mp hb] at ha
  exact hx' ha

theorem insertionSort_ne_nil {α : Type} (r : α → α → Prop) [DecidableRel r] (l : List α)
    (h : l ≠ []) : l.insertionSort r ≠ [] := by
  intro hnil
  have hlen := List.length_insertionSort r l
  rw [hnil] at hlen
  exact h (List.length_eq_zero.mp hlen.symm)

theorem featureClosed_toFeature (r : record) : featureClosed r.ToFeature := by
  unfold featureClosed record.ToFeature
  refine ⟨by simp, by simp, by simp, by simp, by simp, by simp, by simp, ?_⟩
  dsimp only
  split_ifs <;> simp

theorem featureClosed_months (f : feature) (m : Nat) (h : featureClosed f) :
    featureClosed { f with Months := m :: f.Months } := by
  obtain ⟨_, h2⟩ := h
  exact ⟨by simp, h2⟩

theorem featureClosed_update (f : feature) (r : record) (h : featureClosed f) :
    featureClosed (f.Update r).1 := by
  obtain ⟨hmo, ham, hwd, hdy, hsa, ⟨hsw, hnw⟩, ⟨hsd, hnd⟩, hpol⟩ := h
  unfold feature.Update
  by_cases hl : r.Label ≠ f.Category
  · rw [if_pos hl]
    exact ⟨hmo, ham, hwd, hdy, hsa, ⟨hsw, hnw⟩, ⟨hsd, hnd⟩, hpol⟩
  · rw [if_neg hl]
    refine ⟨hmo, insertionSort_ne_nil _ _ (by simp), ?_, ?_, List.sorted_insertionSort _ _,
      ?_, ?_, ?_⟩
    · dsimp only
      split_ifs
      · exact insertionSort_ne_nil _ _ (by simp)
      · exact hwd
    · dsimp only
      split_ifs
      · exact insertionSort_ne_nil _ _ (by simp)
      · exact hdy
    · dsimp only
      split_ifs with hw
      · exact sorted_nodup_append_sort _ _ hnw (by simpa [feature.HasWeekday] using hw)
      · exact ⟨hsw, hnw⟩
    · dsimp only
      split_ifs with hd
      · exact sorted_nodup_append_sort _ _ hnd (by simpa [feature.HasDay] using hd)
      · exact ⟨hsd, hnd⟩
    · dsimp only
      rw [List.length_insertionSort, List.length_append, List.length_singleton]
      split_ifs
      · push_cast; omega
      · push_cast; omega

theorem featureOutgoing_toFeature (r : record) (h : r.Amount < 0) :
    featureOutgoing r.ToFeature := by
  refine ⟨featureClosed_toFeature r, ?_⟩
  simp [record.ToFeature, h]

theorem featureOutgoing_months (f : feature) (m : Nat) (h : featureOutgoing f) :
    featureOutgoing { f with Months := m :: f.Months } :=
  ⟨featureClosed_months f m h.1, h.2⟩

theorem featureOutgoing_update (f : feature) (r : record) (h : featureOutgoing f)
    (hr : r.Amount < 0) : featureOutgoing (f.Update r).1 := by
  refine ⟨featureClosed_update f r h.1, ?_⟩
  unfold feature.Update
  by_cases hl : r.Label ≠ f.Category
  · rw [if_pos hl]; exact h.2
  · rw [if_neg hl]
    simp [hr, h.2]

/-! ## The tendency: closure, lookahead, keys -/

/-- C5: `_compute` returns for every record list, and every feature of the result has
ascending amounts, ascending duplicate-free weekdays and days, and polarity counters whose
sum is the number of amounts, one per record folded into the feature. -/
theorem compute_tendency_closure (R : List record) :
    ∃ T, _compute R = some T ∧ ∀ entry ∈ T, ∀ F ∈ entry.2,
      F.Amounts.Sorted (· ≤ ·) ∧ (F.Weekdays.Sorted (· ≤ ·) ∧ F.Weekdays.Nodup) ∧
      (F.Days.Sorted (· ≤ ·) ∧ F.Days.Nodup) ∧
      F.Polarity.1 + F.Polarity.2 = F.Amounts.length := by
  obtain ⟨T, hT, hall, _, _⟩ :=
    compute_inv featureClosed (fun _ => True) (fun f h => h.1)
      (fun r _ => featureClosed_toFeature r) featureClosed_months
      (fun f r h _ => featureClosed_update f r h) R (fun _ _ _ _ _ => trivial)
  refine ⟨T, hT, ?_⟩
  intro entry he F hF
  obtain ⟨_, _, _, _, h5, h6, h7, h8⟩ := (hall entry he).2 F hF
  exact ⟨h5, h6, h7, h8⟩

theorem computeLoop_congr (R R' : List record)
    (h1 : ∀ i : Nat, 1 ≤ i → R[i]? = R'[i]?)
    (h0 : ∀ i : Nat, (R[i]?).map (fun r : record => r.Date.Month) = (R'[i]?).map (fun r : record => r.Date.Month)) :
    ∀ (i : Nat) (model : routines), computeLoop R i model = computeLoop R' i model := by
  intro i
  induction i with
  | zero => intro model; rfl
  | succ i ih =>
    intro model
    simp only [computeLoop]
    rw [h1 (i + 1) (by omega)]
    have hm := h0 i
    cases R'[i + 1]? with
    | none => cases R[i]? <;> cases R'[i]? <;> rfl
    | some a =>
      cases hR : R[i]? with
      | none =>
        cases hR' : R'[i]? with
        | none => rfl
        | some b' => rw [hR, hR'] at hm; simp at hm
      | some b =>
        cases hR' : R'[i]? with
        | none => rw [hR, hR'] at hm; simp at hm
        | some b' =>
          rw [hR, hR'] at hm
          simp only [Option.map_some', Option.some.injEq] at hm
          dsimp only
          rw [hm]
          split_ifs
          · cases _calculate model a.Party b'.Date.Month a with
            | none => rfl
            | some model' => exact ih model'
          · exact ih model

/-- C6: two record lists of the same length (at least 1) that agree at every index from 1
on and whose index-0 records have the same calendar month give the same model after the
loop of `_compute` (so the same map whatever the iteration order of the flattening) and the
same tendency. -/
theorem compute_index0_lookahead (R R' : List record) (hlen : R.length = R'.length)
    (_hpos : 1 ≤ R.length) (hagree : ∀ i : Nat, 1 ≤ i → R[i]? = R'[i]?)
    (hmonth : (R[0]?).map (fun r : record => r.Date.Month)
      = (R'[0]?).map (fun r : record => r.Date.Month)) :
    computeLoop R (R.length - 1) [] = computeLoop R' (R'.length - 1) [] ∧
      _compute R = _compute R' := by
  have h0 : ∀ i : Nat, (R[i]?).map (fun r : record => r.Date.Month)
      = (R'[i]?).map (fun r : record => r.Date.Month) := by
    intro i
    cases i with
    | zero => exact hmonth
    | succ j => rw [hagree (j + 1) (by omega)]
  have hloop : computeLoop R (R.length - 1) [] = computeLoop R' (R'.length - 1) [] := by
    rw [← hlen, computeLoop_congr R R' hagree h0]
  refine ⟨hloop, ?_⟩
  unfold _compute
  rw [hloop]

/-- C6 (witness): replacing the index-0 record of the fixture of `TestPredictiveModel` by a
record of another party, label, amount and day in the same month leaves the tendency
unchanged. -/
theorem compute_index0_lookahead_witness :
    _compute cateringFixtureSwapped = _compute cateringFixture :=
  (compute_index0_lookahead cateringFixtureSwapped cateringFixture (by decide) (by decide)
    (by
      intro i hi
      cases i with
      | zero => omega
      | succ j => rfl)
    (by decide)).2

/-- C7: `_compute` returns for every record list; the keys of the result are exactly the
strings `sender=<S> receiver=<R>` of the records at the indices from 1 on whose label is
not `?`, no key occurs twice, and every key has a non-empty feature list.  The fixture of
`TestPredictiveModel` and the `test-signature` fixture give 2 keys each. -/
theorem compute_keys (R : List record) :
    (∃ T, _compute R = some T ∧
      (∀ k, k ∈ gmKeys T ↔
        ∃ i r, 1 ≤ i ∧ R[i]? = some r ∧ r.Label ≠ "?" ∧
          "sender=" ++ r.Sender ++ " receiver=" ++ r.Receiver = k) ∧
      (gmKeys T).Nodup ∧ ∀ entry ∈ T, entry.2 ≠ []) ∧
    (_compute cateringFixture).map (fun T => (gmKeys T).length) = some 2 ∧
    (_compute signatureFixture).map (fun T => (gmKeys T).length) = some 2 := by
  refine ⟨?_, by decide, by decide⟩
  obtain ⟨T, hT, hall, hk, hn⟩ :=
    compute_inv featureClosed (fun _ => True) (fun f h => h.1)
      (fun r _ => featureClosed_toFeature r) featureClosed_months
      (fun f r h _ => featureClosed_update f r h) R (fun _ _ _ _ _ => trivial)
  exact ⟨T, hT, hk, hn, fun entry he => (hall entry he).1⟩

/-- C8: `_compute` returns for every record list and every feature of the result has
non-empty amounts, months, weekdays and days; when every record has a negative amount every
feature has polarity `[0, n]` with `n > 0`.  For the fixture of `TestPredictiveModel` the
entry of the party of Alexandru and (livrator) contains such a feature of category
Catering. -/
theorem compute_features_nonempty (R : List record) :
    (∃ T, _compute R = some T ∧
      (∀ entry ∈ T, ∀ F ∈ entry.2,
        F.Amounts ≠ [] ∧ F.Months ≠ [] ∧ F.Weekdays ≠ [] ∧ F.Days ≠ []) ∧
      ((∀ r ∈ R, r.Amount < 0) →
        ∀ entry ∈ T, ∀ F ∈ entry.2, F.Polarity.1 = 0 ∧ 0 < F.Polarity.2)) ∧
    ∃ T fs F, _compute cateringFixture = some T ∧
      gmGet T "sender=Alexandru receiver=(livrator)" = some fs ∧ F ∈ fs ∧
      F.Category = "Catering" ∧ F.Polarity.1 = 0 ∧ 0 < F.Polarity.2 ∧
      F.Amounts ≠ [] ∧ F.Months ≠ [] ∧ F.Weekdays ≠ [] ∧ F.Days ≠ [] := by
  constructor
  · obtain ⟨T, hT, hall, _, _⟩ :=
      compute_inv featureClosed (fun _ => True) (fun f h => h.1)
        (fun r _ => featureClosed_toFeature r) featureClosed_months
        (fun f r h _ => featureClosed_update f r h) R (fun _ _ _ _ _ => trivial)
    refine ⟨T, hT, ?_, ?_⟩
    · intro entry he F hF
      obtain ⟨h1, h2, h3, h4, _⟩ := (hall entry he).2 F hF
      exact ⟨h2, h1, h3, h4⟩
    · intro hneg
      obtain ⟨T', hT', hall', _, _⟩ :=
        compute_inv featureOutgoing (fun r => r.Amount < 0) (fun f h => h.1.1)
          featureOutgoing_toFeature featureOutgoing_months featureOutgoing_update R
          (fun i r _ hr _ => hneg r (List.getElem?_mem hr))
      rw [hT] at hT'
      simp only [Option.some.injEq] at hT'
      subst hT'
      intro entry he F hF
      obtain ⟨⟨_, hne, _, _, _, _, _, hpol⟩, hzero⟩ := (hall' entry he).2 F hF
      refine ⟨hzero, ?_⟩
      have hlen : 0 < F.Amounts.length := List.length_pos.mpr hne
      omega
  · have h : ((_compute cateringFixture).bind fun T =>
        (gmGet T "sender=Alexandru receiver=(livrator)").map fun fs =>
          fs.any fun F =>
            decide (F.Category = "Catering" ∧ F.Polarity.1 = 0 ∧ 0 < F.Polarity.2 ∧
              F.Amounts ≠ [] ∧ F.Months ≠ [] ∧ F.Weekdays ≠ [] ∧ F.Days ≠ [])) = some true := by
      decide
    cases hT : _compute cateringFixture with
    | none => rw [hT] at h; simp at h
    | some T =>
      rw [hT] at h
      simp only [Option.some_bind] at h
      cases hfs : gmGet T "sender=Alexandru receiver=(livrator)" with
      | none => rw [hfs] at h; simp at h
      | some fs =>
        rw [hfs] at h
        simp only [Option.map_some', Option.some.injEq, List.any_eq_true,
          decide_eq_true_eq] at h
        obtain ⟨F, hF, hprop⟩ := h
        exact ⟨T, fs, F, rfl, hfs, hF, hprop⟩

/-- C8 (witness): every record of the fixture of `TestPredictiveModel` has a negative
amount, so every feature of its tendency has polarity `[0, n]` with `n > 0`. -/
theorem compute_features_nonempty_witness :
    ∃ T, _compute cateringFixture = some T ∧
      ∀ entry ∈ T, ∀ F ∈ entry.2, F.Polarity.1 = 0 ∧ 0 < F.Polarity.2 := by
  obtain ⟨⟨T, hT, _, hneg⟩, _⟩ := compute_features_nonempty cateringFixture
  exact ⟨T, hT, hneg (by decide)⟩

/-! ## Scoring of candidates -/

theorem featurePoints_gate (F : feature) (c : record) (points : pointbus)
    (h : featurePoints F c = some (some points)) :
    (0 < c.Amount → F.Polarity.1 ≠ 0) ∧ (c.Amount < 0 → F.Polarity.2 ≠ 0) := by
  unfold featurePoints at h
  by_cases h0 : F.Amounts.length = 0
  · rw [if_pos h0] at h
    simp at h
  · rw [if_neg h0] at h
    by_cases hg : (F.Polarity.1 = 0 ∧ c.Amount > 0) ∨ (F.Polarity.2 = 0 ∧ c.Amount < 0)
    · rw [if_pos hg] at h
      simp at h
    · constructor
      · intro hpos hzero
        exact hg (Or.inl ⟨hzero, hpos⟩)
      · intro hneg hzero
        exact hg (Or.inr ⟨hzero, hneg⟩)

theorem gmKeys_scoreStep (score : List (String × pointbus)) (category : String)
    (points : pointbus) (k : String) :
    k ∈ gmKeys (scoreStep score category points) ↔ k = category ∨ k ∈ gmKeys score := by
  unfold scoreStep
  cases gmGet score category with
  | none => exact gmKeys_gmSet score category _ k
  | some accPoints => exact gmKeys_gmSet score category _ k

theorem scoreLoop_keys (c : record) (features : List feature) :
    ∀ (score score' : List (String × pointbus)), scoreLoop c features score = some score' →
      ∀ k ∈ gmKeys score', k ∈ gmKeys score ∨
        ∃ F points, F ∈ features ∧ F.Category = k ∧
          featurePoints F c = some (some points) := by
  induction features with
  | nil =>
    intro score score' h k hk
    simp only [scoreLoop, Option.some.injEq] at h
    rw [← h] at hk
    exact Or.inl hk
  | cons F rest ih =>
    intro score score' h k hk
    simp only [scoreLoop] at h
    cases hfp : featurePoints F c with
    | none => rw [hfp] at h; simp at h
    | some o =>
      cases o with
      | none =>
        rw [hfp] at h
        rcases ih score score' h k hk with h1 | ⟨G, p, hG, hcat, hp⟩
        · exact Or.inl h1
        · exact Or.inr ⟨G, p, List.mem_cons_of_mem _ hG, hcat, hp⟩
      | some points =>
        rw [hfp] at h
        rcases ih _ score' h k hk with h1 | ⟨G, p, hG, hcat, hp⟩
        · rcases (gmKeys_scoreStep score F.Category points k).mp h1 with h2 | h2
          · exact Or.inr ⟨F, points, List.mem_cons_self _ _, h2.symm, hfp⟩
          · exact Or.inl h2
        · exact Or.inr ⟨G, p, List.mem_cons_of_mem _ hG, hcat, hp⟩

/-- C9: a feature that adds a point bus to the `calculated` map of a candidate passes the
polarity gate (a positive candidate amount needs a non-zero incoming counter, a negative
one a non-zero outgoing counter); and every key of the `calculated` map of the statement
built for a candidate is the category of such a feature among the cached features of the
party of the candidate. -/
theorem research_polarity_gate (c : record) :
    (∀ (F : feature) (points : pointbus), featurePoints F c = some (some points) →
      (0 < c.Amount → F.Polarity.1 ≠ 0) ∧ (c.Amount < 0 → F.Polarity.2 ≠ 0)) ∧
    (∀ (memory : List (String × results)) (reg : List Transaction) (signature : String)
      (st : statement), researchStep memory reg signature c = some st →
      ∀ k ∈ gmKeys st.Calculated,
        ∃ rs features F points, gmGet memory signature = some rs ∧
          gmGet rs.patterns c.Party = some features ∧ F ∈ features ∧ F.Category = k ∧
          featurePoints F c = some (some points) ∧
          (0 < c.Amount → F.Polarity.1 ≠ 0) ∧ (c.Amount < 0 → F.Polarity.2 ≠ 0)) := by
  refine ⟨fun F points h => featurePoints_gate F c points h, ?_⟩
  intro memory reg signature st hst k hk
  unfold researchStep at hst
  cases hsim : similarityLoop c reg [] with
  | none => rw [hsim] at hst; simp at hst
  | some sims =>
    rw [hsim] at hst
    dsimp only at hst
    cases hmem : gmGet memory signature with
    | none =>
      rw [hmem] at hst
      simp only [Option.some.injEq] at hst
      rw [← hst] at hk
      simp [gmKeys] at hk
    | some rs =>
      rw [hmem] at hst
      dsimp only at hst
      cases hpat : gmGet rs.patterns c.Party with
      | none =>
        rw [hpat] at hst
        simp only [Option.some.injEq] at hst
        rw [← hst] at hk
        simp [gmKeys] at hk
      | some features =>
        rw [hpat] at hst
        dsimp only at hst
        cases hscore : scoreLoop c features [] with
        | none => rw [hscore] at hst; simp at hst
        | some score =>
          rw [hscore] at hst
          simp only [Option.some.injEq] at hst
          rw [← hst] at hk
          rcases scoreLoop_keys c features [] score hscore k hk with h1 | ⟨F, p, hF, hcat, hp⟩
          · simp [gmKeys] at h1
          · exact ⟨rs, features, F, p, rfl, hpat, hF, hcat, hp, featurePoints_gate F c p hp⟩

/-- C9 (witness): the feature of category `Label #1.2` of the `test-signature` fixture
scores the outgoing candidate of `TestModelTendency`, and its outgoing counter is not
zero. -/
theorem research_polarity_gate_witness :
    featurePoints predictionFeature predictionCandidate
        = some (some { s0 := 1, s1 := 0, s2 := 0, s3 := 0, s4 := 0, s5 := 1 }) ∧
      predictionFeature.Polarity.2 ≠ 0 :=
  ⟨by decide,
    ((research_polarity_gate predictionCandidate).1 predictionFeature
      { s0 := 1, s1 := 0, s2 := 0, s3 := 0, s4 := 0, s5 := 1 } (by decide)).2 (by decide)⟩

/-! ## The deviation band -/

theorem collect_map_some {α : Type} (l : List α) : collect (l.map some) = some l := by
  induction l with
  | nil => rfl
  | cons x rest ih => simp [collect, ih]

theorem deviationAt_eq (L : List Int)
    (hb : ∀ x ∈ L, 0 < x ∧ x < 4611686018427387904) :
    (List.range (L.length - 1)).map (deviationAt L) = (bandDeviations L).map some := by
  apply List.ext_getElem?
  intro i
  rw [List.getElem?_map, List.getElem?_map]
  unfold bandDeviations
  rw [List.getElem?_zipWith, List.getElem?_tail]
  by_cases hi : i < L.length - 1
  · have h0 : i < L.length := by omega
    have h1 : i + 1 < L.length := by omega
    rw [List.getElem?_range hi, List.getElem?_eq_getElem h0, List.getElem?_eq_getElem h1]
    simp only [Option.map_some', deviationAt, List.getElem?_eq_getElem h0,
      List.getElem?_eq_getElem h1]
    have ha := hb L[i] (List.getElem_mem h0)
    have hb' := hb L[i + 1] (List.getElem_mem h1)
    have hw : wrap64 (L[i + 1] - L[i]) = L[i + 1] - L[i] := by
      apply wrap64_of_isInt64
      unfold isInt64
      omega
    rw [hw]
  · have h1 : L.length ≤ i + 1 := by omega
    have hr : (List.range (L.length - 1))[i]? = none := by
      rw [List.getElem?_eq_none]
      simp only [List.length_range]
      omega
    rw [hr, List.getElem?_eq_none h1]
    cases L[i]? <;> rfl

theorem calcAmountsMedian_eq (L : List Int) (hne : L ≠ [])
    (hb : ∀ x ∈ L, 0 < x ∧ x < 4611686018427387904) :
    calcAmountsMedian L = some (medianInt L) := by
  have hlen : 0 < L.length := List.length_pos.mpr hne
  unfold calcAmountsMedian medianInt
  by_cases hodd : L.length % 2 = 1
  · rw [if_pos hodd, if_pos hodd]
    have h : L.length / 2 < L.length := by omega
    rw [List.getElem?_eq_getElem h, List.getD_eq_getElem _ _ h]
  · rw [if_neg hodd, if_neg hodd]
    have hn : ¬ L.length / 2 = 0 := by omega
    have h0 : L.length / 2 - 1 < L.length := by omega
    have h1 : L.length / 2 < L.length := by omega
    simp only [hn, if_false, List.getElem?_eq_getElem h0, List.getElem?_eq_getElem h1,
      List.getD_eq_getElem _ _ h0, List.getD_eq_getElem _ _ h1]
    have ha := hb _ (List.getElem_mem h0)
    have hb' := hb _ (List.getElem_mem h1)
    have hw : wrap64 (L[L.length / 2 - 1] + L[L.length / 2])
        = L[L.length / 2 - 1] + L[L.length / 2] := by
      apply wrap64_of_isInt64
      unfold isInt64
      omega
    rw [hw, Int.tdiv_eq_ediv (by omega) (by omega)]

theorem calcDeviationMedian_middle (D : List F64) (hlen : 2 ≤ D.length) :
    calcDeviationMedian D = some (middleF64 D) := by
  unfold calcDeviationMedian middleF64
  by_cases hodd : D.length % 2 = 1
  · simp only [hodd, if_true]
    have h : D.length / 2 < D.length := by omega
    rw [List.getElem?_eq_getElem h, List.getD_eq_getElem _ _ h]
  · have hn : ¬ D.length / 2 = 0 := by omega
    have h0 : D.length / 2 - 1 < D.length := by omega
    have h1 : D.length / 2 < D.length := by omega
    simp only [hodd, hn, if_false, List.getElem?_eq_getElem h0, List.getElem?_eq_getElem h1,
      List.getD_eq_getElem _ _ h0, List.getD_eq_getElem _ _ h1]

theorem medianF64_eq_middle (D : List F64) :
    medianF64 D = middleF64 (D.insertionSort (fun x y => F64.le x y = true)) := rfl

theorem middleF64_sorted (D : List F64) (hasc : D.Sorted (fun x y => F64.le x y = true)) :
    middleF64 D = medianF64 D := by
  rw [medianF64_eq_middle, hasc.insertionSort_eq]

theorem F64_add_comm (a b : F64) : F64.add a b = F64.add b a := by
  cases a with
  | nan => cases b <;> rfl
  | inf s =>
    cases b with
    | nan => rfl
    | inf t =>
      simp only [F64.add]
      by_cases h : s = t
      · subst h; rfl
      · rw [if_neg h, if_neg (fun e => h e.symm)]
    | fin m e => rfl
  | fin m1 e1 =>
    cases b with
    | nan => rfl
    | inf t => rfl
    | fin m2 e2 =>
      simp only [F64.add]
      rw [min_comm e1 e2, add_comm (m1 * 2 ^ (e1 - min e2 e1).toNat)]

theorem middleF64_pair (D : List F64) (hlen : D.length = 2) : middleF64 D = medianF64 D := by
  match D, hlen with
  | [d0, d1], _ =>
    rw [medianF64_eq_middle]
    simp only [List.insertionSort, List.orderedInsert]
    by_cases h : F64.le d0 d1 = true
    · rw [if_pos h]
    · rw [if_neg h]
      have hm : ∀ a b : F64, middleF64 [a, b] = F64.div (F64.add a b) (F64.ofInt 2) := by
        intro a b
        simp [middleF64]
      rw [hm, hm, F64_add_comm]

theorem bandAmounts_bounds (amounts : List Int) (absV : Int)
    (hpos : ∀ a ∈ amounts, 0 < a ∧ a < 4611686018427387904)
    (hv : 0 < absV ∧ absV < 4611686018427387904) :
    ∀ x ∈ bandAmounts amounts absV, 0 < x ∧ x < 4611686018427387904 := by
  intro x hx
  unfold bandAmounts at hx
  rw [(List.perm_insertionSort _ _).mem_iff] at hx
  rcases List.mem_append.mp hx with h | h
  · exact hpos x h
  · rw [List.mem_singleton.mp h]; exact hv

theorem bandAmounts_length (amounts : List Int) (absV : Int) :
    (bandAmounts amounts absV).length = amounts.length + 1 := by
  unfold bandAmounts
  rw [List.length_insertionSort, List.length_append, List.length_singleton]

theorem bandDeviations_length (A : List Int) :
    (bandDeviations A).length = A.length - 1 := by
  unfold bandDeviations
  rw [List.length_zipWith, List.length_tail]
  omega

/-- C10 (amended): for at least two positive amounts and a positive `absV`, all below
`2^62`, `_isBetweenAmountDeviation` returns; when the middle of the deviation list `D` in
index order (for an even size the mean of the two centers) is the median of `D`, the result
is true exactly when `int(m_a - band) ≤ absV ≤ int(m_a + band)`, both bounds being computed
in `float64` and truncated toward zero; and the middle of `D` is its median whenever `D` is
in ascending order and whenever there are exactly two amounts. -/
theorem isBetweenAmountDeviation_truncated (amounts : List Int) (absV : Int)
    (hlen : 2 ≤ amounts.length)
    (hpos : ∀ a ∈ amounts, 0 < a ∧ a < 4611686018427387904)
    (hv : 0 < absV ∧ absV < 4611686018427387904) :
    (∃ b, _isBetweenAmountDeviation amounts absV = some b) ∧
    (middleF64 (bandDeviations (bandAmounts amounts absV))
        = medianF64 (bandDeviations (bandAmounts amounts absV)) →
      _isBetweenAmountDeviation amounts absV = some (deviationBandTruncated amounts absV)) ∧
    ((bandDeviations (bandAmounts amounts absV)).Sorted (fun x y => F64.le x y = true) →
      middleF64 (bandDeviations (bandAmounts amounts absV))
        = medianF64 (bandDeviations (bandAmounts amounts absV))) ∧
    (amounts.length = 2 →
      middleF64 (bandDeviations (bandAmounts amounts absV))
        = medianF64 (bandDeviations (bandAmounts amounts absV))) := by
  have hb := bandAmounts_bounds amounts absV hpos hv
  have hl := bandAmounts_length amounts absV
  have hne : bandAmounts amounts absV ≠ [] := by
    intro h
    rw [h] at hl
    simp at hl
  have hdl : (bandDeviations (bandAmounts amounts absV)).length = amounts.length := by
    rw [bandDeviations_length, hl]
    omega
  have hd : 2 ≤ (bandDeviations (bandAmounts amounts absV)).length := by omega
  have h1 := deviationAt_eq (bandAmounts amounts absV) hb
  have h2 := calcAmountsMedian_eq (bandAmounts amounts absV) hne hb
  have h3 := calcDeviationMedian_middle _ hd
  refine ⟨?_, ?_, middleF64_sorted _, fun h => middleF64_pair _ (by omega)⟩
  · unfold bandAmounts at h1 h2 h3
    unfold _isBetweenAmountDeviation
    simp only [h1, collect_map_some, h2, h3]
    exact ⟨_, rfl⟩
  · intro hmid
    rw [hmid] at h3
    unfold bandAmounts at h1 h2 h3
    unfold _isBetweenAmountDeviation deviationBandTruncated bandLow bandHigh bandAmounts
    simp only [h1, collect_map_some, h2, h3]

/-- C10 (witness): the amended band at the amounts of the feature `Label #1.2` of the
`test-signature` fixture and the candidate amount 1200 of `TestModelTendency`, at the
amounts 10, 10 and `absV = 9`, where the lower bound 9.5 is truncated to 9, and at the
amounts 3000, 4000, 5000 and `absV = 4500`, whose deviation list is in descending order. -/
theorem isBetweenAmountDeviation_truncated_witness :
    _isBetweenAmountDeviation [930, 2410] 1200
        = some (deviationBandTruncated [930, 2410] 1200) ∧
      _isBetweenAmountDeviation [10, 10] 9 = some (deviationBandTruncated [10, 10] 9) ∧
      deviationBandTruncated [10, 10] 9 = true ∧
      _isBetweenAmountDeviation [3000, 4000, 5000] 4500
        = some (deviationBandTruncated [3000, 4000, 5000] 4500) :=
  ⟨(isBetweenAmountDeviation_truncated [930, 2410] 1200 (by decide) (by decide)
      (by decide)).2.1 (by decide),
    (isBetweenAmountDeviation_truncated [10, 10] 9 (by decide) (by decide)
      (by decide)).2.1 (by decide),
    by decide,
    (isBetweenAmountDeviation_truncated [3000, 4000, 5000] 4500 (by decide) (by decide)
      (by decide)).2.1 (by decide)⟩

/-- C10 (counterexample): for the amounts 10, 10 and `absV = 9` the code accepts although
the lower bound `m_a - band` is 9.5, above 9; for the amounts 100, 1000, 1100 and
`absV = 200` the code accepts because it takes the middle element 0.8 of the unsorted
deviations 0.5, 0.8, 0.0909 where the median is 0.5, which gives the band from 300 to
900; and for three amounts `2^62` and `absV = 2^62` the code rejects because the sum of the
two centers wraps around in `int64`, which makes the amount median `-2^62`. -/
theorem isBetweenAmountDeviation_counterexample :
    (_isBetweenAmountDeviation [10, 10] 9 = some true ∧
      deviationBandStated [10, 10] 9 = false ∧
      F64.le (F64.fin 19 (-1)) (bandLow [10, 10] 9) = true) ∧
    (_isBetweenAmountDeviation [100, 1000, 1100] 200 = some true ∧
      deviationBandStated [100, 1000, 1100] 200 = false ∧
      F64.toInt (bandLow [100, 1000, 1100] 200) = 300 ∧
      F64.toInt (bandHigh [100, 1000, 1100] 200) = 900) ∧
    (_isBetweenAmountDeviation
        [4611686018427387904, 4611686018427387904, 4611686018427387904] 4611686018427387904
        = some false ∧
      deviationBandStated
        [4611686018427387904, 4611686018427387904, 4611686018427387904] 4611686018427387904
        = true ∧
      calcAmountsMedian [4611686018427387904, 4611686018427387904, 4611686018427387904,
        4611686018427387904] = some (-4611686018427387904)) := by
  decide

/-! ## Record construction -/

/-- C19: for a transaction with a UUID, `_fromTransaction` takes label, date, amount and
parent (the UUID) from the transaction and resolves sender and receiver through the first
whitespace-separated token of the headers that starts with `sender=` or `receiver=`, with
the structured names as fallback; a transaction without details yields exactly this one
record in `_evaluate`. -/
theorem fromTransaction_headers_override (t : Transaction) (uuid : String)
    (huuid : t.UUID = some uuid) :
    _fromTransaction t =
        some { Sender := resolvedName t.Headers "sender=" t.SenderName,
               Receiver := resolvedName t.Headers "receiver=" t.ReceiverName,
               Label := t.LabelName, Date := t.Date, Amount := t.Amount, Parent := uuid } ∧
      (t.Details = [] →
        evaluateStep t =
          some [{ Sender := resolvedName t.Headers "sender=" t.SenderName,
                  Receiver := resolvedName t.Headers "receiver=" t.ReceiverName,
                  Label := t.LabelName, Date := t.Date, Amount := t.Amount,
                  Parent := uuid }]) := by
  have h : _fromTransaction t =
        some { Sender := resolvedName t.Headers "sender=" t.SenderName,
               Receiver := resolvedName t.Headers "receiver=" t.ReceiverName,
               Label := t.LabelName, Date := t.Date, Amount := t.Amount, Parent := uuid } := by
    unfold _fromTransaction
    simp only [huuid, fromHeaders_resolved]
  refine ⟨h, ?_⟩
  intro hd
  unfold evaluateStep
  simp [hd, h]

/-- C19 (witness): a transaction without details whose headers name the sender. -/
theorem fromTransaction_headers_override_witness :
    _fromTransaction { similarTransaction with Headers := "ref=17 sender=actor.#6 x" } =
        some { Sender := "actor.#6", Receiver := "Actor #5", Label := "Label #1.1",
               Date := similarTransaction.Date, Amount := -1500,
               Parent := "00000000-0000-0000-0000-000000000003" } ∧
      evaluateStep { similarTransaction with Headers := "ref=17 sender=actor.#6 x" } =
        some [{ Sender := "actor.#6", Receiver := "Actor #5", Label := "Label #1.1",
                Date := similarTransaction.Date, Amount := -1500,
                Parent := "00000000-0000-0000-0000-000000000003" }] :=
  ⟨(fromTransaction_headers_override
      { similarTransaction with Headers := "ref=17 sender=actor.#6 x" }
      "00000000-0000-0000-0000-000000000003" rfl).1,
    (fromTransaction_headers_override
      { similarTransaction with Headers := "ref=17 sender=actor.#6 x" }
      "00000000-0000-0000-0000-000000000003" rfl).2 rfl⟩

/-! ## HTTP responses -/

theorem gmGet_gmSet {β : Type} (m : List (String × β)) (k : String) (v : β) (k' : String) :
    gmGet (gmSet m k v) k' = if k = k' then some v else gmGet m k' := by
  induction m with
  | nil => simp [gmSet, gmGet]
  | cons e rest ih =>
    obtain ⟨k0, v0⟩ := e
    simp only [gmSet]
    by_cases h0 : k0 = k
    · rw [if_pos h0]
      simp only [gmGet]
      subst h0
      by_cases h1 : k0 = k'
      · simp [h1]
      · simp [h1]
    · rw [if_neg h0]
      simp only [gmGet, ih]
      by_cases h1 : k0 = k'
      · have : ¬ k = k' := fun h => h0 (h1.trans h.symm)
        simp [h1, this]
      · simp [h1]

theorem gmGet_gmDelete {β : Type} (m : List (String × β)) (k k' : String) :
    gmGet (gmDelete m k) k' = if k = k' then none else gmGet m k' := by
  induction m with
  | nil => simp [gmDelete, gmGet]
  | cons e rest ih =>
    obtain ⟨k0, v0⟩ := e
    simp only [gmDelete]
    by_cases h0 : k0 = k
    · rw [if_pos h0, ih]
      subst h0
      by_cases h1 : k0 = k'
      · simp [h1]
      · simp [h1, gmGet]
    · rw [if_neg h0]
      simp only [gmGet, ih]
      by_cases h1 : k0 = k'
      · have : ¬ k = k' := fun h => h0 (h1.trans h.symm)
        simp [h1, this]
      · simp [h1]

theorem okay_fresh (build : Build) (output lap : String) (isCached : Bool) :
    (Response.Okay build ResponseWriter.fresh output isCached lap).Status = some 200 ∧
    (Response.Okay build ResponseWriter.fresh output isCached lap).Body = output ∧
    gmGet (Response.Okay build ResponseWriter.fresh output isCached lap).Header "X-Cache"
      = some (if isCached then "true" else "false") ∧
    gmGet (Response.Okay build ResponseWriter.fresh output isCached lap).Header "X-Benchmark"
      = some lap ∧
    gmGet (Response.Okay build ResponseWriter.fresh output isCached lap).Header "X-Server"
      = some (serverHeader build) := by
  simp [Response.Okay, ResponseWriter.fresh, ResponseWriter.Set, ResponseWriter.WriteHeader,
    ResponseWriter.Write, gmGet_gmSet, gmGet]

theorem okayStream_fresh (build : Build) (output lap : String) (isCached : Bool) :
    (Response.OkayStream build ResponseWriter.fresh output isCached lap).Status = some 200 ∧
    (Response.OkayStream build ResponseWriter.fresh output isCached lap).Body = output ∧
    gmGet (Response.OkayStream build ResponseWriter.fresh output isCached lap).Header "X-Cache"
      = none ∧
    gmGet (Response.OkayStream build ResponseWriter.fresh output isCached lap).Header
      "X-Benchmark" = some lap ∧
    gmGet (Response.OkayStream build ResponseWriter.fresh output isCached lap).Header
      "X-Server" = some (serverHeader build) := by
  simp [Response.OkayStream, ResponseWriter.fresh, ResponseWriter.Set,
    ResponseWriter.WriteHeader, ResponseWriter.Write, gmGet_gmSet, gmGet]

theorem wrong_fresh (build : Build) (err : String) :
    (Response.Wrong build ResponseWriter.fresh err).Status = some 400 ∧
    (Response.Wrong build ResponseWriter.fresh err).Body = err := by
  simp [Response.Wrong, ResponseWriter.fresh, ResponseWriter.Set, ResponseWriter.WriteHeader,
    ResponseWriter.Write]

theorem fault_fresh (build : Build) (err : String) :
    (Response.Fault build ResponseWriter.fresh err).Status = some 500 ∧
    (Response.Fault build ResponseWriter.fresh err).Body = err ∧
    gmGet (Response.Fault build ResponseWriter.fresh err).Header "X-Cache" = none := by
  simp [Response.Fault, ResponseWriter.fresh, ResponseWriter.Set, ResponseWriter.WriteHeader,
    ResponseWriter.Write, gmGet_gmSet, gmGet]

/-- C20 (the code at the failing input): the response of `journal.download`, written by
`Response.OkayStream`, has status 200 and the headers `X-Benchmark` and `X-Server` but no
header `X-Cache`, whereas `Response.Okay` sets all three. -/
theorem download_lacks_cache_header (build : Build) (memory : List (String × results))
    (signature lap output : String) (isCached : Bool) :
    ((journal.download build memory signature lap ResponseWriter.fresh).Status = some 200 ∧
      gmGet (journal.download build memory signature lap ResponseWriter.fresh).Header
        "X-Cache" = none ∧
      gmGet (journal.download build memory signature lap ResponseWriter.fresh).Header
        "X-Benchmark" = some lap ∧
      gmGet (journal.download build memory signature lap ResponseWriter.fresh).Header
        "X-Server" = some (serverHeader build)) ∧
    ((Response.Okay build ResponseWriter.fresh output isCached lap).Status = some 200 ∧
      gmGet (Response.Okay build ResponseWriter.fresh output isCached lap).Header "X-Cache"
        = some (if isCached then "true" else "false") ∧
      gmGet (Response.Okay build ResponseWriter.fresh output isCached lap).Header
        "X-Benchmark" = some lap ∧
      gmGet (Response.Okay build ResponseWriter.fresh output isCached lap).Header "X-Server"
        = some (serverHeader build)) := by
  have h1 := okayStream_fresh build
  have h2 := okay_fresh build output lap isCached
  unfold journal.download
  refine ⟨⟨(h1 _ lap true).1, (h1 _ lap true).2.2.1, (h1 _ lap true).2.2.2.1,
    (h1 _ lap true).2.2.2.2⟩, h2.1, h2.2.2.1, h2.2.2.2.1, h2.2.2.2.2⟩

/-! ## The route cache of the registry -/

theorem readJson_cache_preserves (build : Build) (cache : List (String × String))
    (path : String) (pull : Except String String) (lap : String) (w : ResponseWriter)
    (U v : String) (h : gmGet cache U = some v) :
    gmGet (registry.readJson build cache path pull lap w).cache U = some v := by
  unfold registry.readJson _resolvePullRequest
  cases hc : gmGet cache path with
  | some cached => exact h
  | none =>
    cases pull with
    | error err => exact h
    | ok out =>
      have hne : ¬ path = U := by
        intro he
        rw [he, h] at hc
        cases hc
      simp only [gmGet_gmSet, if_neg hne]
      exact h

theorem serveGets_preserves (build : Build) (rqs : List GetRequest) :
    ∀ (cache : List (String × String)) (U v : String),
      gmGet cache U = some v → gmGet (serveGets build cache rqs) U = some v := by
  induction rqs with
  | nil => intro cache U v h; exact h
  | cons rq rest ih =>
    intro cache U v h
    simp only [serveGets]
    exact ih _ U v (readJson_cache_preserves build cache rq.path rq.pullRequest rq.lap _ U v h)

theorem readJson_hit (build : Build) (cache : List (String × String))
    (U : String) (pull : Except String String) (lap : String) (cached : String)
    (h : gmGet cache U = some cached) :
    registry.readJson build cache U pull lap ResponseWriter.fresh =
      { response := Response.Okay build ResponseWriter.fresh cached true lap, cache := cache,
        queried := false } := by
  unfold registry.readJson _resolvePullRequest
  rw [h]

theorem readJson_miss_ok (build : Build) (cache : List (String × String))
    (U : String) (lap : String) (out : String) (h : gmGet cache U = none) :
    registry.readJson build cache U (Except.ok out) lap ResponseWriter.fresh =
      { response := Response.Okay build ResponseWriter.fresh out false lap,
        cache := gmSet cache U out, queried := true } := by
  unfold registry.readJson _resolvePullRequest
  rw [h]

theorem readJson_miss_error (build : Build) (cache : List (String × String))
    (U : String) (lap : String) (err : String) (h : gmGet cache U = none) :
    registry.readJson build cache U (Except.error err) lap ResponseWriter.fresh =
      { response := Response.Fault build ResponseWriter.fresh err, cache := cache,
        queried := true } := by
  unfold registry.readJson _resolvePullRequest
  rw [h]

theorem readJson_success_stores (build : Build) (cache : List (String × String))
    (U : String) (pull : Except String String) (lap : String)
    (h : (registry.readJson build cache U pull lap ResponseWriter.fresh).response.Status
      = some 200) :
    gmGet (registry.readJson build cache U pull lap ResponseWriter.fresh).cache U =
      some (registry.readJson build cache U pull lap ResponseWriter.fresh).response.Body := by
  cases hc : gmGet cache U with
  | some cached =>
    rw [readJson_hit build cache U pull lap cached hc]
    simp only [(okay_fresh build cached lap true).2.1]
    exact hc
  | none =>
    cases pull with
    | error err =>
      rw [readJson_miss_error build cache U lap err hc] at h
      simp only [(fault_fresh build err).1] at h
      cases h
    | ok out =>
      rw [readJson_miss_ok build cache U lap out hc]
      simp only [(okay_fresh build out lap false).2.1, gmGet_gmSet, if_true]

/-- C13: on a miss with a successful pull the GET answers 200 with the pulled body and
`X-Cache: false`, queries the store and stores the body under its URL; on a miss with a
failed pull the route cache is left as it was; and once a GET of `U` has succeeded, then
after any sequence of further GETs (no POST) the next GET of `U` answers 200 with a
byte-identical body and `X-Cache: true` and does not query the store. -/
theorem route_cache_read_through (build : Build) (cache : List (String × String))
    (U : String) (pull₁ pull₂ : Except String String) (lap₁ lap₂ : String)
    (between : List GetRequest) :
    (∀ out : String, gmGet cache U = none → pull₁ = Except.ok out →
      (registry.readJson build cache U pull₁ lap₁ ResponseWriter.fresh).response.Status
          = some 200 ∧
        (registry.readJson build cache U pull₁ lap₁ ResponseWriter.fresh).response.Body
          = out ∧
        gmGet (registry.readJson build cache U pull₁ lap₁ ResponseWriter.fresh).response.Header
          "X-Cache" = some "false" ∧
        (registry.readJson build cache U pull₁ lap₁ ResponseWriter.fresh).queried = true ∧
        (registry.readJson build cache U pull₁ lap₁ ResponseWriter.fresh).cache
          = gmSet cache U out ∧
        gmGet (registry.readJson build cache U pull₁ lap₁ ResponseWriter.fresh).cache U
          = some out) ∧
    (∀ err : String, gmGet cache U = none → pull₁ = Except.error err →
      (registry.readJson build cache U pull₁ lap₁ ResponseWriter.fresh).response.Status
          = some 500 ∧
        (registry.readJson build cache U pull₁ lap₁ ResponseWriter.fresh).cache = cache) ∧
    ((registry.readJson build cache U pull₁ lap₁ ResponseWriter.fresh).response.Status
        = some 200 →
      (registry.readJson build
          (serveGets build
            (registry.readJson build cache U pull₁ lap₁ ResponseWriter.fresh).cache between)
          U pull₂ lap₂ ResponseWriter.fresh).response.Status = some 200 ∧
        (registry.readJson build
          (serveGets build
            (registry.readJson build cache U pull₁ lap₁ ResponseWriter.fresh).cache between)
          U pull₂ lap₂ ResponseWriter.fresh).response.Body
          = (registry.readJson build cache U pull₁ lap₁ ResponseWriter.fresh).response.Body ∧
        gmGet (registry.readJson build
          (serveGets build
            (registry.readJson build cache U pull₁ lap₁ ResponseWriter.fresh).cache between)
          U pull₂ lap₂ ResponseWriter.fresh).response.Header "X-Cache" = some "true" ∧
        (registry.readJson build
          (serveGets build
            (registry.readJson build cache U pull₁ lap₁ ResponseWriter.fresh).cache between)
          U pull₂ lap₂ ResponseWriter.fresh).queried = false) := by
  refine ⟨?_, ?_, ?_⟩
  · intro out hc hp
    subst hp
    rw [readJson_miss_ok build cache U lap₁ out hc]
    have h := okay_fresh build out lap₁ false
    refine ⟨h.1, h.2.1, ?_, rfl, rfl, ?_⟩
    · simpa using h.2.2.1
    · simp [gmGet_gmSet]
  · intro err hc hp
    subst hp
    rw [readJson_miss_error build cache U lap₁ err hc]
    exact ⟨(fault_fresh build err).1, rfl⟩
  · intro hs
    have h1 := readJson_success_stores build cache U pull₁ lap₁ hs
    have h2 := serveGets_preserves build between _ U _ h1
    rw [readJson_hit build _ U pull₂ lap₂ _ h2]
    have h := okay_fresh build
      (registry.readJson build cache U pull₁ lap₁ ResponseWriter.fresh).response.Body lap₂ true
    refine ⟨h.1, h.2.1, ?_, rfl⟩
    simpa using h.2.2.1

/-- C13 (witness): a miss on `/registry/actors` in an empty route cache, a GET of
`/registry/labels` in between, and a second GET of `/registry/actors` whose store would
now answer differently. -/
theorem route_cache_read_through_witness :
    (registry.readJson testBuild [] "/registry/actors" (Except.ok "[1]") "1ms"
        ResponseWriter.fresh).cache = [("/registry/actors", "[1]")] ∧
      (registry.readJson testBuild
          (serveGets testBuild
            (registry.readJson testBuild [] "/registry/actors" (Except.ok "[1]") "1ms"
              ResponseWriter.fresh).cache
            [{ path := "/registry/labels", pullRequest := Except.ok "[2]", lap := "1ms" }])
          "/registry/actors" (Except.ok "[3]") "2ms" ResponseWriter.fresh).response.Body
        = "[1]" ∧
      (registry.readJson testBuild
          (serveGets testBuild
            (registry.readJson testBuild [] "/registry/actors" (Except.ok "[1]") "1ms"
              ResponseWriter.fresh).cache
            [{ path := "/registry/labels", pullRequest := Except.ok "[2]", lap := "1ms" }])
          "/registry/actors" (Except.ok "[3]") "2ms" ResponseWriter.fresh).queried = false ∧
      (registry.readJson testBuild [] "/registry/actors" (Except.error "down") "1ms"
        ResponseWriter.fresh).cache = [] :=
  ⟨((route_cache_read_through testBuild [] "/registry/actors" (Except.ok "[1]")
      (Except.ok "[3]") "1ms" "2ms" []).1 "[1]" rfl rfl).2.2.2.2.1,
    (((route_cache_read_through testBuild [] "/registry/actors" (Except.ok "[1]")
      (Except.ok "[3]") "1ms" "2ms"
      [{ path := "/registry/labels", pullRequest := Except.ok "[2]", lap := "1ms" }]).2.2
        (by decide)).2.1).trans (by decide),
    ((route_cache_read_through testBuild [] "/registry/actors" (Except.ok "[1]")
      (Except.ok "[3]") "1ms" "2ms"
      [{ path := "/registry/labels", pullRequest := Except.ok "[2]", lap := "1ms" }]).2.2
        (by decide)).2.2.2,
    ((route_cache_read_through testBuild [] "/registry/actors" (Except.error "down")
      (Except.ok "[3]") "1ms" "2ms" []).2.1 "down" rfl rfl).2⟩

theorem gmDelete_eq_filter {β : Type} (m : List (String × β)) (k : String) :
    gmDelete m k = m.filter (fun e => decide (e.1 ≠ k)) := by
  induction m with
  | nil => rfl
  | cons e rest ih =>
    obtain ⟨k0, v0⟩ := e
    simp only [gmDelete, List.filter_cons, ih]
    by_cases h : k0 = k
    · simp [h]
    · simp [h]

theorem resolvePushRequest_decode_error {α : Type} (build : Build)
    (cache : List (String × String)) (path payload err : String)
    (fromJson : String → Except String α) (pushRequest : α → Except String String)
    (lap : String) (w : ResponseWriter) (h : fromJson payload = Except.error err) :
    _resolvePushRequest build cache path (Except.ok payload) fromJson pushRequest lap w =
      { response := Response.Wrong build w err, cache := cache, pushed := none } := by
  unfold _resolvePushRequest
  simp only [h]

theorem resolvePushRequest_success {α : Type} (build : Build)
    (cache : List (String × String)) (path : String) (body : Except String String)
    (fromJson : String → Except String α) (pushRequest : α → Except String String)
    (lap : String)
    (h : (_resolvePushRequest build cache path body fromJson pushRequest lap
      ResponseWriter.fresh).response.Status = some 200) :
    (_resolvePushRequest build cache path body fromJson pushRequest lap
      ResponseWriter.fresh).cache = gmDelete cache path := by
  unfold _resolvePushRequest at h ⊢
  cases body with
  | error err =>
    simp only [(wrong_fresh build err).1] at h
    cases h
  | ok payload =>
    dsimp only at h ⊢
    cases hj : fromJson payload with
    | error err =>
      rw [hj] at h
      simp only [(wrong_fresh build err).1] at h
      cases h
    | ok reg =>
      rw [hj] at h
      dsimp only at h ⊢
      cases hp : pushRequest reg with
      | error err =>
        rw [hp] at h
        simp only [(fault_fresh build err).1] at h
        cases h
      | ok out => rfl

/-- C14: a POST to `/registry/actors` or `/registry/labels` answered with 200 deletes the
route-cache entry of its own URL and leaves every other entry as it was; a POST to
`/registry/transactions` leaves the route cache empty whatever its outcome, so that the
next GET of any URL queries the store, never carries `X-Cache: true`, and carries
`X-Cache: false` when the pull succeeds. -/
theorem route_cache_invalidation_scope {α : Type} (build : Build)
    (cache : List (String × String)) (path : String) (body : Except String String)
    (fromJson : String → Except String α) (pushRequest : α → Except String String)
    (lap : String) :
    ((registry.writeJsonActors build cache path body fromJson pushRequest lap
        ResponseWriter.fresh).response.Status = some 200 →
      (registry.writeJsonActors build cache path body fromJson pushRequest lap
          ResponseWriter.fresh).cache = cache.filter (fun e => decide (e.1 ≠ path)) ∧
        gmGet (registry.writeJsonActors build cache path body fromJson pushRequest lap
          ResponseWriter.fresh).cache path = none ∧
        ∀ U : String, U ≠ path →
          gmGet (registry.writeJsonActors build cache path body fromJson pushRequest lap
            ResponseWriter.fresh).cache U = gmGet cache U) ∧
    ((registry.writeJsonLabels build cache path body fromJson pushRequest lap
        ResponseWriter.fresh).response.Status = some 200 →
      (registry.writeJsonLabels build cache path body fromJson pushRequest lap
          ResponseWriter.fresh).cache = cache.filter (fun e => decide (e.1 ≠ path)) ∧
        gmGet (registry.writeJsonLabels build cache path body fromJson pushRequest lap
          ResponseWriter.fresh).cache path = none ∧
        ∀ U : String, U ≠ path →
          gmGet (registry.writeJsonLabels build cache path body fromJson pushRequest lap
            ResponseWriter.fresh).cache U = gmGet cache U) ∧
    (registry.writeJsonTransactions build cache path body fromJson pushRequest lap
      ResponseWriter.fresh).cache = [] ∧
    ∀ (U : String) (pull : Except String String) (lap₂ : String),
      (registry.readJson build
          (registry.writeJsonTransactions build cache path body fromJson pushRequest lap
            ResponseWriter.fresh).cache U pull lap₂ ResponseWriter.fresh).queried = true ∧
        gmGet (registry.readJson build
          (registry.writeJsonTransactions build cache path body fromJson pushRequest lap
            ResponseWriter.fresh).cache U pull lap₂ ResponseWriter.fresh).response.Header
          "X-Cache" ≠ some "true" ∧
        ∀ out : String, pull = Except.ok out →
          gmGet (registry.readJson build
            (registry.writeJsonTransactions build cache path body fromJson pushRequest lap
              ResponseWriter.fresh).cache U pull lap₂ ResponseWriter.fresh).response.Header
            "X-Cache" = some "false" := by
  have key : (_resolvePushRequest build cache path body fromJson pushRequest lap
        ResponseWriter.fresh).response.Status = some 200 →
      (_resolvePushRequest build cache path body fromJson pushRequest lap
          ResponseWriter.fresh).cache = cache.filter (fun e => decide (e.1 ≠ path)) ∧
        gmGet (_resolvePushRequest build cache path body fromJson pushRequest lap
          ResponseWriter.fresh).cache path = none ∧
        ∀ U : String, U ≠ path →
          gmGet (_resolvePushRequest build cache path body fromJson pushRequest lap
            ResponseWriter.fresh).cache U = gmGet cache U := by
    intro hs
    have hc := resolvePushRequest_success build cache path body fromJson pushRequest lap hs
    refine ⟨hc.trans (gmDelete_eq_filter cache path), ?_, ?_⟩
    · rw [hc, gmGet_gmDelete]
      simp
    · intro U hU
      rw [hc, gmGet_gmDelete, if_neg (fun h => hU h.symm)]
  refine ⟨key, key, rfl, ?_⟩
  intro U pull lap₂
  have hnil : (registry.writeJsonTransactions build cache path body fromJson pushRequest lap
      ResponseWriter.fresh).cache = [] := rfl
  rw [hnil]
  cases pull with
  | error err =>
    rw [readJson_miss_error build [] U lap₂ err rfl]
    refine ⟨rfl, ?_, ?_⟩
    · rw [(fault_fresh build err).2.2]
      simp
    · intro out h
      cases h
  | ok out =>
    rw [readJson_miss_ok build [] U lap₂ out rfl]
    have h := (okay_fresh build out lap₂ false).2.2.1
    refine ⟨rfl, ?_, ?_⟩
    · rw [h]
      simp
    · intro out2 _
      simpa using h

/-- C14 (witness): with both read routes cached, a successful POST to `/registry/actors`
drops the actors entry only and a POST to `/registry/transactions` drops both. -/
theorem route_cache_invalidation_scope_witness :
    (registry.writeJsonActors testBuild
        [("/registry/actors", "[1]"), ("/registry/labels", "[2]")] "/registry/actors"
        (Except.ok "[]") (fun s => (Except.ok s : Except String String))
        (fun _ => Except.ok "ok") "1ms" ResponseWriter.fresh).cache
        = [("/registry/labels", "[2]")] ∧
      (registry.writeJsonLabels testBuild
        [("/registry/actors", "[1]"), ("/registry/labels", "[2]")] "/registry/labels"
        (Except.ok "[]") (fun s => (Except.ok s : Except String String))
        (fun _ => Except.ok "ok") "1ms" ResponseWriter.fresh).cache
        = [("/registry/actors", "[1]")] ∧
      (registry.writeJsonTransactions testBuild
        [("/registry/actors", "[1]"), ("/registry/labels", "[2]")] "/registry/transactions"
        (Except.ok "[]") (fun s => (Except.ok s : Except String String))
        (fun _ => Except.ok "ok") "1ms" ResponseWriter.fresh).cache = [] :=
  ⟨(((route_cache_invalidation_scope testBuild
      [("/registry/actors", "[1]"), ("/registry/labels", "[2]")] "/registry/actors"
      (Except.ok "[]") (fun s => (Except.ok s : Except String String))
      (fun _ => Except.ok "ok") "1ms").1 (by decide)).1).trans (by decide),
    (((route_cache_invalidation_scope testBuild
      [("/registry/actors", "[1]"), ("/registry/labels", "[2]")] "/registry/labels"
      (Except.ok "[]") (fun s => (Except.ok s : Except String String))
      (fun _ => Except.ok "ok") "1ms").2.1 (by decide)).1).trans (by decide),
    (route_cache_invalidation_scope testBuild
      [("/registry/actors", "[1]"), ("/registry/labels", "[2]")] "/registry/transactions"
      (Except.ok "[]") (fun s => (Except.ok s : Except String String))
      (fun _ => Except.ok "ok") "1ms").2.2.1⟩

/-- C15 (counterexample): with `/registry/actors` cached, a POST to
`/registry/transactions` whose body fails to decode is answered with 400 and pushes
nothing, yet the route cache is not what it was before the request: it is empty. -/
theorem decode_failure_cache_counterexample :
    (registry.writeJsonTransactions testBuild [("/registry/actors", "[]")]
        "/registry/transactions" (Except.ok "\x7b\"key\":\"trx amount\"\x7d")
        (fun _ => (Except.error "json: cannot unmarshal object" : Except String Unit))
        (fun _ => Except.ok "ok") "1ms" ResponseWriter.fresh).response.Status = some 400 ∧
      (registry.writeJsonTransactions testBuild [("/registry/actors", "[]")]
        "/registry/transactions" (Except.ok "\x7b\"key\":\"trx amount\"\x7d")
        (fun _ => (Except.error "json: cannot unmarshal object" : Except String Unit))
        (fun _ => Except.ok "ok") "1ms" ResponseWriter.fresh).pushed = none ∧
      (registry.writeJsonTransactions testBuild [("/registry/actors", "[]")]
        "/registry/transactions" (Except.ok "\x7b\"key\":\"trx amount\"\x7d")
        (fun _ => (Except.error "json: cannot unmarshal object" : Except String Unit))
        (fun _ => Except.ok "ok") "1ms" ResponseWriter.fresh).cache
        ≠ [("/registry/actors", "[]")] := by
  decide

/-- C15 (amended): for every registry POST whose body fails to decode, the response is 400
with the message of the decoder and nothing is pushed to the store; the route cache is
left exactly as it was by the actors and labels routes and is emptied by the transactions
route. -/
theorem decode_failure_no_push {α : Type} (build : Build) (cache : List (String × String))
    (path payload err : String) (fromJson : String → Except String α)
    (pushRequest : α → Except String String) (lap : String)
    (hdecode : fromJson payload = Except.error err) :
    ((registry.writeJsonActors build cache path (Except.ok payload) fromJson pushRequest lap
          ResponseWriter.fresh).response.Status = some 400 ∧
        (registry.writeJsonActors build cache path (Except.ok payload) fromJson pushRequest lap
          ResponseWriter.fresh).response.Body = err ∧
        (registry.writeJsonActors build cache path (Except.ok payload) fromJson pushRequest lap
          ResponseWriter.fresh).pushed = none ∧
        (registry.writeJsonActors build cache path (Except.ok payload) fromJson pushRequest lap
          ResponseWriter.fresh).cache = cache) ∧
    ((registry.writeJsonLabels build cache path (Except.ok payload) fromJson pushRequest lap
          ResponseWriter.fresh).response.Status = some 400 ∧
        (registry.writeJsonLabels build cache path (Except.ok payload) fromJson pushRequest lap
          ResponseWriter.fresh).response.Body = err ∧
        (registry.writeJsonLabels build cache path (Except.ok payload) fromJson pushRequest lap
          ResponseWriter.fresh).pushed = none ∧
        (registry.writeJsonLabels build cache path (Except.ok payload) fromJson pushRequest lap
          ResponseWriter.fresh).cache = cache) ∧
    ((registry.writeJsonTransactions build cache path (Except.ok payload) fromJson pushRequest
          lap ResponseWriter.fresh).response.Status = some 400 ∧
        (registry.writeJsonTransactions build cache path (Except.ok payload) fromJson
          pushRequest lap ResponseWriter.fresh).response.Body = err ∧
        (registry.writeJsonTransactions build cache path (Except.ok payload) fromJson
          pushRequest lap ResponseWriter.fresh).pushed = none ∧
        (registry.writeJsonTransactions build cache path (Except.ok payload) fromJson
          pushRequest lap ResponseWriter.fresh).cache = []) := by
  have h := resolvePushRequest_decode_error build cache path payload err fromJson pushRequest
    lap ResponseWriter.fresh hdecode
  have hw := wrong_fresh build err
  unfold registry.writeJsonActors registry.writeJsonLabels registry.writeJsonTransactions
  rw [h]
  exact ⟨⟨hw.1, hw.2, rfl, rfl⟩, ⟨hw.1, hw.2, rfl, rfl⟩, ⟨hw.1, hw.2, rfl, rfl⟩⟩

/-- C15 (witness): the payload of `TestWriteWrongJsonTransactions` posted to
`/registry/actors` with that route cached. -/
theorem decode_failure_no_push_witness :
    (registry.writeJsonActors testBuild [("/registry/actors", "[]")] "/registry/actors"
        (Except.ok "\x7b\"key\":\"trx amount\"\x7d")
        (fun _ => (Except.error "json: cannot unmarshal object" : Except String Unit))
        (fun _ => Except.ok "ok") "1ms" ResponseWriter.fresh).cache
        = [("/registry/actors", "[]")] ∧
      (registry.writeJsonTransactions testBuild [("/registry/actors", "[]")]
        "/registry/actors" (Except.ok "\x7b\"key\":\"trx amount\"\x7d")
        (fun _ => (Except.error "json: cannot unmarshal object" : Except String Unit))
        (fun _ => Except.ok "ok") "1ms" ResponseWriter.fresh).response.Body
        = "json: cannot unmarshal object" :=
  ⟨(decode_failure_no_push testBuild [("/registry/actors", "[]")] "/registry/actors"
      "\x7b\"key\":\"trx amount\"\x7d" "json: cannot unmarshal object"
      (fun _ => (Except.error "json: cannot unmarshal object" : Except String Unit))
      (fun _ => Except.ok "ok") "1ms" rfl).1.2.2.2,
    (decode_failure_no_push testBuild [("/registry/actors", "[]")] "/registry/actors"
      "\x7b\"key\":\"trx amount\"\x7d" "json: cannot unmarshal object"
      (fun _ => (Except.error "json: cannot unmarshal object" : Except String Unit))
      (fun _ => Except.ok "ok") "1ms" rfl).2.2.2.1⟩

/-! ## Download -/

theorem digitChar_isDigit (m : Nat) (h : m < 10) : (Nat.digitChar m).isDigit = true := by
  interval_cases m <;> decide

theorem toDigitsCore_isDigit (fuel : Nat) :
    ∀ (n : Nat) (acc : List Char), (∀ c ∈ acc, c.isDigit = true) →
      ∀ c ∈ Nat.toDigitsCore 10 fuel n acc, c.isDigit = true := by
  induction fuel with
  | zero => intro n acc h; simpa [Nat.toDigitsCore] using h
  | succ fuel ih =>
    intro n acc h
    have hd : ∀ c ∈ Nat.digitChar (n % 10) :: acc, c.isDigit = true := by
      intro c hc
      rcases List.mem_cons.1 hc with rfl | hc
      · exact digitChar_isDigit _ (Nat.mod_lt _ (by decide))
      · exact h c hc
    simp only [Nat.toDigitsCore]
    split
    · exact hd
    · exact ih _ _ hd

theorem natRepr_isDigit (n : Nat) : ∀ c ∈ (Nat.repr n).data, c.isDigit = true := by
  simp only [Nat.repr, Nat.toDigits, List.asString]
  exact toDigitsCore_isDigit _ _ _ (by simp)

theorem formatInt_plain (n : Int) :
    ∀ c ∈ (formatInt n).data, c.isDigit = true ∨ c = '-' := by
  intro c hc
  cases n with
  | ofNat m =>
    left
    exact natRepr_isDigit m c hc
  | negSucc m =>
    have hc2 : c ∈ ("-" ++ Nat.repr (m + 1)).data := hc
    rw [String.data_append] at hc2
    rcases List.mem_append.1 hc2 with h | h
    · right
      simpa using h
    · left
      exact natRepr_isDigit _ c h

theorem fieldNeedsQuotes_plain (field : String)
    (h : ∀ c ∈ field.data, c.isDigit = true ∨ c = '-') : fieldNeedsQuotes field = false := by
  have hp : ∀ c : Char, (c.isDigit = true ∨ c = '-') →
      c ≠ ',' ∧ c ≠ '"' ∧ c ≠ '\r' ∧ c ≠ '\n' ∧ c ≠ '\\' ∧ isSpace c = false := by
    intro c hc
    have hr : (48 ≤ c.toNat ∧ c.toNat ≤ 57) ∨ c.toNat = 45 := by
      rcases hc with hc | hc
      · left
        simpa [Char.isDigit, Char.toNat, UInt32.le_def, Nat.le_antisymm_iff] using hc
      · right
        subst hc
        decide
    refine ⟨?_, ?_, ?_, ?_, ?_, ?_⟩
    · rintro rfl; revert hr; decide
    · rintro rfl; revert hr; decide
    · rintro rfl; revert hr; decide
    · rintro rfl; revert hr; decide
    · rintro rfl; revert hr; decide
    · simp only [isSpace]
      generalize c.toNat = n at hr
      rcases hr with hr | hr
      · simp only [Bool.or_eq_false_iff, Bool.and_eq_false_iff, decide_eq_false_iff_not]
        omega
      · subst hr
        decide
  unfold fieldNeedsQuotes
  cases hd : field.data with
  | nil => rfl
  | cons first rest =>
    have hall : ∀ c ∈ first :: rest, c.isDigit = true ∨ c = '-' := by
      rw [← hd]; exact h
    have h1 : (field = "\\.") = False := by
      apply eq_false
      intro he
      rw [he] at hd
      have : first = '\\' := by
        have := congrArg List.head? hd
        simpa using this.symm
      exact (hp first (hall first (List.mem_cons_self _ _))).2.2.2.2.1 this
    have h2 : ((first :: rest).any
        (fun c => decide (c = ',') || decide (c = '"') || decide (c = '\r') ||
          decide (c = '\n'))) = false := by
      rw [List.any_eq_false]
      intro c hc
      have := hp c (hall c hc)
      simp [this.1, this.2.1, this.2.2.1, this.2.2.2.1]
    have h3 := (hp first (hall first (List.mem_cons_self _ _))).2.2.2.2.2
    simp only [h1, h2, h3, decide_False, Bool.or_self]

theorem csvField_formatInt (n : Int) : csvField (formatInt n) = formatInt n := by
  unfold csvField
  rw [fieldNeedsQuotes_plain _ (formatInt_plain n)]
  rfl

theorem foldl_append_eq_join (rows : List String) :
    ∀ init : String, rows.foldl (fun buf row => buf ++ row) init = init ++ String.join rows := by
  induction rows with
  | nil => intro init; simp [String.join]
  | cons row rest ih =>
    intro init
    rw [List.foldl_cons, ih]
    have : String.join (row :: rest) = row ++ String.join rest := by
      simp only [String.join, List.foldl_cons]
      have hgen : ∀ (l : List String) (a b : String),
          l.foldl (fun r s => r ++ s) (a ++ b) = a ++ l.foldl (fun r s => r ++ s) b := by
        intro l
        induction l with
        | nil => intro a b; rfl
        | cons x xs ihx => intro a b; simp only [List.foldl_cons, String.append_assoc, ihx]
      have := hgen rest row ""
      simpa using this
    rw [this, String.append_assoc]

/-- C18: for a signature with a cache entry, the body written by `journal.download` is the
concatenation, in the order of the cached records, of one row per record, and each row is
the CSV encoding of sender, receiver and label, the decimal digits of the unix seconds of
the date and of the signed amount, and the parent, separated by commas and ended by a line
break; for a signature without a cache entry the body is empty. -/
theorem download_rows (build : Build) (memory : List (String × results))
    (signature lap : String) :
    (∀ rs : results, gmGet memory signature = some rs →
      (journal.download build memory signature lap ResponseWriter.fresh).Status = some 200 ∧
      (journal.download build memory signature lap ResponseWriter.fresh).Body
        = String.join (rs.records.map (fun r => csvWrite r.ToSlice)) ∧
      (rs.records.map (fun r => csvWrite r.ToSlice)).length = rs.records.length ∧
      ∀ r ∈ rs.records,
        r.ToSlice = [r.Sender, r.Receiver, r.Label, toString r.Date.Unix, toString r.Amount,
          r.Parent] ∧
        csvWrite r.ToSlice
          = csvField r.Sender ++ "," ++ csvField r.Receiver ++ "," ++ csvField r.Label ++ ","
            ++ toString r.Date.Unix ++ "," ++ toString r.Amount ++ "," ++ csvField r.Parent
            ++ "\n") ∧
    (gmGet memory signature = none →
      (journal.download build memory signature lap ResponseWriter.fresh).Status = some 200 ∧
      (journal.download build memory signature lap ResponseWriter.fresh).Body = "") := by
  refine ⟨?_, ?_⟩
  · intro rs hrs
    unfold journal.download
    simp only [hrs]
    refine ⟨(okayStream_fresh build _ lap true).1, ?_, by simp, ?_⟩
    · rw [(okayStream_fresh build _ lap true).2.1]
      have h := foldl_append_eq_join (rs.records.map (fun r => csvWrite r.ToSlice)) ""
      rw [List.foldl_map] at h
      simpa using h
    · intro r _
      refine ⟨rfl, ?_⟩
      have h1 := csvField_formatInt r.Date.Unix
      have h2 := csvField_formatInt r.Amount
      simp only [formatInt] at h1 h2
      simp only [csvWrite, record.ToSlice, csvFields, formatInt, h1, h2]
      simp [String.append_assoc]
  · intro hnone
    unfold journal.download
    simp only [hnone]
    exact ⟨(okayStream_fresh build _ lap true).1, (okayStream_fresh build _ lap true).2.1⟩

/-- C18 (witness): the download of the records of `TestStreamSignedTransactionRecords`
(parents left empty) and of a signature that was never evaluated. -/
theorem download_rows_witness :
    (journal.download testBuild
        [("test-signature", { records := signatureFixture, patterns := [] })]
        "test-signature" "1ms" ResponseWriter.fresh).Body
        = "actor.#6-xxxx-xxxx-xxxx-xxxxxxxxxxxx,actor.#1-xxxx-xxxx-xxxx-xxxxxxxxxxxx,Label #3,1581724800,1240000,\n"
          ++ "Actor #1,Actor #2,Label #1.2,1580947200,-930,\n"
          ++ "Actor #1,Actor #5,Label #1.1,1580947200,-1500,\n"
          ++ "Actor #1,Actor #2,Label #1.1,1580860800,-3822,\n"
          ++ "Actor #1,Actor #2,Label #1.2,1580860800,-2410,\n" ∧
      (journal.download testBuild
        [("test-signature", { records := signatureFixture, patterns := [] })]
        "other" "1ms" ResponseWriter.fresh).Body = "" :=
  ⟨(((download_rows testBuild
      [("test-signature", { records := signatureFixture, patterns := [] })]
      "test-signature" "1ms").1 { records := signatureFixture, patterns := [] } rfl).2.1).trans
      (by decide),
    ((download_rows testBuild
      [("test-signature", { records := signatureFixture, patterns := [] })]
      "other" "1ms").2 rfl).2⟩

/-! ## Restore -/

theorem fromZip_locked (env : RestoreEnv) (fs : FileSystem) (u : uploader) (zfp : String)
    (files : List ZipFile) (lock : Except String (List ZipFile))
    (harchive : gmGet fs zfp = some (Except.ok files))
    (hlock : gmGet fs (lockPath env zfp) = some lock) :
    uploader.FromZip env fs u zfp = (fs, Except.ok (u, none)) := by
  unfold uploader.FromZip uploader.LockZip
  simp only [harchive, hlock]

theorem fromZip_unlocked (env : RestoreEnv) (fs : FileSystem) (u : uploader) (zfp : String)
    (files : List ZipFile)
    (harchive : gmGet fs zfp = some (Except.ok files))
    (hlock : gmGet fs (lockPath env zfp) = none) :
    uploader.FromZip env fs u zfp =
      (gmSet fs (lockPath env zfp) emptyFile, fromZipLoop env files u none) := by
  unfold uploader.FromZip uploader.LockZip
  simp only [harchive, hlock]

theorem commit_empty_pushes {σ : Type} (push : σ → PushCall → Except String σ) (db : σ) :
    ∀ call ∈ (uploader.Commit push db
        { Transactions := [], Actors := [], Labels := [] }).pushes,
      call = PushCall.actors [] ∨ call = PushCall.labels [] ∨
        call = PushCall.transactions [] := by
  unfold uploader.Commit mustPush
  dsimp only
  cases push db (PushCall.actors []) with
  | error e => simp
  | ok s1 =>
    dsimp only
    cases push s1 (PushCall.labels []) with
    | error e => simp
    | ok s2 =>
      dsimp only
      cases push s2 (PushCall.transactions []) with
      | error e => simp
      | ok s3 => simp

theorem commit_first_push {σ : Type} (push : σ → PushCall → Except String σ) (db : σ)
    (u : uploader) :
    (uploader.Commit push db u).pushes.head? = some (PushCall.actors u.Actors) := by
  unfold uploader.Commit mustPush
  dsimp only
  cases push db (PushCall.actors u.Actors) with
  | error e => simp
  | ok s1 =>
    dsimp only
    cases push s1 (PushCall.labels u.Labels) with
    | error e => simp
    | ok s2 =>
      dsimp only
      cases push s2 (PushCall.transactions u.Transactions) with
      | error e => simp
      | ok s3 => simp

theorem commit_empty_noop {σ : Type} (push : σ → PushCall → Except String σ) (db : σ)
    (h : ∀ s : σ, push s (PushCall.actors []) = Except.ok s ∧
      push s (PushCall.labels []) = Except.ok s ∧
      push s (PushCall.transactions []) = Except.ok s) :
    (uploader.Commit push db { Transactions := [], Actors := [], Labels := [] }).store = db ∧
    (uploader.Commit push db { Transactions := [], Actors := [], Labels := [] }).panic
      = none := by
  unfold uploader.Commit mustPush
  simp [(h db).1, (h db).2.1, (h db).2.2]

/-- C16 (counterexample): on the archive `examples/reg.zip`, against a store that logs the
calls of `Push`, the second `restore` makes no error and decodes nothing, yet it is not a
no-op: it calls `Push` three more times, so that six pushes reach the store. -/
theorem restore_twice_counterexample :
    (restore testRestoreEnv logPush [] testFileSystem "examples/reg.zip").2.pushes.length
        = 3 ∧
      (restore testRestoreEnv logPush
        (restore testRestoreEnv logPush [] testFileSystem "examples/reg.zip").2.store
        (restore testRestoreEnv logPush [] testFileSystem "examples/reg.zip").1
        "examples/reg.zip").2.pushes
        = [PushCall.actors [], PushCall.labels [], PushCall.transactions []] ∧
      (restore testRestoreEnv logPush
        (restore testRestoreEnv logPush [] testFileSystem "examples/reg.zip").2.store
        (restore testRestoreEnv logPush [] testFileSystem "examples/reg.zip").1
        "examples/reg.zip").2.store
        ≠ (restore testRestoreEnv logPush [] testFileSystem "examples/reg.zip").2.store ∧
      (restore testRestoreEnv logPush
        (restore testRestoreEnv logPush [] testFileSystem "examples/reg.zip").2.store
        (restore testRestoreEnv logPush [] testFileSystem "examples/reg.zip").1
        "examples/reg.zip").2.store.length = 6 := by
  decide

/-- C16 (amended): when the archive exists, decodes without error to `u`, and has no lock
yet, the first `restore` writes the lock and commits `u`; the second `restore` with the
same path finds the lock, so `FromZip` decodes nothing, returns no error and leaves the
file system as it is, and `Commit` pushes nothing but empty registries, which leaves the
store unchanged whenever pushing an empty registry does. -/
theorem restore_twice_pushes_archive_once {σ : Type} (env : RestoreEnv)
    (push : σ → PushCall → Except String σ) (db : σ) (fs : FileSystem) (zipfile : String)
    (files : List ZipFile) (u : uploader)
    (harchive : gmGet fs zipfile = some (Except.ok files))
    (hlock : gmGet fs (lockPath env zipfile) = none)
    (hpath : lockPath env zipfile ≠ zipfile)
    (hdecode : fromZipLoop env files { Transactions := [], Actors := [], Labels := [] } none
      = Except.ok (u, none)) :
    restore env push db fs zipfile
        = (gmSet fs (lockPath env zipfile) emptyFile, uploader.Commit push db u) ∧
      uploader.FromZip env (restore env push db fs zipfile).1
          { Transactions := [], Actors := [], Labels := [] } zipfile
        = ((restore env push db fs zipfile).1,
            Except.ok ({ Transactions := [], Actors := [], Labels := [] }, none)) ∧
      restore env push (restore env push db fs zipfile).2.store
          (restore env push db fs zipfile).1 zipfile
        = ((restore env push db fs zipfile).1,
            uploader.Commit push (restore env push db fs zipfile).2.store
              { Transactions := [], Actors := [], Labels := [] }) ∧
      (∀ call ∈ (restore env push (restore env push db fs zipfile).2.store
          (restore env push db fs zipfile).1 zipfile).2.pushes,
        call = PushCall.actors [] ∨ call = PushCall.labels [] ∨
          call = PushCall.transactions []) ∧
      ((∀ s : σ, push s (PushCall.actors []) = Except.ok s ∧
          push s (PushCall.labels []) = Except.ok s ∧
          push s (PushCall.transactions []) = Except.ok s) →
        (restore env push (restore env push db fs zipfile).2.store
            (restore env push db fs zipfile).1 zipfile).2.store
          = (restore env push db fs zipfile).2.store ∧
        (restore env push (restore env push db fs zipfile).2.store
            (restore env push db fs zipfile).1 zipfile).2.panic = none) := by
  have h1 : restore env push db fs zipfile
      = (gmSet fs (lockPath env zipfile) emptyFile, uploader.Commit push db u) := by
    unfold restore
    rw [fromZip_unlocked env fs _ zipfile files harchive hlock, hdecode]
  have ha : gmGet (gmSet fs (lockPath env zipfile) emptyFile) zipfile
      = some (Except.ok files) := by
    rw [gmGet_gmSet, if_neg hpath]
    exact harchive
  have hl : gmGet (gmSet fs (lockPath env zipfile) emptyFile) (lockPath env zipfile)
      = some emptyFile := by
    rw [gmGet_gmSet, if_pos rfl]
  have h2 := fromZip_locked env (gmSet fs (lockPath env zipfile) emptyFile)
    { Transactions := [], Actors := [], Labels := [] } zipfile files emptyFile ha hl
  have h3 : ∀ db2 : σ, restore env push db2 (gmSet fs (lockPath env zipfile) emptyFile) zipfile
      = (gmSet fs (lockPath env zipfile) emptyFile,
          uploader.Commit push db2 { Transactions := [], Actors := [], Labels := [] }) := by
    intro db2
    unfold restore
    rw [h2]
  rw [h1]
  refine ⟨rfl, h2, h3 _, ?_, ?_⟩
  · rw [h3]
    exact commit_empty_pushes push _
  · intro hp
    rw [h3]
    exact commit_empty_noop push _ hp

/-- C16 (witness): the archive `examples/reg.zip` restored twice into a store that ignores
every push. -/
theorem restore_twice_pushes_archive_once_witness :
    (restore testRestoreEnv (fun (s : Unit) _ => Except.ok s) () testFileSystem
        "examples/reg.zip").2.pushes
        = [PushCall.actors [{ Name := "Actor #1" }],
            PushCall.labels [{ Name := "Label #1.1", ParentName := none }],
            PushCall.transactions [similarTransaction]] ∧
      (restore testRestoreEnv (fun (s : Unit) _ => Except.ok s) ()
        (restore testRestoreEnv (fun (s : Unit) _ => Except.ok s) () testFileSystem
          "examples/reg.zip").1 "examples/reg.zip").2.panic = none :=
  ⟨(congrArg (fun r => r.2.pushes)
      (restore_twice_pushes_archive_once testRestoreEnv (fun (s : Unit) _ => Except.ok s) ()
        testFileSystem "examples/reg.zip" _
        { Transactions := [similarTransaction], Actors := [{ Name := "Actor #1" }],
          Labels := [{ Name := "Label #1.1", ParentName := none }] }
        rfl rfl (by decide) rfl).1).trans (by decide),
    ((restore_twice_pushes_archive_once testRestoreEnv (fun (s : Unit) _ => Except.ok s) ()
        testFileSystem "examples/reg.zip" _
        { Transactions := [similarTransaction], Actors := [{ Name := "Actor #1" }],
          Labels := [{ Name := "Label #1.1", ParentName := none }] }
        rfl rfl (by decide) rfl).2.2.2.2 (fun _ => ⟨rfl, rfl, rfl⟩)).2⟩

/-- C17 (the code at the failing inputs): for a missing archive and for a file that is not
a ZIP archive, `FromZip` returns an error, yet `restore` goes on to `Commit` the empty
uploader, whose first act is a push of the empty actors; against a store that accepts
every push, `restore` then ends without panic after three pushes, and an archive whose
labels fail to decode still has its actors pushed. -/
theorem restore_ignores_fromZip_error {σ : Type} (env : RestoreEnv)
    (push : σ → PushCall → Except String σ) (db : σ) (zipfile err : String) :
    ((uploader.FromZip env [] { Transactions := [], Actors := [], Labels := [] } zipfile).2
        = Except.ok ({ Transactions := [], Actors := [], Labels := [] },
            some ("open " ++ zipfile ++ ": no such file or directory")) ∧
      (restore env push db [] zipfile).2
        = uploader.Commit push db { Transactions := [], Actors := [], Labels := [] }) ∧
    ((uploader.FromZip env [(zipfile, Except.error err)]
          { Transactions := [], Actors := [], Labels := [] } zipfile).2
        = Except.ok ({ Transactions := [], Actors := [], Labels := [] }, some err) ∧
      (restore env push db [(zipfile, Except.error err)] zipfile).2
        = uploader.Commit push db { Transactions := [], Actors := [], Labels := [] }) ∧
    (uploader.Commit push db { Transactions := [], Actors := [], Labels := [] }).pushes.head?
      = some (PushCall.actors []) ∧
    ((restore testRestoreEnv logPush [] [] "examples/reg.zip").2.panic = none ∧
      (restore testRestoreEnv logPush [] [] "examples/reg.zip").2.store
        = [PushCall.actors [], PushCall.labels [], PushCall.transactions []]) ∧
    ((uploader.FromZip testRestoreEnv brokenFileSystem
          { Transactions := [], Actors := [], Labels := [] } "examples/reg.zip").2
        = Except.ok ({ Transactions := [], Actors := [{ Name := "Actor #1" }], Labels := [] },
            some "json: cannot unmarshal object into Go value") ∧
      (restore testRestoreEnv logPush [] brokenFileSystem "examples/reg.zip").2.panic
        = none ∧
      (restore testRestoreEnv logPush [] brokenFileSystem "examples/reg.zip").2.store
        = [PushCall.actors [{ Name := "Actor #1" }], PushCall.labels [],
            PushCall.transactions []]) := by
  refine ⟨⟨rfl, rfl⟩, ⟨?_, ?_⟩, commit_first_push push db _, ⟨by decide, by decide⟩,
    ⟨rfl, by decide, by decide⟩⟩
  · simp [uploader.FromZip, gmGet]
  · simp [restore, uploader.FromZip, gmGet]

/-! ## Analyze -/

theorem collect_some_of_forall {α β : Type} (f : α → Option β) (l : List α)
    (h : ∀ x ∈ l, ∃ y, f x = some y) :
    ∃ ys : List β, collect (l.map f) = some ys ∧ ys.length = l.length := by
  induction l with
  | nil => exact ⟨[], rfl, rfl⟩
  | cons x rest ih =>
    obtain ⟨y, hy⟩ := h x (List.mem_cons_self _ _)
    obtain ⟨ys, hys, hlen⟩ := ih (fun z hz => h z (List.mem_cons_of_mem _ hz))
    refine ⟨y :: ys, ?_, by simp [hlen]⟩
    simp [collect, hy, hys]

theorem calcAmountsMedian_some (L : List Int) (hne : L ≠ []) :
    ∃ m, calcAmountsMedian L = some m := by
  have hlen : 0 < L.length := List.length_pos.mpr hne
  unfold calcAmountsMedian
  by_cases hodd : L.length % 2 = 1
  · rw [if_pos hodd]
    have h : L.length / 2 < L.length := by omega
    exact ⟨_, List.getElem?_eq_getElem h⟩
  · rw [if_neg hodd]
    have hn : ¬ L.length / 2 = 0 := by omega
    have h0 : L.length / 2 - 1 < L.length := by omega
    have h1 : L.length / 2 < L.length := by omega
    simp only [hn, if_false, List.getElem?_eq_getElem h0, List.getElem?_eq_getElem h1]
    exact ⟨_, rfl⟩

theorem calcDeviationMedian_some (D : List F64) (hne : D ≠ []) :
    ∃ m, calcDeviationMedian D = some m := by
  have hlen : 0 < D.length := List.length_pos.mpr hne
  unfold calcDeviationMedian
  by_cases hodd : D.length % 2 = 1
  · rw [if_pos hodd]
    have h : D.length / 2 < D.length := by omega
    exact ⟨_, List.getElem?_eq_getElem h⟩
  · rw [if_neg hodd]
    have hn : ¬ D.length / 2 = 0 := by omega
    have h0 : D.length / 2 - 1 < D.length := by omega
    have h1 : D.length / 2 < D.length := by omega
    simp only [hn, if_false, List.getElem?_eq_getElem h0, List.getElem?_eq_getElem h1]
    exact ⟨_, rfl⟩

theorem isBetweenAmountDeviation_some (amounts : List Int) (value : Int)
    (hne : amounts ≠ []) : ∃ hit, _isBetweenAmountDeviation amounts value = some hit := by
  have hlen : 0 < amounts.length := List.length_pos.mpr hne
  have hl : ((amounts ++ [value]).insertionSort (· ≤ ·)).length = amounts.length + 1 := by
    rw [List.length_insertionSort, List.length_append, List.length_singleton]
  generalize hL : (amounts ++ [value]).insertionSort (· ≤ ·) = L at hl
  have hLne : L ≠ [] := by
    intro h
    rw [h] at hl
    simp at hl
  obtain ⟨D, hD, hDlen⟩ := collect_some_of_forall (deviationAt L) (List.range (L.length - 1))
    (by
      intro i hi
      have hi2 : i < L.length - 1 := List.mem_range.1 hi
      have h0 : i < L.length := by omega
      have h1 : i + 1 < L.length := by omega
      simp only [deviationAt, List.getElem?_eq_getElem h0, List.getElem?_eq_getElem h1]
      exact ⟨_, rfl⟩)
  have hDne : D ≠ [] := by
    intro h
    rw [h, List.length_range] at hDlen
    simp at hDlen
    omega
  obtain ⟨m, hm⟩ := calcAmountsMedian_some L hLne
  obtain ⟨d, hd⟩ := calcDeviationMedian_some D hDne
  unfold _isBetweenAmountDeviation
  simp only [hL, hD, hm, hd]
  exact ⟨_, rfl⟩

theorem featurePoints_some (f : feature) (r : record) :
    ∃ p, featurePoints f r = some p := by
  unfold featurePoints
  by_cases h0 : f.Amounts.length = 0
  · exact ⟨none, by rw [if_pos h0]⟩
  · rw [if_neg h0]
    split
    · exact ⟨none, rfl⟩
    · have hne : f.Amounts ≠ [] := by
        intro h
        rw [h] at h0
        exact h0 rfl
      by_cases h1 : f.Amounts.length > 1
      · obtain ⟨hit, hhit⟩ := isBetweenAmountDeviation_some f.Amounts (absValue r.Amount) hne
        simp only [h1, if_true, hhit]
        split_ifs <;> exact ⟨_, rfl⟩
      · have hpos : 0 < f.Amounts.length := List.length_pos.mpr hne
        simp only [h1, if_false, List.getElem?_eq_getElem hpos]
        split_ifs <;> exact ⟨_, rfl⟩

theorem scoreLoop_some (r : record) (features : List feature) :
    ∀ score, ∃ s, scoreLoop r features score = some s := by
  induction features with
  | nil => intro score; exact ⟨score, rfl⟩
  | cons f rest ih =>
    intro score
    obtain ⟨p, hp⟩ := featurePoints_some f r
    simp only [scoreLoop, hp]
    cases p with
    | none => exact ih score
    | some points => exact ih _

theorem similarityLoop_some (r : record) (reg : List Transaction)
    (huuid : ∀ t ∈ reg, t.UUID ≠ none) :
    ∀ sims, ∃ s, similarityLoop r reg sims = some s := by
  induction reg with
  | nil => intro sims; exact ⟨sims, rfl⟩
  | cons t rest ih =>
    intro sims
    have ih2 := ih (fun x hx => huuid x (List.mem_cons_of_mem _ hx))
    simp only [similarityLoop]
    split
    · cases hu : t.UUID with
      | none => exact absurd hu (huuid t (List.mem_cons_self _ _))
      | some uuid =>
        obtain ⟨mirror, hm⟩ := fromTransaction_of_uuid t uuid hu
        rw [hm]
        exact ih2 _
    · exact ih2 sims

theorem researchStep_some (memory : List (String × results)) (reg : List Transaction)
    (signature : String) (r : record) (huuid : ∀ t ∈ reg, t.UUID ≠ none) :
    ∃ st, researchStep memory reg signature r = some st ∧ st.torecord = r := by
  obtain ⟨sims, hs⟩ := similarityLoop_some r reg huuid []
  unfold researchStep
  simp only [hs]
  cases gmGet memory signature with
  | none => exact ⟨_, rfl, rfl⟩
  | some rs =>
    dsimp only
    cases gmGet rs.patterns r.Party with
    | none => exact ⟨_, rfl, rfl⟩
    | some features =>
      obtain ⟨score, hsc⟩ := scoreLoop_some r features []
      simp only [hsc]
      exact ⟨_, rfl, rfl⟩

theorem researchLoop_some (memory : List (String × results)) (reg : List Transaction)
    (signature : String) (huuid : ∀ t ∈ reg, t.UUID ≠ none) (records : List record) :
    ∀ statements : List statement,
      ∃ sts, researchLoop memory reg signature records statements = some (statements ++ sts) ∧
        sts.map (fun st => st.torecord) = records := by
  induction records with
  | nil => intro statements; exact ⟨[], by simp [researchLoop], rfl⟩
  | cons r rest ih =>
    intro statements
    obtain ⟨st, hst, hrec⟩ := researchStep_some memory reg signature r huuid
    obtain ⟨sts, hsts, hmap⟩ := ih (statements ++ [st])
    refine ⟨st :: sts, ?_, ?_⟩
    · simp only [researchLoop, hst, hsts]
      simp
    · simp [hrec, hmap]

theorem research_some (memory : List (String × results)) (reg : List Transaction)
    (signature : String) (huuid : ∀ t ∈ reg, t.UUID ≠ none) (records : List record) :
    ∃ sts, _research memory reg records signature = some sts ∧
      sts.map (fun st => st.torecord) = records := by
  obtain ⟨sts, h, hmap⟩ := researchLoop_some memory reg signature huuid records []
  exact ⟨sts, by simpa [_research] using h, hmap⟩

theorem after_iff (t u : Time) :
    t.After u = true ↔ (u.sec < t.sec ∨ (t.sec = u.sec ∧ u.nsec < t.nsec)) := by
  unfold Time.After
  simp only [Bool.or_eq_true, Bool.and_eq_true, decide_eq_true_eq, gt_iff_lt]

theorem after_false_iff (t u : Time) :
    t.After u = false ↔ (t.sec < u.sec ∨ (t.sec = u.sec ∧ t.nsec ≤ u.nsec)) := by
  rw [← Bool.not_eq_true, after_iff]
  omega

theorem analyzeLess_strictWeak : strictWeak analyzeLess := by
  unfold strictWeak analyzeLess
  refine ⟨?_, ?_, ?_⟩
  · intro a
    rw [after_false_iff]
    omega
  · intro a b c
    rw [after_iff, after_iff, after_iff]
    omega
  · intro a b c
    rw [after_false_iff, after_false_iff, after_false_iff]
    omega

theorem insertionSlice_contract : sortSliceContract insertionSlice := by
  intro less hless l
  obtain ⟨hirr, htrans, hneg⟩ := hless
  unfold insertionSlice
  refine ⟨List.perm_insertionSort _ l, ?_⟩
  haveI : IsTotal record (fun a b => less b a = false) := ⟨by
    intro a b
    by_cases h1 : less b a = true
    · by_cases h2 : less a b = true
      · have h3 := htrans a b a h2 h1
        rw [hirr a] at h3
        exact absurd h3 (by decide)
      · exact Or.inr (by simpa using h2)
    · exact Or.inl (by simpa using h1)⟩
  haveI : IsTrans record (fun a b => less b a = false) :=
    ⟨fun a b c hab hbc => hneg c b a hbc hab⟩
  exact List.sorted_insertionSort (fun a b => less b a = false) l

/-- C12: when the body decodes to the candidates, `sort.Slice` meets its library contract,
and the pull and the JSON encoding succeed on transactions that carry a UUID,
`journal.analyze` answers 200 with the encoding of the statements of `_research`, which
are one per candidate and whose records are the candidates as sorted with the comparison of
the handler: a permutation of the candidates in which no record is followed by one of a
later date; and it makes exactly one pull, for the window from the date of the last to the
date of the first record of that order; for the empty candidate list the body is `[]` and
no pull is made. -/
theorem analyze_output_shape (build : Build) (memory : List (String × results))
    (unmarshal : String → Except String (List record))
    (sortSlice : (record → record → Bool) → List record → List record)
    (store : PullQuery → List Transaction)
    (encode : List statement → String)
    (signature payload lap : String) (candidates : List record)
    (hdecode : unmarshal payload = Except.ok candidates)
    (hsort : sortSliceContract sortSlice)
    (huuid : ∀ q, ∀ t ∈ store q, t.UUID ≠ none) :
    (candidates = [] →
      journal.analyze build memory unmarshal sortSlice (fun q => Except.ok (store q))
          (fun sts => Except.ok (encode sts)) signature (Except.ok payload) lap
          ResponseWriter.fresh
        = some (Response.Okay build ResponseWriter.fresh "[]" false lap, [])) ∧
    (candidates ≠ [] →
      ∃ (newest oldest : record) (statements : List statement),
        (statements.map (fun st => st.torecord)).head? = some newest ∧
        (statements.map (fun st => st.torecord)).getLast? = some oldest ∧
        _research memory
            (store { signature := signature, oldest := oldest.Date, newest := newest.Date })
            (sortSlice analyzeLess candidates) signature = some statements ∧
        statements.length = candidates.length ∧
        statements.map (fun st => st.torecord) = sortSlice analyzeLess candidates ∧
        (statements.map (fun st => st.torecord)).Perm candidates ∧
        (statements.map (fun st => st.torecord)).Pairwise
          (fun a b => b.Date.After a.Date = false) ∧
        (statements.map (fun st => st.torecord)).Pairwise
          (fun a b => b.Date.sec < a.Date.sec ∨
            (b.Date.sec = a.Date.sec ∧ b.Date.nsec ≤ a.Date.nsec)) ∧
        journal.analyze build memory unmarshal sortSlice (fun q => Except.ok (store q))
            (fun sts => Except.ok (encode sts)) signature (Except.ok payload) lap
            ResponseWriter.fresh
          = some (Response.Okay build ResponseWriter.fresh (encode statements) false lap,
              [{ signature := signature, oldest := oldest.Date, newest := newest.Date }])) := by
  obtain ⟨hperm, hsorted⟩ := hsort analyzeLess analyzeLess_strictWeak candidates
  refine ⟨?_, ?_⟩
  · intro hnil
    subst hnil
    unfold journal.analyze
    simp only [hdecode]
    rfl
  · intro hne
    have hlen : 0 < candidates.length := List.length_pos.mpr hne
    have hslen : (sortSlice analyzeLess candidates).length = candidates.length :=
      hperm.length_eq
    have h0 : 0 < (sortSlice analyzeLess candidates).length := by omega
    have h1 : (sortSlice analyzeLess candidates).length - 1
        < (sortSlice analyzeLess candidates).length := by omega
    generalize hS : sortSlice analyzeLess candidates = S at hperm hsorted hslen h0 h1
    obtain ⟨statements, hres, hmap⟩ := research_some memory
      (store { signature := signature, oldest := (S[S.length - 1]).Date,
               newest := (S[0]).Date })
      signature (huuid _) S
    have hafter : S.Pairwise (fun a b => b.Date.After a.Date = false) := hsorted
    refine ⟨S[0], S[S.length - 1], statements, ?_, ?_, hres, ?_, hmap, ?_, ?_, ?_, ?_⟩
    · rw [hmap, List.head?_eq_getElem?, List.getElem?_eq_getElem h0]
    · rw [hmap, List.getLast?_eq_getElem?, List.getElem?_eq_getElem h1]
    · have := congrArg List.length hmap
      rw [List.length_map] at this
      omega
    · rw [hmap]; exact hperm
    · rw [hmap]; exact hafter
    · rw [hmap]
      exact hafter.imp (fun h => (after_false_iff _ _).mp h)
    · unfold journal.analyze
      simp only [hdecode, gt_iff_lt, hlen, if_true, hS, List.getElem?_eq_getElem h0,
        List.getElem?_eq_getElem h1, hres]

/-- C12 (witness): the candidates of `TestSimilarTransactionsWithPayload` and of
`TestModelTendency`, sent oldest first and sorted by insertion, against a store that
answers every pull with one transaction, the statements being encoded as their number;
and the empty candidate list of `TestSimilarTransactionsWithNothing`. -/
theorem analyze_output_shape_witness :
    journal.analyze testBuild [] (fun _ => Except.ok [similarCandidate, predictionCandidate])
        insertionSlice (fun _ => Except.ok [similarTransaction])
        (fun sts => Except.ok (toString sts.length)) "test-signature" (Except.ok "[..]") "1ms"
        ResponseWriter.fresh
      = some (Response.Okay testBuild ResponseWriter.fresh "2" false "1ms",
          [{ signature := "test-signature", oldest := similarCandidate.Date,
             newest := predictionCandidate.Date }]) ∧
    insertionSlice analyzeLess [similarCandidate, predictionCandidate]
      = [predictionCandidate, similarCandidate] ∧
    journal.analyze testBuild [] (fun _ => Except.ok [])
        insertionSlice (fun _ => Except.ok [similarTransaction])
        (fun sts => Except.ok (toString sts.length)) "test-signature" (Except.ok "[]") "1ms"
        ResponseWriter.fresh
      = some (Response.Okay testBuild ResponseWriter.fresh "[]" false "1ms", []) := by
  refine ⟨?_, by decide, ?_⟩
  · obtain ⟨newest, oldest, statements, hnew, hold, _, hlen, hmap, _, _, _, h⟩ :=
      (analyze_output_shape testBuild []
        (fun _ => Except.ok [similarCandidate, predictionCandidate])
        insertionSlice (fun _ => [similarTransaction]) (fun sts => toString sts.length)
        "test-signature" "[..]" "1ms" [similarCandidate, predictionCandidate] rfl
        insertionSlice_contract
        (fun _ => (by decide : ∀ t ∈ [similarTransaction], t.UUID ≠ none))).2 (by decide)
    rw [hmap] at hnew hold
    have hn : newest = predictionCandidate := (Option.some.inj hnew).symm.trans (by decide)
    have ho : oldest = similarCandidate := (Option.some.inj hold).symm.trans (by decide)
    have hl : statements.length = 2 := hlen
    rw [h, hn, ho, hl]
    rfl
  · exact (analyze_output_shape testBuild [] (fun _ => Except.ok [])
      insertionSlice (fun _ => [similarTransaction]) (fun sts => toString sts.length)
      "test-signature" "[]" "1ms" [] rfl insertionSlice_contract
      (fun _ => (by decide : ∀ t ∈ [similarTransaction], t.UUID ≠ none))).1 rfl

/-! ## Exactness of the float arithmetic of the approximate band -/

theorem log2Fuel_spec (fuel : Nat) :
    ∀ n : Nat, 0 < n → n ≤ fuel →
      2 ^ log2Fuel fuel n ≤ n ∧ n < 2 ^ (log2Fuel fuel n + 1) := by
  induction fuel with
  | zero => intro n h0 h1; omega
  | succ fuel ih =>
    intro n h0 h1
    simp only [log2Fuel]
    by_cases h2 : n < 2
    · rw [if_pos h2]
      simp
      omega
    · rw [if_neg h2]
      have := ih (n / 2) (by omega) (by omega)
      rw [pow_succ, pow_succ]
      omega

theorem ilog2_spec (n : Nat) (h : 0 < n) : 2 ^ ilog2 n ≤ n ∧ n < 2 ^ (ilog2 n + 1) :=
  log2Fuel_spec n n h (le_refl n)

theorem ilog2_unique (n l : Nat) (h1 : 2 ^ l ≤ n) (h2 : n < 2 ^ (l + 1)) : ilog2 n = l := by
  have hn : 0 < n := lt_of_lt_of_le (by positivity) h1
  obtain ⟨h3, h4⟩ := ilog2_spec n hn
  have ha : ilog2 n < l + 1 := (Nat.pow_lt_pow_iff_right (by decide : 1 < 2)).1
    (lt_of_le_of_lt h3 h2)
  have hb : l < ilog2 n + 1 := (Nat.pow_lt_pow_iff_right (by decide : 1 < 2)).1
    (lt_of_le_of_lt h1 h4)
  omega

theorem ilog2_mul_pow (n j : Nat) (h : 0 < n) : ilog2 (n * 2 ^ j) = ilog2 n + j := by
  obtain ⟨h3, h4⟩ := ilog2_spec n h
  apply ilog2_unique
  · rw [pow_add]
    exact Nat.mul_le_mul_right _ h3
  · have : ilog2 n + j + 1 = (ilog2 n + 1) + j := by omega
    rw [this, pow_add]
    exact Nat.mul_lt_mul_of_pos_right h4 (by positivity)

theorem ilog2_le_of_lt_pow (n b : Nat) (h : 0 < n) (hb : n < 2 ^ (b + 1)) : ilog2 n ≤ b := by
  obtain ⟨h3, _⟩ := ilog2_spec n h
  have := (Nat.pow_lt_pow_iff_right (by decide : 1 < 2)).1 (lt_of_le_of_lt h3 hb)
  omega

theorem roundHalfEven_exact (M d : Nat) (hd : 0 < d) : roundHalfEven (M * d) d = M := by
  unfold roundHalfEven
  simp only [Nat.mul_mod_left, Nat.mul_div_cancel _ hd]
  simp [hd]

theorem roundHalfEven_scale (n d c : Nat) (hc : 0 < c) :
    roundHalfEven (n * c) (d * c) = roundHalfEven n d := by
  unfold roundHalfEven
  rw [Nat.mul_div_mul_right _ _ hc, Nat.mul_mod_mul_right]
  have h1 : (2 * (n % d * c) < d * c) ↔ (2 * (n % d) < d) := by
    rw [← mul_assoc]
    exact Nat.mul_lt_mul_right hc
  have h2 : (d * c < 2 * (n % d * c)) ↔ (d < 2 * (n % d)) := by
    rw [← mul_assoc]
    exact Nat.mul_lt_mul_right hc
  simp only [h1, h2]

theorem roundHalfEven_bounds (n d : Nat) (hd : 0 < d) :
    2 * n ≤ 2 * d * roundHalfEven n d + d ∧ 2 * d * roundHalfEven n d ≤ 2 * n + d := by
  unfold roundHalfEven
  have hdm := Nat.div_add_mod n d
  have hlt := Nat.mod_lt n hd
  generalize n / d = k at hdm
  generalize n % d = r at hdm hlt
  subst hdm
  dsimp only
  split_ifs <;> constructor <;> nlinarith

theorem ratLog2_one (n : Nat) (h : 0 < n) : ratLog2 n 1 = (ilog2 n : Int) := by
  have h1 : ilog2 1 = 0 := by decide
  unfold ratLog2
  simp only [h1, Nat.cast_zero, sub_zero, Int.toNat_ofNat]
  rw [if_pos (Int.natCast_nonneg _), if_pos]
  rw [one_mul]
  exact (ilog2_spec n h).1

theorem round_exact (V j : Nat) (h0 : 0 < V) (h1 : V < 2 ^ 53) :
    F64.round false (V * 2 ^ j) 1 (-(j : Int))
      = F64.fin ((V * 2 ^ (52 - ilog2 V) : Nat) : Int) ((ilog2 V : Int) - 52) := by
  have hl : ilog2 V ≤ 52 := ilog2_le_of_lt_pow V 52 h0 h1
  have hpos : 0 < V * 2 ^ j := by positivity
  have hne : ¬ V * 2 ^ j = 0 := by omega
  unfold F64.round
  rw [if_neg hne, ratLog2_one _ hpos, ilog2_mul_pow V j h0]
  have hq : max (-(j : Int) + ((ilog2 V + j : Nat) : Int) - 52) (-1074)
      = (ilog2 V : Int) - 52 := by
    push_cast
    omega
  simp only [hq]
  have hov : ¬ (972 ≤ (ilog2 V : Int) - 52 ∨
      ((ilog2 V : Int) - 52 = 971 ∧
        9007199254740992 ≤
          (if (ilog2 V : Int) - 52 ≤ -(j : Int) then
            roundHalfEven (V * 2 ^ j * 2 ^ (-(j : Int) - ((ilog2 V : Int) - 52)).toNat) 1
          else roundHalfEven (V * 2 ^ j) (1 * 2 ^ ((ilog2 V : Int) - 52 - -(j : Int)).toNat)))) := by
    omega
  rw [if_neg hov]
  simp only [Bool.false_eq_true, if_false]
  congr 1
  by_cases hc : (ilog2 V : Int) - 52 ≤ -(j : Int)
  · rw [if_pos hc]
    have ht : (-(j : Int) - ((ilog2 V : Int) - 52)).toNat = 52 - ilog2 V - j := by omega
    rw [ht]
    have := roundHalfEven_exact (V * 2 ^ j * 2 ^ (52 - ilog2 V - j)) 1 (by decide)
    rw [mul_one] at this
    rw [this, mul_assoc, ← pow_add]
    congr 3
    omega
  · rw [if_neg hc]
    have ht : ((ilog2 V : Int) - 52 - -(j : Int)).toNat = j - (52 - ilog2 V) := by omega
    rw [ht, one_mul]
    have hj : j = (52 - ilog2 V) + (j - (52 - ilog2 V)) := by omega
    have : V * 2 ^ j = (V * 2 ^ (52 - ilog2 V)) * 2 ^ (j - (52 - ilog2 V)) := by
      rw [mul_assoc, ← pow_add, ← hj]
    rw [this, roundHalfEven_exact _ _ (by positivity)]

theorem ofInt_pos (V : Nat) (h0 : 0 < V) (h1 : V < 2 ^ 53) :
    F64.ofInt (V : Int)
      = F64.fin ((V * 2 ^ (52 - ilog2 V) : Nat) : Int) ((ilog2 V : Int) - 52) := by
  have h := round_exact V 0 h0 h1
  simp only [pow_zero, mul_one, Nat.cast_zero, neg_zero] at h
  unfold F64.ofInt
  have hn : decide ((V : Int) < 0) = false := by simp
  rw [hn, Int.natAbs_ofNat]
  exact h

theorem toInt_normal (V : Nat) (h0 : 0 < V) (h1 : V < 2 ^ 53) :
    F64.toInt (F64.fin ((V * 2 ^ (52 - ilog2 V) : Nat) : Int) ((ilog2 V : Int) - 52))
      = (V : Int) := by
  have hl : ilog2 V ≤ 52 := ilog2_le_of_lt_pow V 52 h0 h1
  have hV : (V : Int) < 9223372036854775808 := by
    have : (2 : Nat) ^ 53 = 9007199254740992 := by norm_num
    omega
  unfold F64.toInt
  by_cases hc : (0 : Int) ≤ (ilog2 V : Int) - 52
  · have h52 : ilog2 V = 52 := by omega
    simp only [hc, if_true, h52]
    norm_num
    omega
  · have ht : (-((ilog2 V : Int) - 52)).toNat = 52 - ilog2 V := by omega
    simp only [hc, if_false, ht]
    have : Int.tdiv ((V * 2 ^ (52 - ilog2 V) : Nat) : Int) (2 ^ (52 - ilog2 V)) = (V : Int) := by
      push_cast
      rw [Int.tdiv_eq_ediv (by positivity) (by positivity)]
      exact Int.mul_ediv_cancel _ (by positivity)
    rw [this]
    simp only [hV, and_true]
    rw [if_pos (by omega)]

theorem toInt_mul_ofInt (N P : Nat) (hP : 0 < P) (hP53 : P < 2 ^ 53) (h : N * P < 2 ^ 53) :
    F64.toInt (F64.mul (F64.fin (N : Int) 0) (F64.ofInt (P : Int))) = ((N * P : Nat) : Int) := by
  have hl : ilog2 P ≤ 52 := ilog2_le_of_lt_pow P 52 hP hP53
  rw [ofInt_pos P hP hP53]
  simp only [F64.mul]
  have hnn : decide ((N : Int) * ((P * 2 ^ (52 - ilog2 P) : Nat) : Int) < 0) = false := by
    rw [decide_eq_false_iff_not, not_lt]
    positivity
  have habs : ((N : Int) * ((P * 2 ^ (52 - ilog2 P) : Nat) : Int)).natAbs
      = (N * P) * 2 ^ (52 - ilog2 P) := by
    rw [← Nat.cast_mul, Int.natAbs_ofNat, mul_assoc]
  have he : (0 : Int) + ((ilog2 P : Int) - 52) = -((52 - ilog2 P : Nat) : Int) := by omega
  rw [hnn, habs, he]
  by_cases hN : N = 0
  · subst hN
    simp [F64.round, F64.toInt]
  · have hV : 0 < N * P := Nat.mul_pos (Nat.pos_of_ne_zero hN) hP
    rw [round_exact (N * P) (52 - ilog2 P) hV h, toInt_normal (N * P) hV h]

theorem div_ofInt (a P : Nat) (ha0 : 0 < a) (hP : 0 < P) (ha : a < 2 ^ 52) (hP53 : P < 2 ^ 53) :
    ∃ u : Nat, 0 < u ∧ P < 2 ^ (u + 1) ∧
      F64.div (F64.ofInt (a : Int)) (F64.ofInt (P : Int))
        = F64.fin ((roundHalfEven (a * 2 ^ u) P : Nat) : Int) (-(u : Int)) := by
  have ha53 : a < 2 ^ 53 := lt_trans ha (by norm_num)
  have hla : ilog2 a ≤ 51 := ilog2_le_of_lt_pow a 51 ha0 ha
  have hlP : ilog2 P ≤ 52 := ilog2_le_of_lt_pow P 52 hP hP53
  have hPs := ilog2_spec P hP
  rw [ofInt_pos a ha0 ha53, ofInt_pos P hP hP53]
  have hA : 0 < a * 2 ^ (52 - ilog2 a) := by positivity
  have hB : 0 < P * 2 ^ (52 - ilog2 P) := by positivity
  have hm2 : ¬ ((P * 2 ^ (52 - ilog2 P) : Nat) : Int) = 0 := by
    intro h
    have := Int.natCast_inj.1 (h.trans Nat.cast_zero.symm)
    omega
  simp only [F64.div]
  rw [if_neg hm2]
  have hs1 : decide (((a * 2 ^ (52 - ilog2 a) : Nat) : Int) < 0) = false := by simp
  have hs2 : decide (((P * 2 ^ (52 - ilog2 P) : Nat) : Int) < 0) = false := by simp
  rw [hs1, hs2, Int.natAbs_ofNat, Int.natAbs_ofNat]
  have hne : ¬ a * 2 ^ (52 - ilog2 a) = 0 := by omega
  have hlA : ilog2 (a * 2 ^ (52 - ilog2 a)) = 52 := by
    rw [ilog2_mul_pow a _ ha0]
    omega
  have hlB : ilog2 (P * 2 ^ (52 - ilog2 P)) = 52 := by
    rw [ilog2_mul_pow P _ hP]
    omega
  have hrat : ratLog2 (a * 2 ^ (52 - ilog2 a)) (P * 2 ^ (52 - ilog2 P))
      = if P * 2 ^ (52 - ilog2 P) ≤ a * 2 ^ (52 - ilog2 a) then 0 else -1 := by
    unfold ratLog2
    simp only [hlA, hlB, sub_self, le_refl, if_true, Int.toNat_zero, pow_zero, mul_one,
      zero_sub]
  simp only [F64.round, bne_self_eq_false, Bool.false_eq_true, if_false]
  rw [if_neg hne, hrat]
  by_cases hc : P * 2 ^ (52 - ilog2 P) ≤ a * 2 ^ (52 - ilog2 a)
  · refine ⟨52 + ilog2 P - ilog2 a, by omega, ?_, ?_⟩
    · refine lt_of_lt_of_le hPs.2 (Nat.pow_le_pow_right (by decide) (by omega))
    · simp only [hc, if_true]
      have hq : max ((ilog2 a : Int) - 52 - ((ilog2 P : Int) - 52) + 0 - 52) (-1074)
          = -((52 + ilog2 P - ilog2 a : Nat) : Int) := by omega
      rw [hq]
      have hle : -((52 + ilog2 P - ilog2 a : Nat) : Int)
          ≤ (ilog2 a : Int) - 52 - ((ilog2 P : Int) - 52) := by omega
      have ht : ((ilog2 a : Int) - 52 - ((ilog2 P : Int) - 52)
          - -((52 + ilog2 P - ilog2 a : Nat) : Int)).toNat = 52 := by omega
      rw [if_pos hle, ht, if_neg (by omega)]
      congr 2
      have : a * 2 ^ (52 - ilog2 a) * 2 ^ 52
          = (a * 2 ^ (52 + ilog2 P - ilog2 a)) * 2 ^ (52 - ilog2 P) := by
        rw [mul_assoc, mul_assoc, ← pow_add, ← pow_add]
        congr 2
        omega
      rw [this, roundHalfEven_scale _ _ _ (by positivity)]
  · refine ⟨53 + ilog2 P - ilog2 a, by omega, ?_, ?_⟩
    · refine lt_of_lt_of_le hPs.2 (Nat.pow_le_pow_right (by decide) (by omega))
    · simp only [hc, if_false]
      have hq : max ((ilog2 a : Int) - 52 - ((ilog2 P : Int) - 52) + -1 - 52) (-1074)
          = -((53 + ilog2 P - ilog2 a : Nat) : Int) := by omega
      rw [hq]
      have hle : -((53 + ilog2 P - ilog2 a : Nat) : Int)
          ≤ (ilog2 a : Int) - 52 - ((ilog2 P : Int) - 52) := by omega
      have ht : ((ilog2 a : Int) - 52 - ((ilog2 P : Int) - 52)
          - -((53 + ilog2 P - ilog2 a : Nat) : Int)).toNat = 53 := by omega
      rw [if_pos hle, ht, if_neg (by omega)]
      congr 2
      have : a * 2 ^ (52 - ilog2 a) * 2 ^ 53
          = (a * 2 ^ (53 + ilog2 P - ilog2 a)) * 2 ^ (52 - ilog2 P) := by
        rw [mul_assoc, mul_assoc, ← pow_add, ← pow_add]
        congr 2
        omega
      rw [this, roundHalfEven_scale _ _ _ (by positivity)]

theorem roundHalfEven_quotient (a P u : Nat) (hP : 0 < P) (hu : P < 2 ^ (u + 1)) :
    (a / P) * 2 ^ u ≤ roundHalfEven (a * 2 ^ u) P ∧
      roundHalfEven (a * 2 ^ u) P < (a / P + 1) * 2 ^ u ∧
      (a % P = 0 → roundHalfEven (a * 2 ^ u) P = (a / P) * 2 ^ u) ∧
      (a % P ≠ 0 → (a / P) * 2 ^ u < roundHalfEven (a * 2 ^ u) P) := by
  have hb := roundHalfEven_bounds (a * 2 ^ u) P hP
  have hdm := Nat.div_add_mod a P
  have hlt := Nat.mod_lt a hP
  have hW : 0 < 2 ^ u := by positivity
  rw [pow_succ] at hu
  generalize roundHalfEven (a * 2 ^ u) P = k at hb
  generalize 2 ^ u = W at hb hu hW
  generalize a / P = N at hdm
  generalize a % P = r at hdm hlt
  subst hdm
  have e1 : (P * N + r) * W = P * (N * W) + r * W := by ring
  rw [e1] at hb
  have e2 : 2 * P * k = 2 * (P * k) := by ring
  rw [e2] at hb
  have hrW : r * W + W ≤ P * W := by
    have : (r + 1) * W ≤ P * W := Nat.mul_le_mul_right W hlt
    linarith
  refine ⟨?_, ?_, ?_, ?_⟩
  · by_contra hcon
    have hk : k + 1 ≤ N * W := by omega
    have : P * (k + 1) ≤ P * (N * W) := Nat.mul_le_mul_left P hk
    have e3 : P * (k + 1) = P * k + P := by ring
    rw [e3] at this
    omega
  · by_contra hcon
    have hk : (N + 1) * W ≤ k := by omega
    have : P * ((N + 1) * W) ≤ P * k := Nat.mul_le_mul_left P hk
    have e3 : P * ((N + 1) * W) = P * (N * W) + P * W := by ring
    rw [e3] at this
    omega
  · intro hr
    subst hr
    have hlow : N * W ≤ k := by
      by_contra hcon
      have hk : k + 1 ≤ N * W := by omega
      have : P * (k + 1) ≤ P * (N * W) := Nat.mul_le_mul_left P hk
      have e3 : P * (k + 1) = P * k + P := by ring
      rw [e3] at this
      omega
    by_contra hcon
    have hk : N * W + 1 ≤ k := by omega
    have : P * (N * W + 1) ≤ P * k := Nat.mul_le_mul_left P hk
    have e3 : P * (N * W + 1) = P * (N * W) + P := by ring
    rw [e3] at this
    omega
  · intro hr
    have hr1 : W ≤ r * W := Nat.le_mul_of_pos_left W (Nat.pos_of_ne_zero hr)
    by_contra hcon
    have hk : k ≤ N * W := by omega
    have : P * k ≤ P * (N * W) := Nat.mul_le_mul_left P hk
    omega

theorem floor_ceil_quotient (a P u : Nat) (hP : 0 < P) (hu0 : 0 < u) (hu : P < 2 ^ (u + 1)) :
    F64.floor (F64.fin ((roundHalfEven (a * 2 ^ u) P : Nat) : Int) (-(u : Int)))
        = F64.fin ((a / P : Nat) : Int) 0 ∧
      F64.ceil (F64.fin ((roundHalfEven (a * 2 ^ u) P : Nat) : Int) (-(u : Int)))
        = F64.fin (((a + P - 1) / P : Nat) : Int) 0 := by
  obtain ⟨h1, h2, h3, h4⟩ := roundHalfEven_quotient a P u hP hu
  have hW : 0 < 2 ^ u := by positivity
  have hneg : ¬ (0 : Int) ≤ -(u : Int) := by omega
  have ht : (-(-(u : Int))).toNat = u := by omega
  generalize roundHalfEven (a * 2 ^ u) P = k at h1 h2 h3 h4
  simp only [F64.floor, F64.ceil, hneg, if_false, ht]
  constructor
  · congr 1
    have : k / 2 ^ u = a / P := by
      apply Nat.div_eq_of_lt_le
      · exact h1
      · exact h2
    rw [← this]
    push_cast
    rfl
  · congr 1
    have hdm := Nat.div_add_mod a P
    have hlt := Nat.mod_lt a hP
    by_cases hr : a % P = 0
    · have hk := h3 hr
      have hC : (a + P - 1) / P = a / P := by
        apply Nat.div_eq_of_lt_le
        · rw [mul_comm]; omega
        · rw [add_mul, mul_comm]; omega
      rw [hC, hk]
      push_cast
      rw [← neg_mul, Int.mul_ediv_cancel _ (by positivity)]
      omega
    · have hk := h4 hr
      have hC : (a + P - 1) / P = a / P + 1 := by
        apply Nat.div_eq_of_lt_le
        · rw [add_mul, mul_comm]; omega
        · rw [add_mul, add_mul, mul_comm]; omega
      rw [hC]
      have hq : (-(k : Int)) / (2 : Int) ^ u = -((a / P + 1 : Nat) : Int) := by
        have hWi : (0 : Int) < (2 : Int) ^ u := by positivity
        have h2i : (k : Int) < ((a / P + 1 : Nat) : Int) * (2 : Int) ^ u := by
          exact_mod_cast h2
        have h4i : ((a / P : Nat) : Int) * (2 : Int) ^ u < (k : Int) := by
          exact_mod_cast hk
        have hu := (Int.ediv_emod_unique hWi).2
          (⟨by ring, by linarith, by push_cast at h4i ⊢; linarith⟩ :
            (((a / P + 1 : Nat) : Int) * (2 : Int) ^ u - (k : Int))
                + (2 : Int) ^ u * (-((a / P + 1 : Nat) : Int)) = -(k : Int) ∧
              0 ≤ ((a / P + 1 : Nat) : Int) * (2 : Int) ^ u - (k : Int) ∧
              ((a / P + 1 : Nat) : Int) * (2 : Int) ^ u - (k : Int) < (2 : Int) ^ u)
        exact hu.1
      rw [hq]
      omega

theorem aprox_core (a P : Nat) (hP : 0 < P) (ha : a < 2 ^ 52) (hP53 : a + P < 2 ^ 53) :
    F64.toInt (F64.mul (F64.floor (F64.div (F64.ofInt (a : Int)) (F64.ofInt (P : Int))))
        (F64.ofInt (P : Int))) = ((a / P * P : Nat) : Int) ∧
      F64.toInt (F64.mul (F64.ceil (F64.div (F64.ofInt (a : Int)) (F64.ofInt (P : Int))))
        (F64.ofInt (P : Int))) = (((a + P - 1) / P * P : Nat) : Int) := by
  have hP2 : P < 2 ^ 53 := by omega
  have hN : a / P * P < 2 ^ 53 := by
    have := Nat.div_mul_le_self a P
    omega
  have hC : (a + P - 1) / P * P < 2 ^ 53 := by
    have := Nat.div_mul_le_self (a + P - 1) P
    omega
  by_cases ha0 : a = 0
  · subst ha0
    have hz : F64.ofInt ((0 : Nat) : Int) = F64.fin 0 0 := by decide
    have hlP : ilog2 P ≤ 52 := ilog2_le_of_lt_pow P 52 hP hP2
    have hd : F64.div (F64.fin 0 0) (F64.ofInt (P : Int)) = F64.fin 0 0 := by
      rw [ofInt_pos P hP hP2]
      have hm2 : ¬ ((P * 2 ^ (52 - ilog2 P) : Nat) : Int) = 0 := by
        have : 0 < P * 2 ^ (52 - ilog2 P) := by positivity
        omega
      simp only [F64.div]
      rw [if_neg hm2]
      simp [F64.round]
    have hC0 : (0 + P - 1) / P = 0 := by
      apply Nat.div_eq_of_lt
      omega
    rw [hz, hd, hC0]
    simp only [F64.floor, F64.ceil, le_refl, if_true, Nat.zero_div, zero_mul]
    have := toInt_mul_ofInt 0 P hP hP2 (by simp)
    simp only [Nat.cast_zero, zero_mul] at this
    exact ⟨this, this⟩
  · obtain ⟨u, hu0, hu, hdiv⟩ := div_ofInt a P (Nat.pos_of_ne_zero ha0) hP ha hP2
    obtain ⟨hf, hc⟩ := floor_ceil_quotient a P u hP hu0 hu
    rw [hdiv, hf, hc]
    exact ⟨toInt_mul_ofInt _ P hP hP2 hN, toInt_mul_ofInt _ P hP hP2 hC⟩

theorem decimalDigits_spec (fuel : Nat) :
    ∀ n : Nat, n ≤ fuel →
      1 ≤ decimalDigits fuel n ∧ n < 10 ^ decimalDigits fuel n ∧
        ((n = 0 ∧ decimalDigits fuel n = 1) ∨ 10 ^ (decimalDigits fuel n - 1) ≤ n) := by
  induction fuel with
  | zero =>
    intro n hn
    have : n = 0 := by omega
    subst this
    simp [decimalDigits]
  | succ fuel ih =>
    intro n hn
    simp only [decimalDigits]
    by_cases h : n < 10
    · rw [if_pos h]
      refine ⟨le_refl 1, by simpa using h, ?_⟩
      simp
      omega
    · rw [if_neg h]
      obtain ⟨h1, h2, h3⟩ := ih (n / 10) (by omega)
      obtain ⟨d, hd⟩ : ∃ d, decimalDigits fuel (n / 10) = d + 1 :=
        ⟨decimalDigits fuel (n / 10) - 1, by omega⟩
      rw [hd] at h2 h3 ⊢
      simp only [Nat.add_sub_cancel] at h3 ⊢
      rw [pow_succ] at h2 ⊢
      refine ⟨by omega, by omega, Or.inr ?_⟩
      rcases h3 with h3 | h3
      · omega
      · omega

theorem power_ten (k : Nat) (h1 : 1 ≤ k) (h2 : k ≤ 15) :
    _power 10 ((k : Int) - 2) = (((if k = 1 then 10 else 10 ^ (k - 2)) : Nat) : Int) := by
  interval_cases k <;> decide

theorem aproxBand_rat (a P : Nat) (hP : 0 < P) (v : Int) :
    ((⌊(a : ℚ) / (P : ℚ)⌋ : ℚ) * (P : ℚ) ≤ (v : ℚ) ∧
        (v : ℚ) ≤ (⌈(a : ℚ) / (P : ℚ)⌉ : ℚ) * (P : ℚ)) ↔
      (((a / P * P : Nat) : Int) ≤ v ∧ v ≤ (((a + P - 1) / P * P : Nat) : Int)) := by
  have hPq : (0 : ℚ) < (P : ℚ) := by exact_mod_cast hP
  have hf : ⌊(a : ℚ) / (P : ℚ)⌋ = ((a / P : Nat) : Int) := Rat.floor_natCast_div_natCast a P
  have hc : ⌈(a : ℚ) / (P : ℚ)⌉ = (((a + P - 1) / P : Nat) : Int) := by
    rw [Int.ceil_eq_iff]
    have hdm := Nat.div_add_mod (a + P - 1) P
    have hlt := Nat.mod_lt (a + P - 1) hP
    generalize (a + P - 1) / P = C at hdm
    generalize (a + P - 1) % P = r at hdm hlt
    constructor
    · rw [lt_div_iff₀ hPq]
      have : ((C : Int) - 1) * (P : Int) < (a : Int) := by
        have e : ((C : Int) - 1) * (P : Int) = (P : Int) * (C : Int) - (P : Int) := by ring
        rw [e]
        have hdm2 : (P : Int) * (C : Int) + (r : Int) = ((a + P - 1 : Nat) : Int) := by
          exact_mod_cast hdm
        omega
      exact_mod_cast this
    · rw [div_le_iff₀ hPq]
      have : (a : Int) ≤ (C : Int) * (P : Int) := by
        have e : (C : Int) * (P : Int) = (P : Int) * (C : Int) := by ring
        rw [e]
        have hdm2 : (P : Int) * (C : Int) + (r : Int) = ((a + P - 1 : Nat) : Int) := by
          exact_mod_cast hdm
        omega
      exact_mod_cast this
  rw [hf, hc]
  constructor
  · rintro ⟨h1, h2⟩
    exact ⟨by exact_mod_cast h1, by exact_mod_cast h2⟩
  · rintro ⟨h1, h2⟩
    exact ⟨by exact_mod_cast h1, by exact_mod_cast h2⟩

/-- C11 (counterexample): for the amount 5 and `absV = 7` the code accepts, because
`_power(10, -1)` is 10 and its band runs from 0 to 10, whereas with `p = 10^(-1)` the band
of the claim is the single value 5; and for the amount 9999999999999999 and
`absV = 9900000000000000` the band of the claim accepts, whereas the code rejects, because
`float64(amount)` is `10^16` and the band of the code is the single value `10^16`. -/
theorem isBetweenAmountAprox_counterexample :
    (_isBetweenAmountAprox 5 7 = true ∧ _power 10 (-1) = 10 ∧ ¬ aproxBandStated 5 7) ∧
    (_isBetweenAmountAprox 9999999999999999 9900000000000000 = false ∧
      F64.toInt (F64.ofInt 9999999999999999) = 10000000000000000 ∧
      aproxBandStated 9999999999999999 9900000000000000) := by
  refine ⟨⟨by decide, by decide, ?_⟩, by decide, by decide, ?_⟩
  · have hd : decimalLength 5 = 1 := by decide
    unfold aproxBandStated
    simp only [hd]
    norm_num
  · have hd : decimalLength 9999999999999999 = 16 := by decide
    have h := (aproxBand_rat 9999999999999999 (10 ^ 14) (by positivity) 9900000000000000).2
      (by constructor <;> norm_num)
    unfold aproxBandStated
    simp only [hd]
    norm_num at h ⊢
    exact h

theorem aproxPower_cast (k : Nat) (hk : 1 ≤ k) :
    (if (k : Int) - 2 = 0 then (1 : ℚ)
      else if (k : Int) - 2 = -1 then 10 else (10 : ℚ) ^ ((k : Int) - 2))
      = (((if k = 1 then 10 else 10 ^ (k - 2)) : Nat) : ℚ) := by
  by_cases h1 : k = 1
  · subst h1
    norm_num
  · by_cases h2 : k = 2
    · subst h2
      norm_num
    · have e : (k : Int) - 2 = ((k - 2 : Nat) : Int) := by omega
      have n0 : ¬ (k : Int) - 2 = 0 := by omega
      have n1 : ¬ (k : Int) - 2 = -1 := by omega
      rw [if_neg n0, if_neg n1, if_neg h1, e, zpow_natCast]
      push_cast
      rfl

/-- C11 (amended): for every amount with `0 ≤ amount < 10^15` and every `absV`, the length
`k` of the decimal text of the amount is its number of digits, and
`_isBetweenAmountAprox(amount, absV)` is true iff `floor(r)*p ≤ absV ≤ ceil(r)*p` in exact
arithmetic, where `digits = k - 2`, `p = 10^digits` (`p = 1` when `digits = 0` and
`p = 10` when `digits = -1`) and `r = amount / p`: the float operations of the code are
exact on this range. -/
theorem isBetweenAmountAprox_band (amount absV : Int) (h0 : 0 ≤ amount)
    (h1 : amount < 10 ^ 15) :
    ((amount = 0 ∨ (10 : Int) ^ (decimalLength amount - 1) ≤ amount) ∧
        amount < (10 : Int) ^ decimalLength amount) ∧
      (_isBetweenAmountAprox amount absV = true ↔ aproxBandAmended amount absV) := by
  obtain ⟨a, rfl⟩ := Int.eq_ofNat_of_zero_le h0
  have ha : a < 10 ^ 15 := by exact_mod_cast h1
  have hlen : decimalLength (a : Int) = decimalDigits a a := by
    unfold decimalLength
    have : ¬ (a : Int) < 0 := by omega
    rw [if_neg this, Int.natAbs_ofNat, zero_add]
  obtain ⟨hk1, hk2, hk3⟩ := decimalDigits_spec a a (le_refl a)
  generalize hkk : decimalDigits a a = k at hk1 hk2 hk3
  rw [hkk] at hlen
  have hk15 : k ≤ 15 := by
    rcases hk3 with hk3 | hk3
    · omega
    · have := (Nat.pow_lt_pow_iff_right (by decide : 1 < 10)).1 (lt_of_le_of_lt hk3 ha)
      omega
  have hP : 0 < (if k = 1 then 10 else 10 ^ (k - 2)) := by
    split_ifs
    · decide
    · positivity
  have hPle : (if k = 1 then 10 else 10 ^ (k - 2)) ≤ 10 ^ 13 := by
    split_ifs
    · norm_num
    · exact Nat.pow_le_pow_right (by decide) (by omega)
  have hpow := power_ten k hk1 hk15
  have hcast := aproxPower_cast k hk1
  generalize (if k = 1 then 10 else 10 ^ (k - 2)) = P at hP hPle hpow hcast
  have h10 : (10 : Nat) ^ 15 = 1000000000000000 := by norm_num
  have h13 : (10 : Nat) ^ 13 = 10000000000000 := by norm_num
  have h52 : (2 : Nat) ^ 52 = 4503599627370496 := by norm_num
  have h53 : (2 : Nat) ^ 53 = 9007199254740992 := by norm_num
  obtain ⟨hL, hH⟩ := aprox_core a P hP (by omega) (by omega)
  refine ⟨⟨?_, ?_⟩, ?_⟩
  · rw [hlen]
    rcases hk3 with hk3 | hk3
    · left
      exact_mod_cast hk3.1
    · right
      exact_mod_cast hk3
  · rw [hlen]
    exact_mod_cast hk2
  · unfold _isBetweenAmountAprox aproxBandAmended
    simp only [hlen, hpow, hL, hH, hcast, Int.cast_natCast, Bool.and_eq_true,
      decide_eq_true_eq]
    exact (aproxBand_rat a P hP absV).symm

/-- C11 (witness): the amount 1240 of the `test-signature` fixture, whose band runs from
1200 to 1300, and the candidate amount 1200. -/
theorem isBetweenAmountAprox_band_witness :
    (0 : Int) ≤ 1240 ∧ (1240 : Int) < 10 ^ 15 ∧ decimalLength 1240 = 4 ∧
      (_isBetweenAmountAprox 1240 1200 = true ↔ aproxBandAmended 1240 1200) ∧
      _isBetweenAmountAprox 1240 1200 = true ∧ _isBetweenAmountAprox 1240 1199 = false ∧
      _isBetweenAmountAprox 1240 1300 = true ∧ _isBetweenAmountAprox 1240 1301 = false :=
  ⟨by decide, by decide, by decide,
    (isBetweenAmountAprox_band 1240 1200 (by decide) (by decide)).2,
    by decide, by decide, by decide, by decide⟩

/-! ## Agreement of the two similarity functions -/

theorem compareWith_fromTransaction (r : record) (t : Transaction) (mirror : record)
    (h : _fromTransaction t = some mirror) :
    r.CompareWithTransaction t = r.CompareWith mirror := by
  unfold _fromTransaction at h
  cases hu : t.UUID with
  | none => rw [hu] at h; simp at h
  | some uuid =>
    rw [hu] at h
    simp only [Option.some.injEq] at h
    subst h
    rfl

theorem similarityLoop_mirror (r : record) (reg : List Transaction) :
    ∀ sims sims' : List similarity,
      (∀ s ∈ sims, _fromTransaction s.Parent = some s.Mirror ∧
        s.Grade = r.CompareWithTransaction s.Parent ∧ 0 < s.Grade) →
      similarityLoop r reg sims = some sims' →
      ∀ s ∈ sims', _fromTransaction s.Parent = some s.Mirror ∧
        s.Grade = r.CompareWithTransaction s.Parent ∧ 0 < s.Grade := by
  induction reg with
  | nil =>
    intro sims sims' hs h
    simp only [similarityLoop, Option.some.injEq] at h
    rw [← h]
    exact hs
  | cons t rest ih =>
    intro sims sims' hs h
    simp only [similarityLoop] at h
    split_ifs at h with hg
    · cases hm : _fromTransaction t with
      | none => rw [hm] at h; simp at h
      | some mirror =>
        rw [hm] at h
        refine ih _ sims' ?_ h
        intro s hsmem
        rcases List.mem_append.mp hsmem with h1 | h1
        · exact hs s h1
        · rw [List.mem_singleton.mp h1]
          exact ⟨hm, rfl, hg⟩
    · exact ih sims sims' hs h

/-- C27: for every record `r` and every transaction `t` with a UUID, `_fromTransaction(t)`
returns a record and `r.CompareWithTransaction(t)` equals `r.CompareWith` of that record;
and in every similarity entry that `_research` builds for a candidate, the mirror is the
record of the parent transaction and the grade is the grade of the candidate against that
mirror. -/
theorem compareWithTransaction_agrees (r : record) :
    (∀ (t : Transaction) (uuid : String), t.UUID = some uuid →
      ∃ mirror, _fromTransaction t = some mirror ∧
        r.CompareWithTransaction t = r.CompareWith mirror) ∧
    (∀ (memory : List (String × results)) (reg : List Transaction) (signature : String)
      (st : statement), researchStep memory reg signature r = some st →
      ∀ s ∈ st.Similarity, _fromTransaction s.Parent = some s.Mirror ∧
        s.Grade = r.CompareWith s.Mirror ∧ 0 < s.Grade) := by
  constructor
  · intro t uuid hu
    obtain ⟨mirror, hm⟩ := fromTransaction_of_uuid t uuid hu
    exact ⟨mirror, hm, compareWith_fromTransaction r t mirror hm⟩
  · intro memory reg signature st hst s hs
    unfold researchStep at hst
    cases hsim : similarityLoop r reg [] with
    | none => rw [hsim] at hst; simp at hst
    | some sims =>
      have hall := similarityLoop_mirror r reg [] sims (by simp) hsim
      rw [hsim] at hst
      dsimp only at hst
      have hS : st.Similarity = sims := by
        cases hmem : gmGet memory signature with
        | none =>
          rw [hmem] at hst
          simp only [Option.some.injEq] at hst
          rw [← hst]
        | some rs =>
          rw [hmem] at hst
          dsimp only at hst
          cases hpat : gmGet rs.patterns r.Party with
          | none =>
            rw [hpat] at hst
            simp only [Option.some.injEq] at hst
            rw [← hst]
          | some features =>
            rw [hpat] at hst
            dsimp only at hst
            cases hscore : scoreLoop r features [] with
            | none => rw [hscore] at hst; simp at hst
            | some score =>
              rw [hscore] at hst
              simp only [Option.some.injEq] at hst
              rw [← hst]
      rw [hS] at hs
      obtain ⟨h1, h2, h3⟩ := hall s hs
      exact ⟨h1, by rw [h2, compareWith_fromTransaction r s.Parent s.Mirror h1], h3⟩

/-- C27 (witness): the candidate and the stored transaction of
`TestSimilarTransactionsWithPayload`, which agree on amount, date, sender and receiver
(grade 3). -/
theorem compareWithTransaction_agrees_witness :
    ∃ mirror, _fromTransaction similarTransaction = some mirror ∧
      similarCandidate.CompareWithTransaction similarTransaction
        = similarCandidate.CompareWith mirror ∧
      similarCandidate.CompareWith mirror = 3 := by
  obtain ⟨mirror, hm, hg⟩ := (compareWithTransaction_agrees similarCandidate).1
    similarTransaction "00000000-0000-0000-0000-000000000003" rfl
  refine ⟨mirror, hm, hg, ?_⟩
  rw [← hg]
  decide

/-! ## The update of a feature -/

theorem absValue_eq_abs (amount : Int) (h : -9223372036854775808 < amount) :
    absValue amount = |amount| := by
  unfold absValue wrap64
  split_ifs with hneg
  · rw [abs_of_neg hneg]
    omega
  · rw [abs_of_nonneg (not_lt.mp hneg)]

theorem update_error_iff (f : feature) (r : record) :
    ((f.Update r).2 ≠ none ↔ r.Label ≠ f.Category) ∧
      ((f.Update r).2 = none ↔ r.Label = f.Category) := by
  unfold feature.Update
  by_cases h : r.Label ≠ f.Category
  · rw [if_pos h]
    simp [h]
  · rw [if_neg h]
    simp [not_not.mp h]

/-- C22 (counterexample): a successful `Update` with a record of the amount `-2^63` adds
the amount `-2^63` itself, the negation of which wraps around in `int64`, and not the
absolute value `2^63`. -/
theorem update_abs_counterexample :
    (predictionFeature.Update leastAmountRecord).2 = none ∧
      (predictionFeature.Update leastAmountRecord).1.Amounts
        = [-9223372036854775808, 930, 2410] ∧
      |leastAmountRecord.Amount| = 9223372036854775808 ∧
      |leastAmountRecord.Amount| ∉ (predictionFeature.Update leastAmountRecord).1.Amounts := by
  have habs : |leastAmountRecord.Amount| = 9223372036854775808 := by
    rw [abs_of_neg (by decide)]
    decide
  refine ⟨by decide, by decide, habs, ?_⟩
  rw [habs]
  decide

/-- C22 (amended): `feature.Update` returns an error exactly when `r.Label != f.Category`,
and then leaves the feature as it is; when it succeeds, category and months are unchanged,
the amounts are in ascending order and are those before the call plus one occurrence of the
absolute value computed for `r.Amount`, which is `|r.Amount|` for every amount above `-2^63`
and `-2^63` for the amount `-2^63`, and the weekday and the day of month of `r` are among
the weekdays and days. -/
theorem update_contract (f : feature) (r : record) :
    ((f.Update r).2 ≠ none ↔ r.Label ≠ f.Category) ∧
    (r.Label ≠ f.Category → (f.Update r).1 = f) ∧
    (r.Label = f.Category →
      (f.Update r).2 = none ∧
      (f.Update r).1.Category = f.Category ∧ (f.Update r).1.Months = f.Months ∧
      (f.Update r).1.Amounts.Perm (absValue r.Amount :: f.Amounts) ∧
      (f.Update r).1.Amounts.length = f.Amounts.length + 1 ∧
      (f.Update r).1.Amounts.Sorted (· ≤ ·) ∧
      r.Date.Weekday ∈ (f.Update r).1.Weekdays ∧ r.Date.Day ∈ (f.Update r).1.Days) ∧
    (-9223372036854775808 < r.Amount → absValue r.Amount = |r.Amount|) ∧
    (r.Amount = -9223372036854775808 → absValue r.Amount = -9223372036854775808) := by
  refine ⟨(update_error_iff f r).1, ?_, ?_, absValue_eq_abs r.Amount, ?_⟩
  rotate_right
  · intro h
    rw [h]
    decide
  · intro h
    unfold feature.Update
    rw [if_pos h]
  · intro h
    have hperm : ((f.Amounts ++ [absValue r.Amount]).insertionSort (· ≤ ·)).Perm
        (absValue r.Amount :: f.Amounts) :=
      (List.perm_insertionSort _ _).trans (List.perm_append_singleton _ _)
    unfold feature.Update
    rw [if_neg (not_not.mpr h)]
    refine ⟨rfl, rfl, rfl, hperm, ?_, List.sorted_insertionSort _ _, ?_, ?_⟩
    · dsimp only
      rw [List.length_insertionSort, List.length_append, List.length_singleton]
    · dsimp only
      split_ifs with hw
      · rw [(List.perm_insertionSort _ _).mem_iff]
        simp
      · simpa [feature.HasWeekday] using hw
    · dsimp only
      split_ifs with hd
      · rw [(List.perm_insertionSort _ _).mem_iff]
        simp
      · simpa [feature.HasDay] using hd

/-- C22 (witness): the feature of category `Label #1.2` of the `test-signature` fixture
updated with a record of its category and with a record of another category; the negation
of the least `int64` amount wraps around to itself. -/
theorem update_contract_witness :
    (predictionFeature.Update zeroAmountRecord).1.Amounts = [0, 930, 2410] ∧
      (predictionFeature.Update zeroAmountRecord).1.Months = predictionFeature.Months ∧
      (predictionFeature.Update similarCandidate).1 = predictionFeature ∧
      absValue (-1200) = |(-1200 : Int)| ∧
      absValue leastAmountRecord.Amount = -9223372036854775808 :=
  ⟨by decide,
    ((update_contract predictionFeature zeroAmountRecord).2.2.1 (by decide)).2.2.1,
    (update_contract predictionFeature similarCandidate).2.1 (by decide),
    (update_contract predictionFeature predictionCandidate).2.2.2.1 (by decide),
    by decide⟩

/-! ## The polarity convention -/

/-- C23 (counterexample): a record of amount 0 is counted on slot 0 by `ToFeature` and by a
successful `Update`, where the claim has slot 1 for every amount that is not above 0. -/
theorem polarity_zero_counterexample :
    ¬ (0 < zeroAmountRecord.Amount) ∧
      zeroAmountRecord.ToFeature.Polarity = (1, 0) ∧
      (predictionFeature.Update zeroAmountRecord).2 = none ∧
      predictionFeature.Polarity = (0, 2) ∧
      (predictionFeature.Update zeroAmountRecord).1.Polarity = (1, 2) := by
  decide

/-- C23 (amended): `ToFeature(r)` and a successful `Update(r)` count `r` on exactly one
polarity side, slot 1 (outgoing) if `r.amount < 0` and slot 0 (incoming) otherwise, so that
an amount of 0 counts as incoming; the other slot is not changed. -/
theorem polarity_convention (r : record) :
    (r.Amount < 0 → r.ToFeature.Polarity = (0, 1)) ∧
    (0 ≤ r.Amount → r.ToFeature.Polarity = (1, 0)) ∧
    (∀ f : feature, (f.Update r).2 = none →
      (r.Amount < 0 →
        (f.Update r).1.Polarity.1 = f.Polarity.1 ∧
        (f.Update r).1.Polarity.2 = f.Polarity.2 + 1) ∧
      (0 ≤ r.Amount →
        (f.Update r).1.Polarity.1 = f.Polarity.1 + 1 ∧
        (f.Update r).1.Polarity.2 = f.Polarity.2)) := by
  refine ⟨?_, ?_, ?_⟩
  · intro h
    simp [record.ToFeature, h]
  · intro h
    simp [record.ToFeature, not_lt.mpr h]
  · intro f hok
    have hlab : r.Label = f.Category := (update_error_iff f r).2.1 hok
    unfold feature.Update
    rw [if_neg (not_not.mpr hlab)]
    constructor
    · intro h
      simp [h]
    · intro h
      simp [not_lt.mpr h]

/-- C23 (witness): the outgoing candidate of `TestModelTendency` and a record of amount 0
folded into the feature of category `Label #1.2`. -/
theorem polarity_convention_witness :
    predictionCandidate.ToFeature.Polarity = (0, 1) ∧
      zeroAmountRecord.ToFeature.Polarity = (1, 0) ∧
      (predictionFeature.Update zeroAmountRecord).1.Polarity.1
        = predictionFeature.Polarity.1 + 1 :=
  ⟨(polarity_convention predictionCandidate).1 (by decide),
    (polarity_convention zeroAmountRecord).2.1 (by decide),
    (((polarity_convention zeroAmountRecord).2.2 predictionFeature (by decide)).2
      (by decide)).1⟩

/-! ## The update rule of `_calculate` and the invariant of the model -/

theorem modelLookup_set (model : routines) (party label : String)
    (categories : List (String × List feature)) (fs : List feature) (p c : String) :
    modelLookup (gmSet model party (gmSet categories label fs)) p c =
      if party = p then (if label = c then some fs else gmGet categories c)
      else modelLookup model p c := by
  unfold modelLookup
  rw [gmGet_gmSet]
  by_cases hp : party = p
  · rw [if_pos hp, if_pos hp]
    dsimp only
    rw [gmGet_gmSet]
  · rw [if_neg hp, if_neg hp]

theorem catsKeyed_gmSet (categories : List (String × List feature)) (label : String)
    (fs : List feature) (h : catsKeyed categories) (hne : fs ≠ [])
    (hfs : ∀ f ∈ fs, f.Months ≠ [] ∧ f.Category = label) :
    catsKeyed (gmSet categories label fs) := by
  intro category hc
  rcases mem_gmSet _ _ _ _ hc with h1 | h1
  · rw [h1]; exact ⟨hne, hfs⟩
  · exact h category h1

theorem modelKeyed_gmSet (model : routines) (party : String)
    (categories : List (String × List feature)) (h : modelKeyed model)
    (hc : catsKeyed categories) : modelKeyed (gmSet model party categories) := by
  intro entry he
  rcases mem_gmSet _ _ _ _ he with h1 | h1
  · rw [h1]; exact hc
  · exact h entry h1

theorem update_keeps_key (f : feature) (r : record) (h : f.Months ≠ [] ∧ f.Category = r.Label) :
    (f.Update r).2 = none ∧ (f.Update r).1.Months = f.Months ∧
      (f.Update r).1.Category = r.Label := by
  have hl : ¬ r.Label ≠ f.Category := not_not.mpr h.2.symm
  unfold feature.Update
  rw [if_neg hl]
  exact ⟨rfl, rfl, h.2⟩

theorem toFeature_keyed (r : record) :
    r.ToFeature.Months ≠ [] ∧ r.ToFeature.Category = r.Label := by
  simp [record.ToFeature]

theorem calculate_keyed (model : routines) (party : String) (nextMonth : Nat) (r : record)
    (hm : modelKeyed model) :
    ∃ model', _calculate model party nextMonth r = some model' ∧ modelKeyed model' ∧
      ∀ F tail, modelLookup model party r.Label = some (F :: tail) →
        F.Months ≠ [] ∧ (F.Update r).2 = none ∧
          ∀ m, (({ F with Months := m :: F.Months } : feature).Update r).2 = none := by
  have hnew : ∀ f ∈ [r.ToFeature], f.Months ≠ [] ∧ f.Category = r.Label := by
    intro f hf
    rw [List.mem_singleton.mp hf]
    exact toFeature_keyed r
  unfold _calculate modelLookup
  cases hg : gmGet model party with
  | none =>
    dsimp only
    refine ⟨_, rfl, modelKeyed_gmSet _ _ _ hm
      (catsKeyed_gmSet [] r.Label _ (by intro c hc; simp at hc) (by simp) hnew), ?_⟩
    intro F tail h
    simp at h
  | some categories =>
    dsimp only
    have hcats : catsKeyed categories := hm _ (gmGet_mem model party categories hg)
    cases hg2 : gmGet categories r.Label with
    | none =>
      dsimp only
      refine ⟨_, rfl, modelKeyed_gmSet _ _ _ hm
        (catsKeyed_gmSet categories r.Label _ hcats (by simp) hnew), ?_⟩
      intro F tail h
      simp at h
    | some features =>
      dsimp only
      obtain ⟨hfne, hfs⟩ := hcats _ (gmGet_mem categories r.Label features hg2)
      cases features with
      | nil => exact absurd rfl hfne
      | cons lastFeature tail =>
        dsimp only
        have hPl := hfs lastFeature (List.mem_cons_self _ _)
        dsimp only at hPl
        have htail : ∀ f ∈ tail, f.Months ≠ [] ∧ f.Category = r.Label :=
          fun f hf => hfs f (List.mem_cons_of_mem _ hf)
        have hu1 := update_keeps_key lastFeature r hPl
        have hu2 : ∀ m, (({ lastFeature with Months := m :: lastFeature.Months } :
            feature).Update r).2 = none ∧
            (({ lastFeature with Months := m :: lastFeature.Months } :
              feature).Update r).1.Months = m :: lastFeature.Months ∧
            (({ lastFeature with Months := m :: lastFeature.Months } :
              feature).Update r).1.Category = r.Label :=
          fun m => update_keeps_key _ r ⟨by simp, hPl.2⟩
        have hlast : ∀ F tail', some (lastFeature :: tail) = some (F :: tail') →
            F.Months ≠ [] ∧ (F.Update r).2 = none ∧
              ∀ m, (({ F with Months := m :: F.Months } : feature).Update r).2 = none := by
          intro F tail' h
          simp only [Option.some.injEq, List.cons.injEq] at h
          rw [← h.1]
          exact ⟨hPl.1, hu1.1, fun m => (hu2 m).1⟩
        cases hmo : lastFeature.Months with
        | nil => exact absurd hmo hPl.1
        | cons lastMonth ms =>
          dsimp only
          rw [hmo] at hu2
          split_ifs with hadj hsame
          · obtain ⟨e1, e2, e3⟩ := hu2 nextMonth
            generalize ({ lastFeature with Months := nextMonth :: lastMonth :: ms } :
              feature).Update r = res at e1 e2 e3
            obtain ⟨updated, err⟩ := res
            dsimp only at e1 e2 e3
            subst e1
            refine ⟨_, rfl, modelKeyed_gmSet _ _ _ hm
              (catsKeyed_gmSet categories r.Label _ hcats (by simp) ?_), hlast⟩
            intro f hf
            rcases List.mem_cons.mp hf with h1 | h1
            · rw [h1, e2]; exact ⟨by simp, e3⟩
            · exact htail f h1
          · obtain ⟨e1, e2, e3⟩ := hu1
            rw [hmo] at e2
            generalize lastFeature.Update r = res at e1 e2 e3
            obtain ⟨updated, err⟩ := res
            dsimp only at e1 e2 e3
            subst e1
            refine ⟨_, rfl, modelKeyed_gmSet _ _ _ hm
              (catsKeyed_gmSet categories r.Label _ hcats (by simp) ?_), hlast⟩
            intro f hf
            rcases List.mem_cons.mp hf with h1 | h1
            · rw [h1, e2]; exact ⟨by simp, e3⟩
            · exact htail f h1
          · refine ⟨_, rfl, modelKeyed_gmSet _ _ _ hm
              (catsKeyed_gmSet categories r.Label _ hcats (by simp) ?_), hlast⟩
            intro f hf
            rcases List.mem_cons.mp hf with h1 | h1
            · rw [h1]; exact toFeature_keyed r
            · exact hfs f h1

/-- C21 (counterexample): in a model whose list under the party and the label `Label #1.1`
has a head of category `Label #1.2` and months `[2]`, a call with the next month 3 and a
record of label `Label #1.1` leaves the model as it is: the month 3 is not prepended and
the record is not folded into the head, because `Update` returns the category error. -/
theorem calculate_mismatch_counterexample :
    modelLookup mismatchedModel "sender=Actor #1 receiver=Actor #2" "Label #1.1"
        = some [predictionFeature] ∧
      predictionFeature.Months = [2] ∧ predictionFeature.Category ≠ "Label #1.1" ∧
      _calculate mismatchedModel "sender=Actor #1 receiver=Actor #2" 3
          { zeroAmountRecord with Label := "Label #1.1" } = some mismatchedModel ∧
      (({ predictionFeature with Months := 3 :: predictionFeature.Months } : feature).Update
          { zeroAmountRecord with Label := "Label #1.1" }).2 ≠ none := by
  decide

/-- C21 (amended): `_calculate` changes only `model[party][r.label]`, for every model.  If
there is no list there, the list becomes `[r.ToFeature()]`.  If there is a list with head
`F` whose first month is `lastMonth`: when `lastMonth + 1 == nextMonth` or `lastMonth` is
December and `nextMonth` January, then if `F` has the category `r.label`, `nextMonth` is
prepended to the months of `F` and `r` is folded into `F`, and otherwise the model is left
as it is; else when the month of `r` is `lastMonth`, then if `F` has the category
`r.label`, `r` is folded into `F`, whose months are unchanged, and otherwise the model is
left as it is; else `r.ToFeature()` is prepended; in each case the features of the tail are
kept unchanged.  On an empty list and on a head without months the call panics. -/
theorem calculate_update_rule (model : routines) (party : String) (nextMonth : Nat)
    (r : record) :
    (∀ model', _calculate model party nextMonth r = some model' →
      ∀ p c, (p ≠ party ∨ c ≠ r.Label) → modelLookup model' p c = modelLookup model p c) ∧
    (modelLookup model party r.Label = none →
      ∃ model', _calculate model party nextMonth r = some model' ∧
        modelLookup model' party r.Label = some [r.ToFeature]) ∧
    (∀ (F : feature) (tail : List feature) (lastMonth : Nat) (ms : List Nat),
      modelLookup model party r.Label = some (F :: tail) → F.Months = lastMonth :: ms →
      ∃ model', _calculate model party nextMonth r = some model' ∧
        ((lastMonth + 1 = nextMonth ∨ (lastMonth = 12 ∧ nextMonth = 1)) →
          (F.Category = r.Label →
            (({ F with Months := nextMonth :: F.Months } : feature).Update r).2 = none ∧
            (({ F with Months := nextMonth :: F.Months } : feature).Update r).1.Months
              = nextMonth :: F.Months ∧
            modelLookup model' party r.Label
              = some ((({ F with Months := nextMonth :: F.Months } : feature).Update r).1
                  :: tail)) ∧
          (F.Category ≠ r.Label → model' = model)) ∧
        (¬ (lastMonth + 1 = nextMonth ∨ (lastMonth = 12 ∧ nextMonth = 1)) →
          r.Date.Month = lastMonth →
          (F.Category = r.Label →
            (F.Update r).2 = none ∧ (F.Update r).1.Months = F.Months ∧
            modelLookup model' party r.Label = some ((F.Update r).1 :: tail)) ∧
          (F.Category ≠ r.Label → model' = model)) ∧
        (¬ (lastMonth + 1 = nextMonth ∨ (lastMonth = 12 ∧ nextMonth = 1)) →
          r.Date.Month ≠ lastMonth →
          modelLookup model' party r.Label = some (r.ToFeature :: F :: tail))) ∧
    (modelLookup model party r.Label = some [] → _calculate model party nextMonth r = none) ∧
    (∀ (F : feature) (tail : List feature),
      modelLookup model party r.Label = some (F :: tail) → F.Months = [] →
      _calculate model party nextMonth r = none) := by
  have hpanic : ∀ features : List feature, modelLookup model party r.Label = some features →
      (features = [] ∨ ∃ F tail, features = F :: tail ∧ F.Months = []) →
      _calculate model party nextMonth r = none := by
    intro features hlook hbad
    unfold modelLookup at hlook
    unfold _calculate
    cases hg : gmGet model party with
    | none => rw [hg] at hlook; simp at hlook
    | some categories =>
      rw [hg] at hlook
      dsimp only at hlook ⊢
      rw [hlook]
      rcases hbad with h | ⟨F, tail, h, hmo⟩
      · subst h
        rfl
      · subst h
        dsimp only
        rw [hmo]
  have herr : ∀ G : feature, G.Category ≠ r.Label → ∃ e, G.Update r = (G, some e) := by
    intro G hG
    unfold feature.Update
    rw [if_pos (fun e => hG e.symm)]
    exact ⟨_, rfl⟩
  refine ⟨?_, ?_, ?_, fun h => hpanic [] h (Or.inl rfl),
    fun F tail h hmo => hpanic (F :: tail) h (Or.inr ⟨F, tail, rfl, hmo⟩)⟩
  · intro model' h p c hpc
    have hset : ∀ (categories : List (String × List feature)) (fs : List feature),
        (gmGet model party = some categories ∨ (gmGet model party = none ∧ categories = [])) →
        modelLookup (gmSet model party (gmSet categories r.Label fs)) p c
          = modelLookup model p c := by
      intro categories fs hc
      rw [modelLookup_set]
      by_cases hp : party = p
      · have hcl : ¬ r.Label = c := by
          rcases hpc with h1 | h1
          · exact absurd hp.symm h1
          · exact fun e => h1 e.symm
        rw [if_pos hp, if_neg hcl, ← hp]
        unfold modelLookup
        rcases hc with h1 | ⟨h1, h2⟩
        · rw [h1]
        · rw [h1, h2]
          rfl
      · rw [if_neg hp]
    unfold _calculate at h
    cases hg : gmGet model party with
    | none =>
      rw [hg] at h
      simp only [Option.some.injEq] at h
      rw [← h]
      exact hset [] _ (Or.inr ⟨hg, rfl⟩)
    | some categories =>
      rw [hg] at h
      dsimp only at h
      cases hg2 : gmGet categories r.Label with
      | none =>
        rw [hg2] at h
        simp only [Option.some.injEq] at h
        rw [← h]
        exact hset categories _ (Or.inl hg)
      | some features =>
        rw [hg2] at h
        dsimp only at h
        cases features with
        | nil => simp at h
        | cons lastFeature tail =>
          dsimp only at h
          cases hmo : lastFeature.Months with
          | nil => rw [hmo] at h; simp at h
          | cons lastMonth ms =>
            rw [hmo] at h
            dsimp only at h
            split_ifs at h with hadj hsame
            · generalize ({ lastFeature with Months := nextMonth :: lastMonth :: ms } :
                feature).Update r = res at h
              obtain ⟨updated, err⟩ := res
              cases err with
              | some e =>
                simp only [Option.some.injEq] at h
                rw [← h]
              | none =>
                simp only [Option.some.injEq] at h
                rw [← h]
                exact hset categories _ (Or.inl hg)
            · generalize lastFeature.Update r = res at h
              obtain ⟨updated, err⟩ := res
              cases err with
              | some e =>
                simp only [Option.some.injEq] at h
                rw [← h]
              | none =>
                simp only [Option.some.injEq] at h
                rw [← h]
                exact hset categories _ (Or.inl hg)
            · simp only [Option.some.injEq] at h
              rw [← h]
              exact hset categories _ (Or.inl hg)
  · intro hnone
    unfold modelLookup at hnone
    unfold _calculate
    cases hg : gmGet model party with
    | none =>
      refine ⟨_, rfl, ?_⟩
      rw [modelLookup_set, if_pos rfl, if_pos rfl]
    | some categories =>
      rw [hg] at hnone
      dsimp only at hnone ⊢
      rw [hnone]
      refine ⟨_, rfl, ?_⟩
      rw [modelLookup_set, if_pos rfl, if_pos rfl]
  · intro F tail lastMonth ms hlook hmo
    unfold modelLookup at hlook
    unfold _calculate
    cases hg : gmGet model party with
    | none => rw [hg] at hlook; simp at hlook
    | some categories =>
      rw [hg] at hlook
      dsimp only at hlook ⊢
      rw [hlook]
      dsimp only
      rw [hmo]
      dsimp only
      by_cases hcat : F.Category = r.Label
      · have hu1 := update_keeps_key F r ⟨by rw [hmo]; simp, hcat⟩
        have hu2 := update_keeps_key ({ F with Months := nextMonth :: F.Months } : feature) r
          ⟨by simp, hcat⟩
        rw [hmo] at hu2
        by_cases hadj : lastMonth + 1 = nextMonth ∨ (lastMonth = 12 ∧ nextMonth = 1)
        · rw [if_pos hadj]
          obtain ⟨e1, e2, _⟩ := hu2
          generalize hres : ({ F with Months := nextMonth :: lastMonth :: ms } :
            feature).Update r = res at e1 e2
          obtain ⟨updated, err⟩ := res
          dsimp only at e1 e2
          subst e1
          refine ⟨_, rfl, ?_, fun hn => absurd hadj hn, fun hn => absurd hadj hn⟩
          intro _
          refine ⟨fun _ => ⟨rfl, e2, ?_⟩, fun hn => absurd hcat hn⟩
          rw [modelLookup_set, if_pos rfl, if_pos rfl]
        · rw [if_neg hadj]
          by_cases hsame : r.Date.Month = lastMonth
          · rw [if_pos hsame]
            obtain ⟨e1, e2, _⟩ := hu1
            generalize hres : F.Update r = res at e1 e2
            obtain ⟨updated, err⟩ := res
            dsimp only at e1 e2
            subst e1
            refine ⟨_, rfl, fun h => absurd h hadj, ?_, fun _ hn => absurd hsame hn⟩
            intro _ _
            refine ⟨fun _ => ⟨rfl, e2.trans hmo, ?_⟩, fun hn => absurd hcat hn⟩
            rw [modelLookup_set, if_pos rfl, if_pos rfl]
          · rw [if_neg hsame]
            refine ⟨_, rfl, fun h => absurd h hadj, fun _ h => absurd h hsame, ?_⟩
            intro _ _
            rw [modelLookup_set, if_pos rfl, if_pos rfl]
      · by_cases hadj : lastMonth + 1 = nextMonth ∨ (lastMonth = 12 ∧ nextMonth = 1)
        · rw [if_pos hadj]
          obtain ⟨e, he⟩ := herr ({ F with Months := nextMonth :: lastMonth :: ms } : feature)
            hcat
          rw [he]
          refine ⟨model, rfl, ?_, fun hn => absurd hadj hn, fun hn => absurd hadj hn⟩
          intro _
          exact ⟨fun h => absurd h hcat, fun _ => rfl⟩
        · rw [if_neg hadj]
          by_cases hsame : r.Date.Month = lastMonth
          · rw [if_pos hsame]
            obtain ⟨e, he⟩ := herr F hcat
            rw [he]
            refine ⟨model, rfl, fun h => absurd h hadj, ?_, fun _ hn => absurd hsame hn⟩
            intro _ _
            exact ⟨fun h => absurd h hcat, fun _ => rfl⟩
          · rw [if_neg hsame]
            refine ⟨_, rfl, fun h => absurd h hadj, fun _ h => absurd h hsame, ?_⟩
            intro _ _
            rw [modelLookup_set, if_pos rfl, if_pos rfl]

/-- C21 (witness): in an empty model the list of the record becomes its feature; in a model
whose list under the party and label of the record has the head of months `[2]` and of the
category of the record, the next month 3 is prepended and the record is folded into the
head; in a model whose head carries another category than the label of the record, the same
call leaves the model as it is. -/
theorem calculate_update_rule_witness :
    (∃ model', _calculate [] "sender=Actor #1 receiver=Actor #2" 3 zeroAmountRecord
        = some model' ∧
      modelLookup model' "sender=Actor #1 receiver=Actor #2" "Label #1.2"
        = some [zeroAmountRecord.ToFeature]) ∧
    (∃ model', _calculate keyedModel "sender=Actor #1 receiver=Actor #2" 3 zeroAmountRecord
        = some model' ∧
      modelLookup model' "sender=Actor #1 receiver=Actor #2" "Label #1.2"
        = some [{ Category := "Label #1.2", Polarity := (1, 2), Amounts := [0, 930, 2410],
                  Weekdays := [3, 4], Months := [3, 2], Days := [5, 6] }]) ∧
    (∃ model', _calculate mismatchedModel "sender=Actor #1 receiver=Actor #2" 3
        { zeroAmountRecord with Label := "Label #1.1" } = some model' ∧
      model' = mismatchedModel) := by
  refine ⟨?_, ?_, ?_⟩
  · exact (calculate_update_rule [] "sender=Actor #1 receiver=Actor #2" 3
      zeroAmountRecord).2.1 rfl
  · obtain ⟨model', h1, h2, _, _⟩ :=
      (calculate_update_rule keyedModel "sender=Actor #1 receiver=Actor #2" 3
        zeroAmountRecord).2.2.1 predictionFeature [] 2 [] rfl rfl
    exact ⟨model', h1, (((h2 (Or.inl rfl)).1 rfl).2.2).trans (by decide)⟩
  · obtain ⟨model', h1, h2, _, _⟩ :=
      (calculate_update_rule mismatchedModel "sender=Actor #1 receiver=Actor #2" 3
        { zeroAmountRecord with Label := "Label #1.1" }).2.2.1 predictionFeature [] 2 []
        rfl rfl
    exact ⟨model', h1, (h2 (Or.inl rfl)).2 (by decide)⟩

theorem computeLoop_keyed (R : List record) :
    ∀ (i : Nat) (model : routines), i + 1 ≤ R.length ∨ i = 0 → modelKeyed model →
      ∃ model', computeLoop R i model = some model' ∧ modelKeyed model' := by
  intro i
  induction i with
  | zero => intro model _ hm; exact ⟨model, rfl, hm⟩
  | succ i ih =>
    intro model hi hm
    have hlt : i + 1 < R.length := by omega
    have hlt' : i < R.length := by omega
    have h1 : R[i + 1]? = some R[i + 1] := List.getElem?_eq_getElem hlt
    have h0 : R[i]? = some R[i] := List.getElem?_eq_getElem hlt'
    simp only [computeLoop, h1, h0]
    by_cases hlab : R[i + 1].Label ≠ UNNAMED_ENTRY
    · rw [if_pos hlab]
      obtain ⟨m1, hc, hm1, _⟩ :=
        calculate_keyed model R[i + 1].Party R[i].Date.Month R[i + 1] hm
      rw [hc]
      exact ih m1 (Or.inl (by omega)) hm1
    · rw [if_neg hlab]
      exact ih model (Or.inl (by omega)) hm

theorem computeLoop_state (R : List record) :
    ∀ k : Nat, k ≤ R.length - 1 →
      ∃ model, modelKeyed model ∧
        computeLoop R (R.length - 1) [] = computeLoop R (R.length - 1 - k) model := by
  intro k
  induction k with
  | zero =>
    intro _
    exact ⟨[], by intro e he; simp at he, rfl⟩
  | succ k ih =>
    intro hk
    obtain ⟨model, hm, heq⟩ := ih (by omega)
    obtain ⟨j, hj⟩ : ∃ j, R.length - 1 - k = j + 1 := ⟨R.length - 1 - k - 1, by omega⟩
    have hj2 : R.length - 1 - (k + 1) = j := by omega
    rw [hj2]
    rw [hj] at heq
    have hlt : j + 1 < R.length := by omega
    have hlt' : j < R.length := by omega
    have h1 : R[j + 1]? = some R[j + 1] := List.getElem?_eq_getElem hlt
    have h0 : R[j]? = some R[j] := List.getElem?_eq_getElem hlt'
    simp only [computeLoop, h1, h0] at heq
    by_cases hlab : R[j + 1].Label ≠ UNNAMED_ENTRY
    · rw [if_pos hlab] at heq
      obtain ⟨m1, hc, hm1, _⟩ :=
        calculate_keyed model R[j + 1].Party R[j].Date.Month R[j + 1] hm
      rw [hc] at heq
      exact ⟨m1, hm1, heq⟩
    · rw [if_neg hlab] at heq
      exact ⟨model, hm, heq⟩

/-- C28: the empty model satisfies the invariant (every stored list is non-empty, every
stored feature has a month and carries the category under which it is stored); from a model
that satisfies it `_calculate` returns a model that satisfies it, and the head read by
`_calculate` has a first month and is updated without the category-mismatch error; so at
every value of the loop counter of `_compute` the model satisfies the invariant, and
`_compute` returns for every record list. -/
theorem compute_total :
    modelKeyed [] ∧
    (∀ (model : routines) (party : String) (nextMonth : Nat) (r : record),
      modelKeyed model →
      ∃ model', _calculate model party nextMonth r = some model' ∧ modelKeyed model' ∧
        ∀ F tail, modelLookup model party r.Label = some (F :: tail) →
          F.Months ≠ [] ∧ (F.Update r).2 = none ∧
            ∀ m, (({ F with Months := m :: F.Months } : feature).Update r).2 = none) ∧
    (∀ (R : List record) (i : Nat), i ≤ R.length - 1 →
      ∃ model, modelKeyed model ∧
        computeLoop R (R.length - 1) [] = computeLoop R i model) ∧
    (∀ R : List record,
      ∃ model T, computeLoop R (R.length - 1) [] = some model ∧ modelKeyed model ∧
        _compute R = some T) := by
  refine ⟨by intro e he; simp at he, calculate_keyed, ?_, ?_⟩
  · intro R i hi
    obtain ⟨model, hm, heq⟩ := computeLoop_state R (R.length - 1 - i) (by omega)
    have : R.length - 1 - (R.length - 1 - i) = i := by omega
    rw [this] at heq
    exact ⟨model, hm, heq⟩
  · intro R
    obtain ⟨model, hc, hm⟩ := computeLoop_keyed R (R.length - 1) [] (by omega)
      (by intro e he; simp at he)
    exact ⟨model, flatten model, hc, hm, by simp [_compute, hc]⟩

/-- C28 (witness): a call of `_calculate` on a model that satisfies the invariant, and the
tendency of the fixture of `TestPredictiveModel`. -/
theorem compute_total_witness :
    (∃ model', _calculate keyedModel "sender=Actor #1 receiver=Actor #2" 3 zeroAmountRecord
        = some model' ∧ modelKeyed model') ∧
      (predictionFeature.Update zeroAmountRecord).2 = none ∧
      ∃ T, _compute cateringFixture = some T := by
  have hk : modelKeyed keyedModel := by
    intro entry he category hc
    simp only [keyedModel, List.mem_singleton] at he
    subst he
    simp only [List.mem_singleton] at hc
    subst hc
    refine ⟨by simp, ?_⟩
    intro f hf
    simp only [List.mem_singleton] at hf
    subst hf
    decide
  obtain ⟨model', h1, h2, h3⟩ := compute_total.2.1 keyedModel
    "sender=Actor #1 receiver=Actor #2" 3 zeroAmountRecord hk
  obtain ⟨_, T, _, _, hT⟩ := compute_total.2.2.2 cateringFixture
  exact ⟨⟨model', h1, h2⟩, (h3 predictionFeature [] rfl).2.1, T, hT⟩

/-! ## Conservation of the amounts in the tendency -/

theorem gmSet_count {β : Type} (g : String → β → List Int) (a : Int)
    (m : List (String × β)) (k : String) (v : β) :
    List.count a ((gmSet m k v).flatMap (fun e => g e.1 e.2))
        + (gmGet m k).elim 0 (fun old => List.count a (g k old))
      = List.count a (g k v) + List.count a (m.flatMap (fun e => g e.1 e.2)) := by
  induction m with
  | nil => simp [gmSet, gmGet]
  | cons e rest ih =>
    obtain ⟨k0, v0⟩ := e
    simp only [gmSet, gmGet]
    by_cases h : k0 = k
    · rw [if_pos h, if_pos h]
      subst h
      simp only [List.flatMap_cons, List.count_append, Option.elim]
      omega
    · rw [if_neg h, if_neg h]
      simp only [List.flatMap_cons, List.count_append]
      omega

theorem catsAmounts_gmSet (sel : String → Bool) (a : Int)
    (categories : List (String × List feature)) (label : String) (fs : List feature) :
    List.count a (catsAmounts sel (gmSet categories label fs))
        + (gmGet categories label).elim 0
            (fun old => if sel label then List.count a (featureAmounts old) else 0)
      = (if sel label then List.count a (featureAmounts fs) else 0)
        + List.count a (catsAmounts sel categories) := by
  have h := gmSet_count (fun c fs => if sel c then featureAmounts fs else []) a categories
    label fs
  unfold catsAmounts
  cases hg : gmGet categories label with
  | none =>
    rw [hg] at h
    by_cases hs : sel label = true
    · simp only [hs, if_true, Option.elim] at h ⊢
      exact h
    · simp only [hs, if_false, List.count_nil, Option.elim] at h ⊢
      exact h
  | some old =>
    rw [hg] at h
    by_cases hs : sel label = true
    · simp only [hs, if_true, Option.elim] at h ⊢
      exact h
    · simp only [hs, if_false, List.count_nil, Option.elim] at h ⊢
      exact h

theorem modelAmounts_gmSet (sel : String → String → Bool) (a : Int) (model : routines)
    (party : String) (categories : List (String × List feature)) :
    List.count a (modelAmounts sel (gmSet model party categories))
        + (gmGet model party).elim 0 (fun old => List.count a (catsAmounts (sel party) old))
      = List.count a (catsAmounts (sel party) categories)
        + List.count a (modelAmounts sel model) :=
  gmSet_count (fun p cats => catsAmounts (sel p) cats) a model party categories

theorem calculate_set_amounts (sel : String → String → Bool) (a : Int) (model : routines)
    (party label : String) (categories : List (String × List feature))
    (fs : List feature) (n : Nat)
    (hcats : gmGet model party = some categories ∨
      (gmGet model party = none ∧ categories = []))
    (hfs : (if sel party label then List.count a (featureAmounts fs) else 0)
      = n + (gmGet categories label).elim 0
          (fun old => if sel party label then List.count a (featureAmounts old) else 0)) :
    List.count a (modelAmounts sel (gmSet model party (gmSet categories label fs)))
      = n + List.count a (modelAmounts sel model) := by
  have h1 := catsAmounts_gmSet (sel party) a categories label fs
  have h2 := modelAmounts_gmSet sel a model party (gmSet categories label fs)
  rcases hcats with hc | ⟨hc, hnil⟩
  · rw [hc] at h2
    simp only [Option.elim] at h2
    omega
  · rw [hc] at h2
    subst hnil
    simp only [Option.elim] at h2
    simp only [gmGet, catsAmounts, List.flatMap_nil, List.count_nil, Option.elim] at h1 hfs
    simp only [catsAmounts] at h2 ⊢
    omega

theorem update_amounts_perm (f : feature) (r : record) (h : r.Label = f.Category) :
    (f.Update r).1.Amounts.Perm (absValue r.Amount :: f.Amounts) := by
  unfold feature.Update
  rw [if_neg (not_not.mpr h)]
  exact (List.perm_insertionSort _ _).trans (List.perm_append_singleton _ _)

theorem featureAmounts_cons (F : feature) (tail : List feature) :
    featureAmounts (F :: tail) = F.Amounts ++ featureAmounts tail := by
  simp [featureAmounts]

theorem calculate_amounts (sel : String → String → Bool) (a : Int) (model : routines)
    (party : String) (nextMonth : Nat) (r : record) (hm : modelKeyed model)
    (model' : routines) (h : _calculate model party nextMonth r = some model') :
    List.count a (modelAmounts sel model')
      = (if sel party r.Label then List.count a [absValue r.Amount] else 0)
        + List.count a (modelAmounts sel model) := by
  have htf : featureAmounts [r.ToFeature] = [absValue r.Amount] := by
    simp [featureAmounts, record.ToFeature]
  unfold _calculate at h
  cases hg : gmGet model party with
  | none =>
    rw [hg] at h
    simp only [Option.some.injEq] at h
    rw [← h]
    apply calculate_set_amounts sel a model party r.Label [] _ _ (Or.inr ⟨hg, rfl⟩)
    simp only [htf, gmGet, Option.elim, add_zero]
  | some categories =>
    rw [hg] at h
    dsimp only at h
    have hcats : catsKeyed categories := hm _ (gmGet_mem model party categories hg)
    cases hg2 : gmGet categories r.Label with
    | none =>
      rw [hg2] at h
      simp only [Option.some.injEq] at h
      rw [← h]
      apply calculate_set_amounts sel a model party r.Label categories _ _ (Or.inl hg)
      simp only [htf, hg2, Option.elim, add_zero]
    | some features =>
      rw [hg2] at h
      dsimp only at h
      obtain ⟨hfne, hfs⟩ := hcats _ (gmGet_mem categories r.Label features hg2)
      cases features with
      | nil => exact absurd rfl hfne
      | cons lastFeature tail =>
        dsimp only at h
        have hPl := hfs lastFeature (List.mem_cons_self _ _)
        dsimp only at hPl
        have hkey : ∀ fs' : List feature,
            List.count a (featureAmounts fs')
              = List.count a [absValue r.Amount]
                + List.count a (featureAmounts (lastFeature :: tail)) →
            List.count a (modelAmounts sel
                (gmSet model party (gmSet categories r.Label fs')))
              = (if sel party r.Label then List.count a [absValue r.Amount] else 0)
                + List.count a (modelAmounts sel model) := by
          intro fs' hcount
          apply calculate_set_amounts sel a model party r.Label categories _ _ (Or.inl hg)
          simp only [hg2, Option.elim]
          split_ifs
          · exact hcount
          · rfl
        cases hmo : lastFeature.Months with
        | nil => exact absurd hmo hPl.1
        | cons lastMonth ms =>
          rw [hmo] at h
          dsimp only at h
          split_ifs at h with hadj hsame
          · have hu := update_keeps_key
              ({ lastFeature with Months := nextMonth :: lastFeature.Months } : feature) r
              ⟨by simp, hPl.2⟩
            have hp := update_amounts_perm
              ({ lastFeature with Months := nextMonth :: lastFeature.Months } : feature) r
              hPl.2.symm
            rw [hmo] at hu hp
            generalize ({ lastFeature with Months := nextMonth :: lastMonth :: ms } :
              feature).Update r = res at h hu hp
            obtain ⟨updated, err⟩ := res
            dsimp only at hu hp
            obtain ⟨e1, _, _⟩ := hu
            subst e1
            simp only [Option.some.injEq] at h
            rw [← h]
            apply hkey
            rw [featureAmounts_cons, featureAmounts_cons, List.count_append, List.count_append,
              hp.count_eq, List.count_cons, List.count_cons, List.count_nil]
            omega
          · have hu := update_keeps_key lastFeature r hPl
            have hp := update_amounts_perm lastFeature r hPl.2.symm
            generalize lastFeature.Update r = res at h hu hp
            obtain ⟨updated, err⟩ := res
            dsimp only at hu hp
            obtain ⟨e1, _, _⟩ := hu
            subst e1
            simp only [Option.some.injEq] at h
            rw [← h]
            apply hkey
            rw [featureAmounts_cons, featureAmounts_cons, List.count_append, List.count_append,
              hp.count_eq, List.count_cons, List.count_cons, List.count_nil]
            omega
          · simp only [Option.some.injEq] at h
            rw [← h]
            apply hkey
            rw [featureAmounts_cons, List.count_append]
            simp [record.ToFeature]

theorem computeLoop_amounts (sel : String → String → Bool) (a : Int) (R : List record) :
    ∀ (i : Nat) (model model' : routines), i + 1 ≤ R.length ∨ i = 0 → modelKeyed model →
      computeLoop R i model = some model' →
      List.count a (modelAmounts sel model')
        = List.count a
            ((((R.take (i + 1)).drop 1).filter
              (fun r => decide (r.Label ≠ UNNAMED_ENTRY) && sel r.Party r.Label)).map
              (fun r => absValue r.Amount))
          + List.count a (modelAmounts sel model) := by
  intro i
  induction i with
  | zero =>
    intro model model' _ _ h
    simp only [computeLoop, Option.some.injEq] at h
    rw [← h]
    have : (R.take (0 + 1)).drop 1 = [] := by
      cases R <;> simp
    rw [this]
    simp
  | succ i ih =>
    intro model model' hi hm h
    have hlt : i + 1 < R.length := by omega
    have hlt' : i < R.length := by omega
    have h1 : R[i + 1]? = some R[i + 1] := List.getElem?_eq_getElem hlt
    have h0 : R[i]? = some R[i] := List.getElem?_eq_getElem hlt'
    have htake : (R.take (i + 1 + 1)).drop 1 = (R.take (i + 1)).drop 1 ++ [R[i + 1]] := by
      rw [List.take_succ, h1]
      simp only [Option.toList]
      rw [List.drop_append_of_le_length]
      rw [List.length_take]
      omega
    rw [htake, List.filter_append, List.map_append, List.count_append]
    simp only [computeLoop, h1, h0] at h
    by_cases hlab : R[i + 1].Label ≠ UNNAMED_ENTRY
    · rw [if_pos hlab] at h
      obtain ⟨m1, hc, hm1, _⟩ :=
        calculate_keyed model R[i + 1].Party R[i].Date.Month R[i + 1] hm
      rw [hc] at h
      dsimp only at h
      have hstep := calculate_amounts sel a model R[i + 1].Party R[i].Date.Month R[i + 1] hm
        m1 hc
      have hrest := ih m1 model' (Or.inl (by omega)) hm1 h
      rw [hrest, hstep]
      by_cases hs : sel R[i + 1].Party R[i + 1].Label = true
      · have hf : [R[i + 1]].filter
            (fun r => decide (r.Label ≠ UNNAMED_ENTRY) && sel r.Party r.Label)
            = [R[i + 1]] := by
          simp [hlab, hs]
        rw [hf, if_pos hs, List.map_cons, List.map_nil]
        omega
      · have hf : [R[i + 1]].filter
            (fun r => decide (r.Label ≠ UNNAMED_ENTRY) && sel r.Party r.Label) = [] := by
          simp [hs]
        rw [hf, if_neg hs, List.map_nil, List.count_nil]
        omega
    · rw [if_neg hlab] at h
      have hrest := ih model model' (Or.inl (by omega)) hm h
      have hf : [R[i + 1]].filter
          (fun r => decide (r.Label ≠ UNNAMED_ENTRY) && sel r.Party r.Label) = [] := by
        simp [not_not.mp hlab]
      rw [hrest, hf, List.map_nil, List.count_nil]
      omega

theorem foldl_append_flatMap (categories : List (String × List feature)) :
    ∀ init : List feature,
      categories.foldl (fun conclusion category => conclusion ++ category.2) init
        = init ++ categories.flatMap (fun category => category.2) := by
  induction categories with
  | nil => intro init; simp
  | cons c rest ih =>
    intro init
    simp only [List.foldl_cons, List.flatMap_cons]
    rw [ih, List.append_assoc]

theorem featureAmounts_append (xs ys : List feature) :
    featureAmounts (xs ++ ys) = featureAmounts xs ++ featureAmounts ys := by
  simp [featureAmounts]

theorem catsAmounts_flatten (sel : String → Bool)
    (categories : List (String × List feature)) (h : catsKeyed categories) :
    featureAmounts ((categories.flatMap (fun category => category.2)).filter
        (fun F => sel F.Category))
      = catsAmounts sel categories := by
  induction categories with
  | nil => simp [featureAmounts, catsAmounts]
  | cons c rest ih =>
    have hrest : catsKeyed rest := fun x hx => h x (List.mem_cons_of_mem _ hx)
    have hc := (h c (List.mem_cons_self _ _)).2
    simp only [List.flatMap_cons, List.filter_append, featureAmounts_append, ih hrest,
      catsAmounts]
    congr 1
    by_cases hs : sel c.1 = true
    · rw [if_pos hs]
      congr 1
      rw [List.filter_eq_self]
      intro F hF
      rw [(hc F hF).2]
      exact hs
    · rw [if_neg hs]
      have : c.2.filter (fun F => sel F.Category) = [] := by
        rw [List.filter_eq_nil_iff]
        intro F hF
        rw [(hc F hF).2]
        exact hs
      rw [this]
      rfl

theorem tendencyAmounts_flatten (sel : String → String → Bool) (model : routines)
    (h : modelKeyed model) : tendencyAmounts sel (flatten model) = modelAmounts sel model := by
  induction model with
  | nil => rfl
  | cons e rest ih =>
    have hrest : modelKeyed rest := fun x hx => h x (List.mem_cons_of_mem _ hx)
    have he := h e (List.mem_cons_self _ _)
    have ih' := ih hrest
    unfold tendencyAmounts flatten modelAmounts at ih' ⊢
    simp only [List.map_cons, List.flatMap_cons, ih']
    congr 1
    rw [foldl_append_flatMap, List.nil_append]
    exact catsAmounts_flatten (sel e.1) e.2 he

theorem featureAmounts_length (fs : List feature) :
    (featureAmounts fs).length = (fs.map (fun F => F.Amounts.length)).sum := by
  induction fs with
  | nil => rfl
  | cons F rest ih =>
    rw [featureAmounts_cons, List.length_append, ih]
    simp

theorem tendencyAmounts_all (T : tendency) :
    tendencyAmounts (fun _ _ => true) T
      = featureAmounts (T.flatMap (fun entry => entry.2)) := by
  induction T with
  | nil => rfl
  | cons e rest ih =>
    unfold tendencyAmounts at ih ⊢
    simp only [List.flatMap_cons, featureAmounts_append, ih]
    congr 1
    rw [List.filter_eq_self.mpr (fun _ _ => rfl)]

/-- C29 (counterexample): for two records the second of which has the amount `-2^63`, the
only feature amount of the tendency is `-2^63`, the negation of which wraps around in
`int64`, and not the absolute value `2^63` of that record. -/
theorem compute_abs_counterexample :
    (_compute [zeroAmountRecord, leastAmountRecord]).map
        (fun T => featureAmounts (T.flatMap (fun entry => entry.2)))
      = some [-9223372036854775808] ∧
    (namedRecords [zeroAmountRecord, leastAmountRecord]).map (fun r => |r.Amount|)
      = [9223372036854775808] := by
  have habs : |leastAmountRecord.Amount| = 9223372036854775808 := by
    rw [abs_of_neg (by decide)]
    decide
  have hn : namedRecords [zeroAmountRecord, leastAmountRecord] = [leastAmountRecord] := by
    decide
  refine ⟨by decide, ?_⟩
  rw [hn, List.map_cons, List.map_nil, habs]

/-- C29 (amended): `_compute` returns for every record list `R`, and for every choice of
parties and categories the amounts of the features of the result with such a party and
category are, as a multiset, the absolute values computed for the amounts of the records at
an index from 1 on whose label is not `?` and which have such a party and label: each of
those records adds one amount to the features of its own party and label and to no other.
So the sum of the numbers of amounts of all features is the number of those records, and
when none of those records has the amount `-2^63`, the amounts of all features are, as a
multiset, the absolute values of the amounts of those records. -/
theorem compute_conservation (R : List record) :
    ∃ T, _compute R = some T ∧
      (∀ sel : String → String → Bool,
        (tendencyAmounts sel T).Perm
          (((namedRecords R).filter (fun r => sel r.Party r.Label)).map
            (fun r => absValue r.Amount))) ∧
      (featureAmounts (T.flatMap (fun entry => entry.2))).Perm
        ((namedRecords R).map (fun r => absValue r.Amount)) ∧
      ((T.flatMap (fun entry => entry.2)).map (fun F => F.Amounts.length)).sum
        = (namedRecords R).length ∧
      ((∀ r ∈ namedRecords R, -9223372036854775808 < r.Amount) →
        (featureAmounts (T.flatMap (fun entry => entry.2))).Perm
          ((namedRecords R).map (fun r => |r.Amount|))) := by
  obtain ⟨model, hc, hm⟩ := computeLoop_keyed R (R.length - 1) [] (by omega)
    (by intro e he; simp at he)
  have hT : _compute R = some (flatten model) := by simp [_compute, hc]
  have hsel : ∀ sel : String → String → Bool,
      (tendencyAmounts sel (flatten model)).Perm
        (((namedRecords R).filter (fun r => sel r.Party r.Label)).map
          (fun r => absValue r.Amount)) := by
    intro sel
    rw [List.perm_iff_count]
    intro a
    rw [tendencyAmounts_flatten sel model hm,
      computeLoop_amounts sel a R (R.length - 1) [] model (by omega)
        (by intro e he; simp at he) hc]
    have htake : (R.take (R.length - 1 + 1)).drop 1 = R.drop 1 := by
      cases R with
      | nil => rfl
      | cons x xs => simp
    rw [htake]
    unfold namedRecords
    rw [List.filter_filter]
    simp only [modelAmounts, List.flatMap_nil, List.count_nil, add_zero]
    congr 3
    funext r
    rw [Bool.and_comm]
  have hall := hsel (fun _ _ => true)
  rw [tendencyAmounts_all, List.filter_eq_self.mpr (fun _ _ => rfl)] at hall
  refine ⟨flatten model, hT, hsel, hall, ?_, ?_⟩
  · rw [← featureAmounts_length, hall.length_eq, List.length_map]
  · intro habs
    have hmap : (namedRecords R).map (fun r => absValue r.Amount)
        = (namedRecords R).map (fun r => |r.Amount|) :=
      List.map_congr_left (fun r hr => absValue_eq_abs r.Amount (habs r hr))
    rw [← hmap]
    exact hall

/-- C29 (witness): the four records of the `test-signature` fixture at the indices from 1
on, none of which has the amount `-2^63`, give four amounts in all, and the features of the
party of Actor #1 and Actor #2 with category `Label #1.2` hold the amounts 930 and 2410. -/
theorem compute_conservation_witness :
    ∃ T, _compute signatureFixture = some T ∧
      (featureAmounts (T.flatMap (fun entry => entry.2))).Perm [930, 1500, 3822, 2410] ∧
      ((T.flatMap (fun entry => entry.2)).map (fun F => F.Amounts.length)).sum = 4 ∧
      (tendencyAmounts
        (fun party label =>
          decide (party = "sender=Actor #1 receiver=Actor #2") && decide (label = "Label #1.2"))
        T).Perm [930, 2410] ∧
      (featureAmounts (T.flatMap (fun entry => entry.2))).Perm
        ((namedRecords signatureFixture).map (fun r => |r.Amount|)) := by
  obtain ⟨T, hT, hsel, hall, hsum, habs⟩ := compute_conservation signatureFixture
  have h1 : (namedRecords signatureFixture).map (fun r => absValue r.Amount)
      = [930, 1500, 3822, 2410] := by decide
  have h2 : (namedRecords signatureFixture).length = 4 := by decide
  have h3 : ((namedRecords signatureFixture).filter
      (fun r => decide (r.Party = "sender=Actor #1 receiver=Actor #2") &&
        decide (r.Label = "Label #1.2"))).map (fun r => absValue r.Amount)
      = [930, 2410] := by decide
  exact ⟨T, hT, h1 ▸ hall, h2 ▸ hsum, h3 ▸ hsel _, habs (by decide)⟩

/-! ## The point bus of a feature -/

theorem total_bits (b0 b1 b2 b3 b4 : Bool) :
    _total [if b0 then 1 else 0, if b1 then 1 else 0, if b2 then 1 else 0,
        if b3 then 1 else 0, if b4 then 1 else 0, 0]
      = (if b0 then 1 else 0) + (if b1 then 1 else 0) + (if b2 then 1 else 0)
        + (if b3 then 1 else 0) + (if b4 then 1 else 0) := by
  cases b0 <;> cases b1 <;> cases b2 <;> cases b3 <;> cases b4 <;> decide

theorem tdiv_two_isInt64 (x : Int) (hx : isInt64 x) : isInt64 (Int.tdiv x 2) := by
  unfold isInt64 at hx ⊢
  by_cases h0 : 0 ≤ x
  · rw [Int.tdiv_eq_ediv h0 (by decide)]
    omega
  · have h1 : (-x).tdiv 2 = -(x.tdiv 2) := Int.neg_tdiv x 2
    have h2 : (-x).tdiv 2 = (-x) / 2 := Int.tdiv_eq_ediv (by omega) (by decide)
    omega

theorem featurePoints_shape (F : feature) (c : record) (p : pointbus)
    (h : featurePoints F c = some (some p)) :
    ((p.s0 = 0 ∨ p.s0 = 1) ∧ (p.s1 = 0 ∨ p.s1 = 1) ∧ (p.s2 = 0 ∨ p.s2 = 1) ∧
      (p.s3 = 0 ∨ p.s3 = 1) ∧ (p.s4 = 0 ∨ p.s4 = 1)) ∧
    (p.s0 = 0 ∨ p.s1 = 0) ∧
    1 ≤ p.s0 + p.s1 + p.s2 + p.s3 + p.s4 ∧
    p.s5 = Int.tdiv (wrap64 (F.Polarity.1 + F.Polarity.2)) 2 ∧
    isInt64 p.s5 := by
  have hin : isInt64 (Int.tdiv (wrap64 (F.Polarity.1 + F.Polarity.2)) 2) :=
    tdiv_two_isInt64 _ (wrap64_isInt64 _)
  have hs5 : wrap64 (0 + Int.tdiv (wrap64 (F.Polarity.1 + F.Polarity.2)) 2)
      = Int.tdiv (wrap64 (F.Polarity.1 + F.Polarity.2)) 2 := by
    rw [zero_add]
    exact wrap64_of_isInt64 hin
  have key : ∀ (b0 b1 b2 b3 b4 : Bool), (b0 = false ∨ b1 = false) →
      (if _total (pointbus.mk (if b0 then 1 else 0) (if b1 then 1 else 0)
            (if b2 then 1 else 0) (if b3 then 1 else 0) (if b4 then 1 else 0) 0).toList = 0
        then some none
        else some (some (pointbus.mk (if b0 then 1 else 0) (if b1 then 1 else 0)
            (if b2 then 1 else 0) (if b3 then 1 else 0) (if b4 then 1 else 0)
            (wrap64 (0 + Int.tdiv (wrap64 (F.Polarity.1 + F.Polarity.2)) 2)))))
        = some (some p) →
      ((p.s0 = 0 ∨ p.s0 = 1) ∧ (p.s1 = 0 ∨ p.s1 = 1) ∧ (p.s2 = 0 ∨ p.s2 = 1) ∧
        (p.s3 = 0 ∨ p.s3 = 1) ∧ (p.s4 = 0 ∨ p.s4 = 1)) ∧
      (p.s0 = 0 ∨ p.s1 = 0) ∧
      1 ≤ p.s0 + p.s1 + p.s2 + p.s3 + p.s4 ∧
      p.s5 = Int.tdiv (wrap64 (F.Polarity.1 + F.Polarity.2)) 2 ∧
      isInt64 p.s5 := by
    intro b0 b1 b2 b3 b4 hb hp
    cases b0 <;> cases b1 <;> cases b2 <;> cases b3 <;> cases b4 <;>
      first
      | (rw [if_pos (by decide)] at hp
         exact absurd hp (by simp))
      | (rw [if_neg (by decide)] at hp
         simp only [Option.some.injEq] at hp
         subst hp
         first
         | (rcases hb with hb | hb <;> cases hb <;> done)
         | exact ⟨by simp, by simp, by simp, hs5, by dsimp only; rw [hs5]; exact hin⟩)
  unfold featurePoints at h
  by_cases h0 : F.Amounts.length = 0
  · rw [if_pos h0] at h
    simp at h
  · rw [if_neg h0] at h
    by_cases hg : (F.Polarity.1 = 0 ∧ c.Amount > 0) ∨ (F.Polarity.2 = 0 ∧ c.Amount < 0)
    · rw [if_pos hg] at h
      simp at h
    · rw [if_neg hg] at h
      by_cases h1 : F.Amounts.length > 1
      · simp only [h1, if_true] at h
        cases hd : _isBetweenAmountDeviation F.Amounts (absValue c.Amount) with
        | none => rw [hd] at h; simp at h
        | some hit =>
          rw [hd] at h
          dsimp only at h
          have := key hit false (F.HasMonth c.Date.Month) (F.HasWeekday c.Date.Weekday)
            (F.HasDay c.Date.Day) (Or.inr rfl)
          simp only [Bool.false_eq_true, if_false] at this
          exact this h
      · simp only [h1, if_false] at h
        cases hd : F.Amounts[0]? with
        | none => rw [hd] at h; simp at h
        | some amount =>
          rw [hd] at h
          dsimp only at h
          have := key false (_isBetweenAmountAprox amount (absValue c.Amount))
            (F.HasMonth c.Date.Month) (F.HasWeekday c.Date.Weekday) (F.HasDay c.Date.Day)
            (Or.inl rfl)
          simp only [Bool.false_eq_true, if_false] at this
          exact this h

theorem wrap64_add_wrap64 (x y : Int) : wrap64 (x + wrap64 y) = wrap64 (y + x) := by
  unfold wrap64
  omega

theorem contributions_append (pre post : List feature) (c : record) (cat : String) :
    contributions (pre ++ post) c cat = contributions pre c cat ++ contributions post c cat := by
  simp [contributions, List.filterMap_append]

theorem contributions_single (F : feature) (c : record) (cat : String) :
    contributions [F] c cat
      = if F.Category = cat then
          (match featurePoints F c with
            | some (some p) => [p]
            | _ => [])
        else [] := by
  unfold contributions
  by_cases h : F.Category = cat
  · simp only [List.filterMap_cons, List.filterMap_nil, h, if_true]
    cases featurePoints F c with
    | none => rfl
    | some o =>
      cases o with
      | none => rfl
      | some p => rfl
  · simp only [List.filterMap_cons, List.filterMap_nil, h, if_false]

theorem busSum_append_single (cs : List pointbus) (p : pointbus) :
    busSum (cs ++ [p])
      = { s0 := (busSum cs).s0 + p.s0, s1 := (busSum cs).s1 + p.s1,
          s2 := (busSum cs).s2 + p.s2, s3 := (busSum cs).s3 + p.s3,
          s4 := (busSum cs).s4 + p.s4, s5 := (busSum cs).s5 + p.s5 } := by
  simp [busSum]

theorem scoreLoop_accumulate (c : record) (post : List feature) :
    ∀ (pre : List feature) (score score' : List (String × pointbus)),
      (∀ cat, gmGet score cat = (calculatedStated pre c cat).map wrapBus) →
      scoreLoop c post score = some score' →
      ∀ cat, gmGet score' cat = (calculatedStated (pre ++ post) c cat).map wrapBus := by
  induction post with
  | nil =>
    intro pre score score' hinv h cat
    simp only [scoreLoop, Option.some.injEq] at h
    rw [← h, List.append_nil]
    exact hinv cat
  | cons F rest ih =>
    intro pre score score' hinv h cat
    have happ : pre ++ F :: rest = (pre ++ [F]) ++ rest := by simp
    rw [happ]
    simp only [scoreLoop] at h
    cases hfp : featurePoints F c with
    | none => rw [hfp] at h; simp at h
    | some o =>
      rw [hfp] at h
      cases o with
      | none =>
        dsimp only at h
        refine ih (pre ++ [F]) score score' ?_ h cat
        intro cat'
        rw [hinv cat']
        unfold calculatedStated
        rw [contributions_append, contributions_single, hfp]
        simp
      | some p =>
        dsimp only at h
        refine ih (pre ++ [F]) _ score' ?_ h cat
        intro cat'
        obtain ⟨⟨b0, b1, b2, b3, b4⟩, _, _, _, hin5⟩ := featurePoints_shape F c p hfp
        have hwp : wrapBus (busSum [p]) = p := by
          have hw : ∀ x : Int, (x = 0 ∨ x = 1) → wrap64 x = x := by
            intro x hx
            rcases hx with hx | hx <;> rw [hx] <;> decide
          simp only [wrapBus, busSum, List.map_cons, List.map_nil, List.sum_cons,
            List.sum_nil, add_zero, hw _ b0, hw _ b1, hw _ b2, hw _ b3, hw _ b4,
            wrap64_of_isInt64 hin5]
        unfold calculatedStated
        rw [contributions_append, contributions_single, hfp]
        unfold scoreStep
        by_cases hcat : F.Category = cat'
        · rw [if_pos hcat]
          dsimp only
          have hne : contributions pre c cat' ++ [p] ≠ [] := by simp
          rw [if_neg hne]
          have hpre := hinv cat'
          unfold calculatedStated at hpre
          rw [← hcat] at hpre ⊢
          by_cases hnil : contributions pre c F.Category = []
          · rw [if_pos hnil] at hpre
            simp only [Option.map_none'] at hpre
            rw [hpre, hnil]
            dsimp only
            rw [gmGet_gmSet, if_pos rfl, List.nil_append, Option.map_some', hwp]
          · rw [if_neg hnil] at hpre
            simp only [Option.map_some'] at hpre
            rw [hpre]
            dsimp only
            rw [gmGet_gmSet, if_pos rfl, Option.map_some', busSum_append_single]
            simp only [pointbus.add, wrapBus, wrap64_add_wrap64]
        · rw [if_neg hcat, List.append_nil]
          have hpre := hinv cat'
          unfold calculatedStated at hpre
          cases hg : gmGet score F.Category with
          | none =>
            dsimp only
            rw [gmGet_gmSet, if_neg hcat]
            exact hpre
          | some acc =>
            dsimp only
            rw [gmGet_gmSet, if_neg hcat]
            exact hpre

theorem researchStep_calculated (memory : List (String × results)) (reg : List Transaction)
    (signature : String) (c : record) (st : statement)
    (hst : researchStep memory reg signature c = some st) :
    (gmGet memory signature = none → st.Calculated = []) ∧
    (∀ rs, gmGet memory signature = some rs → gmGet rs.patterns c.Party = none →
      st.Calculated = []) ∧
    (∀ rs features, gmGet memory signature = some rs →
      gmGet rs.patterns c.Party = some features →
      scoreLoop c features [] = some st.Calculated) := by
  unfold researchStep at hst
  cases hsim : similarityLoop c reg [] with
  | none => rw [hsim] at hst; simp at hst
  | some sims =>
    rw [hsim] at hst
    dsimp only at hst
    cases hmem : gmGet memory signature with
    | none =>
      rw [hmem] at hst
      simp only [Option.some.injEq] at hst
      refine ⟨fun _ => by rw [← hst], fun rs h => by simp at h, fun rs f h => by simp at h⟩
    | some rs =>
      rw [hmem] at hst
      dsimp only at hst
      cases hpat : gmGet rs.patterns c.Party with
      | none =>
        rw [hpat] at hst
        simp only [Option.some.injEq] at hst
        refine ⟨fun h => by simp at h, ?_, ?_⟩
        · intro rs' h _
          rw [← hst]
        · intro rs' f h h2
          simp only [Option.some.injEq] at h
          subst h
          rw [hpat] at h2
          simp at h2
      | some features =>
        rw [hpat] at hst
        dsimp only at hst
        cases hscore : scoreLoop c features [] with
        | none => rw [hscore] at hst; simp at hst
        | some score =>
          rw [hscore] at hst
          simp only [Option.some.injEq] at hst
          refine ⟨fun h => by simp at h, ?_, ?_⟩
          · intro rs' h h2
            simp only [Option.some.injEq] at h
            subst h
            rw [hpat] at h2
            simp at h2
          · intro rs' f h h2
            simp only [Option.some.injEq] at h
            subst h
            rw [hpat] at h2
            simp only [Option.some.injEq] at h2
            subst h2
            rw [← hst]
            exact hscore

theorem scoreLoop_stated (c : record) (features : List feature)
    (score : List (String × pointbus)) (h : scoreLoop c features [] = some score) :
    ∀ cat, gmGet score cat = (calculatedStated features c cat).map wrapBus := by
  have := scoreLoop_accumulate c features [] [] score
    (by intro cat; simp [gmGet, calculatedStated, contributions]) h
  simpa using this

theorem wrapBus_of_isInt64 (p : pointbus) (h : ∀ slot ∈ p.toList, isInt64 slot) :
    wrapBus p = p := by
  simp only [pointbus.toList, List.mem_cons, List.mem_singleton, forall_eq_or_imp,
    forall_eq] at h
  obtain ⟨h0, h1, h2, h3, h4, h5, _⟩ := h
  simp only [wrapBus, wrap64_of_isInt64 h0, wrap64_of_isInt64 h1, wrap64_of_isInt64 h2,
    wrap64_of_isInt64 h3, wrap64_of_isInt64 h4, wrap64_of_isInt64 h5]

theorem contributions_mem (features : List feature) (c : record) (cat : String)
    (q : pointbus) (h : q ∈ contributions features c cat) :
    ∃ F ∈ features, F.Category = cat ∧ featurePoints F c = some (some q) := by
  unfold contributions at h
  rw [List.mem_filterMap] at h
  obtain ⟨F, hF, hq⟩ := h
  by_cases hc : F.Category = cat
  · rw [if_pos hc] at hq
    cases hfp : featurePoints F c with
    | none => rw [hfp] at hq; simp at hq
    | some o =>
      rw [hfp] at hq
      simp only [Option.getD_some] at hq
      exact ⟨F, hF, hc, by rw [hfp, hq]⟩
  · rw [if_neg hc] at hq
    simp at hq

theorem contributions_length (features : List feature) (c : record) (cat : String) :
    (contributions features c cat).length ≤ features.length :=
  List.length_filterMap_le _ _

theorem busSum_bounds (cs : List pointbus)
    (h : ∀ q ∈ cs, ((q.s0 = 0 ∨ q.s0 = 1) ∧ (q.s1 = 0 ∨ q.s1 = 1) ∧ (q.s2 = 0 ∨ q.s2 = 1) ∧
      (q.s3 = 0 ∨ q.s3 = 1) ∧ (q.s4 = 0 ∨ q.s4 = 1)) ∧
      1 ≤ q.s0 + q.s1 + q.s2 + q.s3 + q.s4) :
    (0 ≤ (busSum cs).s0 ∧ (busSum cs).s0 ≤ cs.length) ∧
    (0 ≤ (busSum cs).s1 ∧ (busSum cs).s1 ≤ cs.length) ∧
    (0 ≤ (busSum cs).s2 ∧ (busSum cs).s2 ≤ cs.length) ∧
    (0 ≤ (busSum cs).s3 ∧ (busSum cs).s3 ≤ cs.length) ∧
    (0 ≤ (busSum cs).s4 ∧ (busSum cs).s4 ≤ cs.length) ∧
    (cs.length : Int) ≤ (busSum cs).s0 + (busSum cs).s1 + (busSum cs).s2 + (busSum cs).s3
      + (busSum cs).s4 := by
  induction cs with
  | nil => simp [busSum]
  | cons q rest ih =>
    have ih' := ih (fun x hx => h x (List.mem_cons_of_mem _ hx))
    obtain ⟨⟨b0, b1, b2, b3, b4⟩, hsum⟩ := h q (List.mem_cons_self _ _)
    simp only [busSum, List.map_cons, List.sum_cons, List.length_cons, Nat.cast_add,
      Nat.cast_one] at ih' ⊢
    omega

/-- C24: a feature that adds a point bus for a candidate has a non-zero slot among the
slots 0 to 4 (each of which is 0 or 1), and never both slot 0 and slot 1; a feature that is
skipped leaves the score map as it is; so for every candidate whose cached feature list has
fewer than `2^63` features, every entry of its `calculated` map has a sum of the slots 0 to
4 of at least 1. -/
theorem pointbus_skip_rule (c : record) :
    (∀ (F : feature) (p : pointbus), featurePoints F c = some (some p) →
      1 ≤ p.s0 + p.s1 + p.s2 + p.s3 + p.s4 ∧ (p.s0 = 0 ∨ p.s1 = 0) ∧
      (p.s0 = 0 ∨ p.s0 = 1) ∧ (p.s1 = 0 ∨ p.s1 = 1) ∧ (p.s2 = 0 ∨ p.s2 = 1) ∧
      (p.s3 = 0 ∨ p.s3 = 1) ∧ (p.s4 = 0 ∨ p.s4 = 1)) ∧
    (∀ (F : feature) (rest : List feature) (score : List (String × pointbus)),
      featurePoints F c = some none →
      scoreLoop c (F :: rest) score = scoreLoop c rest score) ∧
    (∀ (memory : List (String × results)) (reg : List Transaction) (signature : String)
      (st : statement) (rs : results) (features : List feature),
      researchStep memory reg signature c = some st →
      gmGet memory signature = some rs → gmGet rs.patterns c.Party = some features →
      features.length < 9223372036854775808 →
      ∀ (cat : String) (p : pointbus), gmGet st.Calculated cat = some p →
        1 ≤ p.s0 + p.s1 + p.s2 + p.s3 + p.s4) := by
  refine ⟨?_, ?_, ?_⟩
  · intro F p h
    obtain ⟨⟨b0, b1, b2, b3, b4⟩, h01, hsum, _, _⟩ := featurePoints_shape F c p h
    exact ⟨hsum, h01, b0, b1, b2, b3, b4⟩
  · intro F rest score h
    simp only [scoreLoop, h]
  · intro memory reg signature st rs features hst hmem hpat hlen cat p hp
    have hscore := (researchStep_calculated memory reg signature c st hst).2.2 rs features
      hmem hpat
    rw [scoreLoop_stated c features st.Calculated hscore cat] at hp
    unfold calculatedStated at hp
    by_cases hnil : contributions features c cat = []
    · rw [if_pos hnil] at hp
      simp at hp
    · rw [if_neg hnil] at hp
      simp only [Option.map_some', Option.some.injEq] at hp
      have hb := busSum_bounds (contributions features c cat) (by
        intro q hq
        obtain ⟨F, _, _, hfp⟩ := contributions_mem features c cat q hq
        obtain ⟨hbits, _, hsum, _, _⟩ := featurePoints_shape F c q hfp
        exact ⟨hbits, hsum⟩)
      have hl := contributions_length features c cat
      have hpos : 0 < (contributions features c cat).length := List.length_pos.mpr hnil
      obtain ⟨⟨l0, u0⟩, ⟨l1, u1⟩, ⟨l2, u2⟩, ⟨l3, u3⟩, ⟨l4, u4⟩, hsum⟩ := hb
      have hw : ∀ x : Int, 0 ≤ x → x ≤ (contributions features c cat).length →
          wrap64 x = x := by
        intro x hx0 hx1
        apply wrap64_of_isInt64
        unfold isInt64
        omega
      rw [← hp]
      simp only [wrapBus, hw _ l0 u0, hw _ l1 u1, hw _ l2 u2, hw _ l3 u3, hw _ l4 u4]
      omega

/-- C24 (witness): the statement built for the candidate of `TestModelTendency` against the
feature of category `Label #1.2` has an entry for that category whose slots 0 to 4 add up
to 1. -/
theorem pointbus_skip_rule_witness :
    researchStep
        [("test-signature",
          { records := [],
            patterns := [("sender=Actor #1 receiver=Actor #2", [predictionFeature])] })]
        [] "test-signature" predictionCandidate
      = some { predictionCandidate with
          Calculated := [("Label #1.2", { s0 := 1, s1 := 0, s2 := 0, s3 := 0, s4 := 0, s5 := 1 })],
          Similarity := [] } ∧
    (1 : Int) ≤ 1 + 0 + 0 + 0 + 0 :=
  ⟨by decide,
    (pointbus_skip_rule predictionCandidate).2.2
      [("test-signature",
        { records := [],
          patterns := [("sender=Actor #1 receiver=Actor #2", [predictionFeature])] })]
      [] "test-signature"
      { predictionCandidate with
        Calculated := [("Label #1.2", { s0 := 1, s1 := 0, s2 := 0, s3 := 0, s4 := 0, s5 := 1 })],
        Similarity := [] }
      { records := [],
        patterns := [("sender=Actor #1 receiver=Actor #2", [predictionFeature])] }
      [predictionFeature] (by decide) rfl rfl (by decide) "Label #1.2"
      { s0 := 1, s1 := 0, s2 := 0, s3 := 0, s4 := 0, s5 := 1 } rfl⟩

/-! ## The point buses of a computed tendency -/

theorem compute_amounts_perm (R : List record) (T : tendency) (h : _compute R = some T)
    (sel : String → String → Bool) :
    (tendencyAmounts sel T).Perm
      (((namedRecords R).filter (fun r => sel r.Party r.Label)).map
        (fun r => absValue r.Amount)) := by
  obtain ⟨model, hc, hm⟩ := computeLoop_keyed R (R.length - 1) [] (by omega)
    (by intro e he; simp at he)
  have hT : _compute R = some (flatten model) := by simp [_compute, hc]
  rw [hT] at h
  simp only [Option.some.injEq] at h
  subst h
  rw [List.perm_iff_count]
  intro a
  rw [tendencyAmounts_flatten sel model hm,
    computeLoop_amounts sel a R (R.length - 1) [] model (by omega)
      (by intro e he; simp at he) hc]
  have htake : (R.take (R.length - 1 + 1)).drop 1 = R.drop 1 := by
    cases R with
    | nil => rfl
    | cons x xs => simp
  rw [htake]
  unfold namedRecords
  rw [List.filter_filter]
  simp only [modelAmounts, List.flatMap_nil, List.count_nil, add_zero]
  congr 3
  funext r
  rw [Bool.and_comm]

theorem compute_amounts_length (R : List record) (T : tendency) (h : _compute R = some T) :
    (featureAmounts (T.flatMap (fun entry => entry.2))).length ≤ R.length := by
  have hall := compute_amounts_perm R T h (fun _ _ => true)
  rw [tendencyAmounts_all, List.filter_eq_self.mpr (fun _ _ => rfl)] at hall
  rw [hall.length_eq, List.length_map]
  unfold namedRecords
  have h1 := List.length_filter_le (fun r => decide (r.Label ≠ UNNAMED_ENTRY)) (R.drop 1)
  have h2 : (R.drop 1).length = R.length - 1 := List.length_drop 1 R
  omega

theorem featureAmounts_length_mem (T : tendency) (entry : String × List feature)
    (h : entry ∈ T) :
    (featureAmounts entry.2).length
      ≤ (featureAmounts (T.flatMap (fun entry => entry.2))).length := by
  induction T with
  | nil => simp at h
  | cons e rest ih =>
    rw [List.flatMap_cons, featureAmounts_append, List.length_append]
    rcases List.mem_cons.mp h with h1 | h1
    · subst h1
      omega
    · have := ih h1
      omega

theorem features_length_le (fs : List feature) (h : ∀ F ∈ fs, F.Amounts ≠ []) :
    fs.length ≤ (featureAmounts fs).length := by
  induction fs with
  | nil => simp
  | cons F rest ih =>
    have h1 := ih (fun x hx => h x (List.mem_cons_of_mem _ hx))
    have h2 : 0 < F.Amounts.length := List.length_pos.mpr (h F (List.mem_cons_self _ _))
    rw [featureAmounts_cons, List.length_append, List.length_cons]
    omega

theorem busSum_s5_append (xs ys : List pointbus) :
    (busSum (xs ++ ys)).s5 = (busSum xs).s5 + (busSum ys).s5 := by
  simp [busSum]

theorem contributions_popularity (c : record) (cat : String) (features : List feature)
    (hcl : ∀ F ∈ features, F.Polarity.1 + F.Polarity.2 = (F.Amounts.length : Int))
    (hlen : (featureAmounts features).length < 9223372036854775808) :
    0 ≤ (busSum (contributions features c cat)).s5 ∧
      (busSum (contributions features c cat)).s5 ≤ ((featureAmounts features).length : Int) := by
  induction features with
  | nil => simp [contributions, busSum, featureAmounts]
  | cons F rest ih =>
    rw [featureAmounts_cons, List.length_append] at hlen
    have ih' := ih (fun x hx => hcl x (List.mem_cons_of_mem _ hx)) (by omega)
    have hF := hcl F (List.mem_cons_self _ _)
    have happ : contributions (F :: rest) c cat
        = contributions [F] c cat ++ contributions rest c cat :=
      contributions_append [F] rest c cat
    rw [happ, busSum_s5_append, featureAmounts_cons, List.length_append, Nat.cast_add]
    have hsingle : 0 ≤ (busSum (contributions [F] c cat)).s5 ∧
        (busSum (contributions [F] c cat)).s5 ≤ (F.Amounts.length : Int) := by
      rw [contributions_single]
      by_cases hc : F.Category = cat
      · rw [if_pos hc]
        cases hfp : featurePoints F c with
        | none => simp [busSum]
        | some o =>
          cases o with
          | none => simp [busSum]
          | some p =>
            obtain ⟨_, _, _, h5, _⟩ := featurePoints_shape F c p hfp
            have hw : wrap64 (F.Polarity.1 + F.Polarity.2) = (F.Amounts.length : Int) := by
              rw [hF]
              apply wrap64_of_isInt64
              unfold isInt64
              omega
            rw [hw, Int.tdiv_eq_ediv (by omega) (by decide)] at h5
            simp only [busSum, List.map_cons, List.map_nil, List.sum_cons, List.sum_nil,
              add_zero]
            omega
      · rw [if_neg hc]
        simp [busSum]
    omega

theorem research_slots_isInt64 (R : List record) (T : tendency) (c : record) (cat : String)
    (features : List feature) (hT : _compute R = some T)
    (hR : R.length < 9223372036854775808) (hget : gmGet T c.Party = some features) :
    ∀ slot ∈ (busSum (contributions features c cat)).toList, isInt64 slot := by
  obtain ⟨T', hT', hclosed, _, _⟩ :=
    compute_inv featureClosed (fun _ => True) (fun f h => h.1)
      (fun r _ => featureClosed_toFeature r) featureClosed_months
      (fun f r h _ => featureClosed_update f r h) R (fun _ _ _ _ _ => trivial)
  rw [hT] at hT'
  simp only [Option.some.injEq] at hT'
  subst hT'
  have hmem : (c.Party, features) ∈ T := gmGet_mem T c.Party features hget
  have hcl := (hclosed _ hmem).2
  have hlen1 := featureAmounts_length_mem T _ hmem
  have hlen2 := compute_amounts_length R T hT
  have hlen : (featureAmounts features).length < 9223372036854775808 := by
    simp only at hlen1
    omega
  have hfl := features_length_le features (fun F hF => (hcl F hF).2.1)
  have hcon := contributions_length features c cat
  obtain ⟨h5a, h5b⟩ := contributions_popularity c cat features
    (fun F hF => (hcl F hF).2.2.2.2.2.2.2) hlen
  have hb := busSum_bounds (contributions features c cat) (by
    intro q hq
    obtain ⟨F, _, _, hfp⟩ := contributions_mem features c cat q hq
    obtain ⟨hbits, _, hsum, _, _⟩ := featurePoints_shape F c q hfp
    exact ⟨hbits, hsum⟩)
  obtain ⟨⟨l0, u0⟩, ⟨l1, u1⟩, ⟨l2, u2⟩, ⟨l3, u3⟩, ⟨l4, u4⟩, _⟩ := hb
  intro slot hslot
  simp only [pointbus.toList, List.mem_cons, List.mem_singleton, List.mem_nil_iff,
    or_false] at hslot
  unfold isInt64
  rcases hslot with h | h | h | h | h | h <;> subst h <;> omega

/-- C25: for a register of transactions that carry a UUID, `_research` builds a statement
for a candidate `c`; its `calculated` map is empty when the cache has no entry for the
signature or the entry has no features for the party of `c`; otherwise the entry of a
category is the componentwise sum, reduced to `int64`, of the point buses of the features of
that category that are not skipped, and there is no entry when all are skipped; the
reduction changes nothing when the slots of the sum are `int64` values, as they are for a
cache entry that `_compute` built from fewer than `2^63` records; slot 5 of the point bus of a feature is the `int64`
sum of its two polarity counters divided by 2, which is `(Polarity[0] + Polarity[1]) / 2`
when the sum is in the range from 0 to `2^63 - 1`.  For the `test-signature` fixture and the
candidate of `TestModelTendency` the map has the single key `Label #1.2`, with slot 0 equal
to 1. -/
theorem calculated_accumulation (memory : List (String × results)) (reg : List Transaction)
    (signature : String) (c : record) (huuid : ∀ t ∈ reg, t.UUID ≠ none) :
    (∃ st, researchStep memory reg signature c = some st ∧
      (gmGet memory signature = none → st.Calculated = []) ∧
      (∀ rs, gmGet memory signature = some rs →
        gmGet rs.patterns c.Party = none ∨ gmGet rs.patterns c.Party = some [] →
        st.Calculated = []) ∧
      (∀ rs features, gmGet memory signature = some rs →
        gmGet rs.patterns c.Party = some features →
        (∀ cat, gmGet st.Calculated cat = (calculatedStated features c cat).map wrapBus) ∧
        (∀ cat, (∀ slot ∈ (busSum (contributions features c cat)).toList, isInt64 slot) →
          gmGet st.Calculated cat = calculatedStated features c cat) ∧
        (∀ R : List record, _compute R = some rs.patterns →
          R.length < 9223372036854775808 →
          ∀ cat, gmGet st.Calculated cat = calculatedStated features c cat))) ∧
    (∀ (F : feature) (p : pointbus), featurePoints F c = some (some p) →
      p.s5 = Int.tdiv (wrap64 (F.Polarity.1 + F.Polarity.2)) 2 ∧
      (0 ≤ F.Polarity.1 + F.Polarity.2 → F.Polarity.1 + F.Polarity.2 < 9223372036854775808 →
        p.s5 = (F.Polarity.1 + F.Polarity.2) / 2)) ∧
    (_compute signatureFixture).bind (fun T =>
      (_research [("test-signature", { records := signatureFixture, patterns := T })] []
        [predictionCandidate] "test-signature").map
          (fun sts => sts.map (fun st => st.Calculated)))
      = some [[("Label #1.2", { s0 := 1, s1 := 0, s2 := 0, s3 := 0, s4 := 0, s5 := 1 })]] := by
  refine ⟨?_, ?_, by decide⟩
  · obtain ⟨st, hst, _⟩ := researchStep_some memory reg signature c huuid
    obtain ⟨h1, h2, h3⟩ := researchStep_calculated memory reg signature c st hst
    refine ⟨st, hst, h1, ?_, ?_⟩
    · intro rs hmem hpat
      rcases hpat with hpat | hpat
      · exact h2 rs hmem hpat
      · have h := h3 rs [] hmem hpat
        simp only [scoreLoop, Option.some.injEq] at h
        exact h.symm
    · intro rs features hmem hpat
      have hscore := h3 rs features hmem hpat
      have hexact : ∀ cat,
          (∀ slot ∈ (busSum (contributions features c cat)).toList, isInt64 slot) →
          gmGet st.Calculated cat = calculatedStated features c cat := by
        intro cat hslots
        rw [scoreLoop_stated c features st.Calculated hscore cat]
        unfold calculatedStated
        by_cases hnil : contributions features c cat = []
        · rw [if_pos hnil]
          rfl
        · rw [if_neg hnil]
          simp only [Option.map_some']
          rw [wrapBus_of_isInt64 _ hslots]
      refine ⟨fun cat => scoreLoop_stated c features st.Calculated hscore cat, hexact, ?_⟩
      intro R hR hlen cat
      exact hexact cat (research_slots_isInt64 R rs.patterns c cat features hR hlen hpat)
  · intro F p h
    obtain ⟨_, _, _, h5, _⟩ := featurePoints_shape F c p h
    refine ⟨h5, ?_⟩
    intro h0 h1
    rw [h5, wrap64_of_isInt64 (show isInt64 (F.Polarity.1 + F.Polarity.2) by unfold isInt64; omega)]
    exact Int.tdiv_eq_ediv h0 (by decide)

/-- C25 (witness): with an empty register and the feature of category `Label #1.2` cached
for the party of the candidate of `TestModelTendency`, the statement has the point bus of
that feature, whose slot 5 is `(0 + 2) / 2`. -/
theorem calculated_accumulation_witness :
    (∀ t ∈ ([] : List Transaction), t.UUID ≠ none) ∧
    researchStep
        [("test-signature",
          { records := [],
            patterns := [("sender=Actor #1 receiver=Actor #2", [predictionFeature])] })]
        [] "test-signature" predictionCandidate
      = some { predictionCandidate with
          Calculated := [("Label #1.2", { s0 := 1, s1 := 0, s2 := 0, s3 := 0, s4 := 0, s5 := 1 })],
          Similarity := [] } ∧
    (∀ (F : feature) (p : pointbus), featurePoints F predictionCandidate = some (some p) →
      p.s5 = Int.tdiv (wrap64 (F.Polarity.1 + F.Polarity.2)) 2 ∧
      (0 ≤ F.Polarity.1 + F.Polarity.2 → F.Polarity.1 + F.Polarity.2 < 9223372036854775808 →
        p.s5 = (F.Polarity.1 + F.Polarity.2) / 2)) :=
  ⟨by simp, by decide,
    (calculated_accumulation
      [("test-signature",
        { records := [],
          patterns := [("sender=Actor #1 receiver=Actor #2", [predictionFeature])] })]
      [] "test-signature" predictionCandidate (by simp)).2.1⟩

/-! ## Evaluate -/

theorem ite_some_exists {α : Type} (p : Prop) [Decidable p] (a b : α) :
    ∃ x, (if p then some a else some b) = some x := by
  by_cases h : p
  · exact ⟨a, by rw [if_pos h]⟩
  · exact ⟨b, by rw [if_neg h]⟩

theorem evaluateStep_some (trx : Transaction) (h : trx.UUID ≠ none) :
    ∃ rs, evaluateStep trx = some rs := by
  cases huuid : trx.UUID with
  | none => exact absurd huuid h
  | some uuid =>
    obtain ⟨shadow, hs⟩ := fromTransaction_of_uuid trx uuid huuid
    by_cases hne : trx.Details = []
    · unfold evaluateStep
      rw [if_neg (by rw [hne]; simp), hs]
      exact ⟨_, rfl⟩
    · rw [evaluateStep_details trx shadow hs hne]
      exact ite_some_exists _ _ _

theorem evaluateRecords_some (reg : List Transaction) (h : ∀ t ∈ reg, t.UUID ≠ none) :
    ∀ records, ∃ out, evaluateRecords reg records = some out := by
  induction reg with
  | nil => intro records; exact ⟨records, rfl⟩
  | cons trx rest ih =>
    intro records
    obtain ⟨rs, hrs⟩ := evaluateStep_some trx (h trx (List.mem_cons_self _ _))
    obtain ⟨out, hout⟩ := ih (fun t ht => h t (List.mem_cons_of_mem _ ht)) (records ++ rs)
    exact ⟨out, by simp only [evaluateRecords, hrs, hout]⟩

theorem compute_some (R : List record) : ∃ T, _compute R = some T := by
  obtain ⟨model, hc, _⟩ := computeLoop_keyed R (R.length - 1) [] (by omega)
    (by intro e he; simp at he)
  exact ⟨flatten model, by simp [_compute, hc]⟩

theorem evaluate_ok (memory : List (String × results))
    (pull : String → Except String (List Transaction)) (signature : String)
    (memory' : List (String × results))
    (h : _evaluate memory pull signature = some (memory', none)) :
    ∃ reg records patterns, pull signature = Except.ok reg ∧
      evaluateRecords reg [] = some records ∧ _compute records = some patterns ∧
      memory' = gmSet memory signature { records := records, patterns := patterns } := by
  unfold _evaluate at h
  cases hp : pull signature with
  | error err => rw [hp] at h; simp at h
  | ok reg =>
    rw [hp] at h
    dsimp only at h
    cases hr : evaluateRecords reg [] with
    | none => rw [hr] at h; simp at h
    | some records =>
      rw [hr] at h
      dsimp only at h
      cases hc : _compute records with
      | none => rw [hc] at h; simp at h
      | some patterns =>
        rw [hc] at h
        simp only [Option.some.injEq, Prod.mk.injEq, and_true] at h
        exact ⟨reg, records, patterns, rfl, hr, hc, h.symm⟩

/-- C26: when `_evaluate` returns without an error, the pull answered a register, and the
cache entry of the signature is the pair of the records exploded from that register and
their tendency, whatever the cache held before; the entry of every other signature is as
before; and `journal.evaluate` then answers from the entry and not by the
empty-object fallback.  When the pull fails, `_evaluate` returns the error and the cache as it was, and
the handler answers 500.  When the pulled transactions carry a UUID, `_evaluate` returns
without an error. -/
theorem evaluate_replaces_entry (build : Build) (memory : List (String × results))
    (pull : String → Except String (List Transaction))
    (marshal : tendency → Except String String)
    (signature : String) (lap : String) (w : ResponseWriter) :
    (∀ memory', _evaluate memory pull signature = some (memory', none) →
      ∃ reg records patterns, pull signature = Except.ok reg ∧
        evaluateRecords reg [] = some records ∧ _compute records = some patterns ∧
        gmGet memory' signature = some { records := records, patterns := patterns } ∧
        (∀ other, other ≠ signature → gmGet memory' other = gmGet memory other) ∧
        (∀ prior : List (String × results),
          ∃ after, _evaluate prior pull signature = some (after, none) ∧
            gmGet after signature = some { records := records, patterns := patterns }) ∧
        ∃ response branch,
          journal.evaluate build memory pull marshal signature lap w
            = some (response, memory', branch) ∧
          branch ≠ EvaluateBranch.fallback ∧
          response = (match marshal patterns with
            | Except.error err => Response.Fault build w err
            | Except.ok out => Response.Okay build w out false lap)) ∧
    (∀ err, pull signature = Except.error err →
      _evaluate memory pull signature = some (memory, some err) ∧
      journal.evaluate build memory pull marshal signature lap w
        = some (Response.Fault build w err, memory, EvaluateBranch.fault)) ∧
    (∀ reg, pull signature = Except.ok reg → (∀ t ∈ reg, t.UUID ≠ none) →
      ∃ memory', _evaluate memory pull signature = some (memory', none)) := by
  refine ⟨?_, ?_, ?_⟩
  · intro memory' h
    obtain ⟨reg, records, patterns, hp, hr, hc, hm⟩ := evaluate_ok memory pull signature memory' h
    have hget : gmGet memory' signature = some { records := records, patterns := patterns } := by
      rw [hm, gmGet_gmSet, if_pos rfl]
    refine ⟨reg, records, patterns, hp, hr, hc, hget, ?_, ?_, ?_⟩
    · intro other ho
      rw [hm, gmGet_gmSet, if_neg (fun e => ho e.symm)]
    · intro prior
      refine ⟨gmSet prior signature { records := records, patterns := patterns }, ?_, ?_⟩
      · simp only [_evaluate, hp, hr, hc]
      · rw [gmGet_gmSet, if_pos rfl]
    · unfold journal.evaluate
      rw [h]
      dsimp only
      rw [hget]
      dsimp only
      cases hmar : marshal patterns with
      | error err => exact ⟨_, _, rfl, by decide, rfl⟩
      | ok out => exact ⟨_, _, rfl, by decide, rfl⟩
  · intro err hp
    have h : _evaluate memory pull signature = some (memory, some err) := by
      simp only [_evaluate, hp]
    refine ⟨h, ?_⟩
    unfold journal.evaluate
    rw [h]
  · intro reg hp huuid
    obtain ⟨records, hr⟩ := evaluateRecords_some reg huuid []
    obtain ⟨patterns, hc⟩ := compute_some records
    exact ⟨gmSet memory signature { records := records, patterns := patterns },
      by simp only [_evaluate, hp, hr, hc]⟩

/-- C26 (witness): an evaluate of `test-signature` on a cache with two entries, for a pull
that answers one transaction, replaces the entry of `test-signature` and keeps the entry of
`other-signature`; with a failing pull the cache stays as it was. -/
theorem evaluate_replaces_entry_witness :
    (∃ memory', _evaluate testMemory testPull "test-signature" = some (memory', none) ∧
      (gmGet memory' "test-signature").map (fun rs => rs.records.length) = some 1 ∧
      gmGet memory' "other-signature" = gmGet testMemory "other-signature") ∧
    _evaluate testMemory brokenPull "test-signature"
      = some (testMemory, some "database is locked") := by
  have h := evaluate_replaces_entry testBuild testMemory testPull
    (fun _ => Except.ok "") "test-signature" "1ms" ResponseWriter.fresh
  have hb := evaluate_replaces_entry testBuild testMemory brokenPull
    (fun _ => Except.ok "") "test-signature" "1ms" ResponseWriter.fresh
  obtain ⟨memory', hm⟩ := h.2.2 [similarTransaction] rfl (by decide)
  obtain ⟨reg, records, patterns, hp, hr, hc, hget, hother, _⟩ := h.1 memory' hm
  refine ⟨⟨memory', hm, ?_, hother "other-signature" (by decide)⟩,
    (hb.2.1 "database is locked" rfl).1⟩
  have hreg : reg = [similarTransaction] := by
    have : (Except.ok [similarTransaction] : Except String (List Transaction)) = Except.ok reg := hp
    injection this with h1
    exact h1.symm
  subst hreg
  have hrec : evaluateRecords [similarTransaction] [] = some records := hr
  rw [hget]
  have hlen : (evaluateRecords [similarTransaction] []).map (fun rs => rs.length) = some 1 := by
    decide
  rw [hrec] at hlen
  simpa using hlen

/-! ## The shape of the approximate band -/

theorem ceil_mul_nat (a P : Nat) (hP : 0 < P) :
    (a % P = 0 → a / P * P = a ∧ (a + P - 1) / P * P = a) ∧
    (a % P ≠ 0 → a / P * P < a ∧ a < (a + P - 1) / P * P ∧
      (a + P - 1) / P * P = a / P * P + P) := by
  have hdm := Nat.div_add_mod a P
  have hr := Nat.mod_lt a hP
  have hsplit : a + P - 1 = (a % P + P - 1) + P * (a / P) := by omega
  have hq : (a + P - 1) / P = (a % P + P - 1) / P + a / P := by
    rw [hsplit, Nat.add_mul_div_left _ _ hP]
  constructor
  · intro h0
    have h1 : (a % P + P - 1) / P = 0 := Nat.div_eq_of_lt (by omega)
    rw [hq, h1, zero_add]
    have : a / P * P = a := by
      rw [Nat.mul_comm]
      omega
    exact ⟨this, this⟩
  · intro h0
    have h1 : (a % P + P - 1) / P = 1 :=
      Nat.div_eq_of_lt_le (by omega) (by omega)
    rw [hq, h1, Nat.add_mul, one_mul]
    have : a / P * P = P * (a / P) := Nat.mul_comm _ _
    omega

theorem isBetweenAmountAprox_nat (a : Nat) (ha : a < 10 ^ 15) :
    ∃ P : Nat, 0 < P ∧ _power 10 ((decimalLength (a : Int) : Int) - 2) = (P : Int) ∧
      P = (if decimalLength (a : Int) = 1 then 10 else 10 ^ (decimalLength (a : Int) - 2)) ∧
      ∀ v : Int, (_isBetweenAmountAprox (a : Int) v = true ↔
        ((a / P * P : Nat) : Int) ≤ v ∧ v ≤ (((a + P - 1) / P * P : Nat) : Int)) := by
  have hlen : decimalLength (a : Int) = decimalDigits a a := by
    unfold decimalLength
    have : ¬ (a : Int) < 0 := by omega
    rw [if_neg this, Int.natAbs_ofNat, zero_add]
  obtain ⟨hk1, hk2, hk3⟩ := decimalDigits_spec a a (le_refl a)
  generalize hkk : decimalDigits a a = k at hk1 hk2 hk3
  rw [hkk] at hlen
  have hk15 : k ≤ 15 := by
    rcases hk3 with hk3 | hk3
    · omega
    · have := (Nat.pow_lt_pow_iff_right (by decide : 1 < 10)).1 (lt_of_le_of_lt hk3 ha)
      omega
  have hP : 0 < (if k = 1 then 10 else 10 ^ (k - 2)) := by
    split_ifs
    · decide
    · positivity
  have hPle : (if k = 1 then 10 else 10 ^ (k - 2)) ≤ 10 ^ 13 := by
    split_ifs
    · norm_num
    · exact Nat.pow_le_pow_right (by decide) (by omega)
  have hpow := power_ten k hk1 hk15
  rw [hlen]
  generalize (if k = 1 then 10 else 10 ^ (k - 2)) = P at hP hPle hpow
  have h10 : (10 : Nat) ^ 15 = 1000000000000000 := by norm_num
  have h13 : (10 : Nat) ^ 13 = 10000000000000 := by norm_num
  have h52 : (2 : Nat) ^ 52 = 4503599627370496 := by norm_num
  have h53 : (2 : Nat) ^ 53 = 9007199254740992 := by norm_num
  obtain ⟨hL, hH⟩ := aprox_core a P hP (by omega) (by omega)
  refine ⟨P, hP, hpow, rfl, ?_⟩
  intro v
  unfold _isBetweenAmountAprox
  simp only [hlen, hpow, hL, hH, Bool.and_eq_true, decide_eq_true_eq]

/-- C30 (counterexample): for the amount 9999999999999999 the value `float64(amount)` is
`10^16`, the band of the code is the single value `10^16`, and the amount itself is not
accepted; and `_power(10, 19)` is not `10^19` but that number reduced to `int64`. -/
theorem aprox_shape_counterexample :
    _isBetweenAmountAprox 9999999999999999 9999999999999999 = false ∧
    F64.toInt (F64.ofInt 9999999999999999) = 10000000000000000 ∧
    _isBetweenAmountAprox 9999999999999999 10000000000000000 = true ∧
    _power 10 19 = -8446744073709551616 := by
  refine ⟨by decide, by decide, by decide, by decide⟩

/-- C30 (amended): for every amount `a` with `0 ≤ a < 10^15`, the power
`p = _power(10, digits(a) - 2)` is 10 for an amount of one digit and `10^(digits(a) - 2)`
otherwise, `_isBetweenAmountAprox(a, a)` is true, every accepted value `v` satisfies
`|v - a| < p`, and when `p` divides `a` the only accepted value is `a` itself; `_power(10, e)`
is `10^e` for every exponent from 0 to 18, and 10 for the exponent -1. -/
theorem aprox_shape (a : Int) (h0 : 0 ≤ a) (h1 : a < 10 ^ 15) :
    (_power 10 ((decimalLength a : Int) - 2)
        = if decimalLength a = 1 then 10 else 10 ^ (decimalLength a - 2)) ∧
      _isBetweenAmountAprox a a = true ∧
      (∀ v : Int, _isBetweenAmountAprox a v = true →
        |v - a| < _power 10 ((decimalLength a : Int) - 2)) ∧
      (_power 10 ((decimalLength a : Int) - 2) ∣ a →
        ∀ v : Int, (_isBetweenAmountAprox a v = true ↔ v = a)) ∧
      (∀ e : Nat, e ≤ 18 → _power 10 (e : Int) = 10 ^ e) ∧ _power 10 (-1) = 10 := by
  obtain ⟨n, rfl⟩ := Int.eq_ofNat_of_zero_le h0
  have hn : n < 10 ^ 15 := by exact_mod_cast h1
  obtain ⟨P, hP, hpow, hPeq, hband⟩ := isBetweenAmountAprox_nat n hn
  obtain ⟨hz, hnz⟩ := ceil_mul_nat n P hP
  have hle := Nat.div_mul_le_self n P
  refine ⟨?_, ?_, ?_, ?_, ?_, by decide⟩
  · rw [hpow, hPeq]
    split_ifs <;> norm_num
  · rw [hband]
    by_cases hr : n % P = 0
    · obtain ⟨e1, e2⟩ := hz hr
      rw [e1, e2]
      exact ⟨le_refl _, le_refl _⟩
    · obtain ⟨e1, e2, _⟩ := hnz hr
      constructor
      · exact_mod_cast e1.le
      · exact_mod_cast e2.le
  · intro v hv
    rw [hpow]
    rw [hband] at hv
    obtain ⟨hv1, hv2⟩ := hv
    by_cases hr : n % P = 0
    · obtain ⟨e1, e2⟩ := hz hr
      rw [e1] at hv1
      rw [e2] at hv2
      have : v = (n : Int) := le_antisymm hv2 hv1
      rw [this, sub_self, abs_zero]
      exact_mod_cast hP
    · obtain ⟨e1, e2, e3⟩ := hnz hr
      rw [e3] at hv2
      rw [e3] at e2
      push_cast at hv2
      have e1i : ((n / P * P : Nat) : Int) < (n : Int) := by exact_mod_cast e1
      have e2i : (n : Int) < ((n / P * P : Nat) : Int) + (P : Int) := by exact_mod_cast e2
      push_cast at e1i e2i hv1
      rw [abs_lt]
      constructor <;> omega
  · intro hdvd v
    rw [hpow] at hdvd
    have hr : n % P = 0 := by
      have : (P : Int) ∣ (n : Int) := hdvd
      exact Nat.mod_eq_zero_of_dvd (Int.natCast_dvd_natCast.mp this)
    obtain ⟨e1, e2⟩ := hz hr
    rw [hband, e1, e2]
    constructor
    · intro hv
      exact le_antisymm hv.2 hv.1
    · intro hv
      rw [hv]
      exact ⟨le_refl _, le_refl _⟩
  · intro e he
    interval_cases e <;> decide

/-- C30 (witness): the amounts 1240 and 1200 of four digits, with the power 100: the band
of 1240 runs from 1200 to 1300, and the band of 1200 is the single value 1200. -/
theorem aprox_shape_witness :
    (0 : Int) ≤ 1200 ∧ (1200 : Int) < 10 ^ 15 ∧
      _power 10 ((decimalLength 1200 : Int) - 2) = 100 ∧
      (∀ v : Int, (_isBetweenAmountAprox 1200 v = true ↔ v = 1200)) ∧
      _isBetweenAmountAprox 1240 1240 = true ∧ _isBetweenAmountAprox 1240 1300 = true ∧
      _isBetweenAmountAprox 1240 1301 = false :=
  ⟨by decide, by decide, by decide,
    (aprox_shape 1200 (by decide) (by decide)).2.2.2.1 (by decide),
    by decide, by decide, by decide⟩

end Gospodapi
